import Mathlib

/-!
Verification of the `lay-simulator-gk` stabilizer-circuit simulator.

This file is a shallow embedding of the Rust sources
`src/bitarray.rs`, `src/fakerng.rs` and `src/lib.rs`: bit-packed
bit arrays over 32-bit blocks, the Gottesman–Knill tableau simulator
(Clifford gate updates and the measurement engine), and the
repeat-sequence test RNG.  Machine words are modelled as `Nat` kept
below `2 ^ 32`; partial operations of the source (assertion failures,
out-of-range panics) are modelled by `Option` where a claim depends on
them, and are otherwise noted next to the definition.  The theorems at
the end of the file settle the specification claims against these
definitions.
-/

namespace LayGK

/-! ### Bit arrays (`src/bitarray.rs`)

`type Block = u32`: a storage word, modelled as a `Nat` (all
constructors keep blocks below `2 ^ 32`). -/

abbrev Block := Nat

/-- `BLOCK_SIZE` -/
abbrev BLOCK_SIZE : Nat := 32

/-- `BitArray { inner: Vec<Block>, len: usize }` -/
structure BitArray where
  inner : List Block
  len : Nat
deriving DecidableEq, Repr

instance : Inhabited BitArray := ⟨[], 0⟩

/-- `(l.set b v).getD b d = v` for an in-range index. -/
theorem getD_set_self' {α : Type} {l : List α} {b : Nat} (h : b < l.length)
    (v d : α) : (l.set b v).getD b d = v := by
  rw [List.getD_eq_getElem?_getD, List.getElem?_set_self h]
  rfl

/-- `(l.set b v).getD b' d = l.getD b' d` for a different index. -/
theorem getD_set_ne' {α : Type} {l : List α} {b b' : Nat} (h : b ≠ b')
    (v d : α) : (l.set b v).getD b' d = l.getD b' d := by
  rw [List.getD_eq_getElem?_getD, List.getElem?_set_ne h,
    ← List.getD_eq_getElem?_getD]

/-- Abbreviations for the `Nat`-valued storage lists. -/
theorem getD_set_self {l : List Nat} {b : Nat} (h : b < l.length) (v : Nat) :
    (l.set b v).getD b 0 = v := getD_set_self' h v 0

theorem getD_set_ne {l : List Nat} {b b' : Nat} (h : b ≠ b') (v : Nat) :
    (l.set b v).getD b' 0 = l.getD b' 0 := getD_set_ne' h v 0

/-- Writing back the element that is already there changes nothing. -/
theorem set_getD_self {α : Type} {l : List α} {b : Nat} (h : b < l.length)
    (d : α) : l.set b (l.getD b d) = l := by
  apply List.ext_getElem?
  intro j
  rcases eq_or_ne b j with rfl | hbj
  · rw [List.getElem?_set_self h, List.getD_eq_getElem?_getD,
      List.getElem?_eq_getElem h]
    rfl
  · rw [List.getElem?_set_ne hbj]

theorem list_set_getElem_self {α : Type} {l : List α} {i : Nat}
    (h : i < l.length) : l.set i l[i] = l := by
  apply List.ext_getElem?
  intro j
  rcases eq_or_ne i j with rfl | hj
  · rw [List.getElem?_set_self h, List.getElem?_eq_getElem h]
  · rw [List.getElem?_set_ne hj]

theorem getD_mem {α : Type} {l : List α} {i : Nat} (h : i < l.length) (d : α) :
    l.getD i d ∈ l := by
  rw [List.getD_eq_getElem?_getD, List.getElem?_eq_getElem h]
  exact List.getElem_mem h

/-- A word `and`ed with a single-bit mask is nonzero exactly when that
bit is set. -/
theorem and_two_pow_ne_zero_iff (v k : Nat) :
    (v &&& 2 ^ k ≠ 0) ↔ v.testBit k = true := by
  constructor
  · intro h
    obtain ⟨j, hj⟩ := Nat.ne_zero_implies_bit_true h
    rw [Nat.testBit_and] at hj
    rcases eq_or_ne k j with rfl | hk
    · rw [Nat.testBit_two_pow_self, Bool.and_true] at hj
      exact hj
    · rw [Nat.testBit_two_pow_of_ne hk, Bool.and_false] at hj
      exact absurd hj (by simp)
  · intro h hzero
    have hbit := congrArg (fun m => Nat.testBit m k) hzero
    simp only [Nat.testBit_and, Nat.testBit_two_pow_self, Bool.and_true, h,
      Nat.zero_testBit] at hbit
    exact absurd hbit (by simp)

namespace BitArray

/-- `_cap_from_len` -/
def capFromLen (len : Nat) : Nat :=
  if len > 0 then (len - 1) / BLOCK_SIZE + 1 else 0

/-- `zeros` -/
def zeros (len : Nat) : BitArray :=
  ⟨List.replicate (capFromLen len) 0, len⟩

/-- `reset`: zero every storage word in place. -/
def reset (a : BitArray) : BitArray :=
  ⟨a.inner.map (fun _ => 0), a.len⟩

/-- `negate`: `inner[index / 32] ^= 1 << (index % 32)`.  The source
indexes the vector directly and panics out of range; here an
out-of-range `List.set` is a no-op, and every use in the simulator is
in range. -/
def negate (a : BitArray) (index : Nat) : BitArray :=
  ⟨a.inner.set (index / BLOCK_SIZE)
      (a.inner.getD (index / BLOCK_SIZE) 0 ^^^ (1 <<< (index % BLOCK_SIZE))),
    a.len⟩

/-- `set_bool`: or the mask in, or and with the complement of the mask
(`!mask` on `u32` is `(2 ^ 32 - 1) ^^^ mask`). -/
def set_bool (a : BitArray) (index : Nat) (val : Bool) : BitArray :=
  if val then
    ⟨a.inner.set (index / BLOCK_SIZE)
        (a.inner.getD (index / BLOCK_SIZE) 0 ||| (1 <<< (index % BLOCK_SIZE))),
      a.len⟩
  else
    ⟨a.inner.set (index / BLOCK_SIZE)
        (a.inner.getD (index / BLOCK_SIZE) 0 &&&
          ((2 ^ BLOCK_SIZE - 1) ^^^ (1 <<< (index % BLOCK_SIZE)))),
      a.len⟩

/-- `get_masked` -/
def get_masked (a : BitArray) (index : Nat) : Block :=
  a.inner.getD (index / BLOCK_SIZE) 0 &&& (1 <<< (index % BLOCK_SIZE))

/-- `get_bool` -/
def get_bool (a : BitArray) (index : Nat) : Bool :=
  decide (get_masked a index ≠ 0)

/-- `xor_all`: word-for-word XOR of `other` into `a`.  The source
asserts equal `len`s; the iteration `zip`s the storage vectors, so
words of `a` beyond `other.inner` are left unchanged. -/
def xor_all (a other : BitArray) : BitArray :=
  ⟨(List.zipWith (· ^^^ ·) a.inner other.inner) ++
      a.inner.drop other.inner.length,
    a.len⟩

/-- Specification view: bit `i` of the stored words. -/
def getBit (a : BitArray) (i : Nat) : Bool :=
  (a.inner.getD (i / BLOCK_SIZE) 0).testBit (i % BLOCK_SIZE)

/-- Well-formed storage for semantic length `n`: the `len` field is
`n`, the word count is `_cap_from_len n`, and every word fits in a
`u32`. -/
def wf (n : Nat) (a : BitArray) : Prop :=
  a.len = n ∧ a.inner.length = capFromLen n ∧ ∀ b ∈ a.inner, b < 2 ^ 32

theorem get_bool_eq_getBit (a : BitArray) (i : Nat) :
    get_bool a i = getBit a i := by
  unfold get_bool get_masked getBit
  rw [Nat.one_shiftLeft]
  rcases h : (a.inner.getD (i / BLOCK_SIZE) 0).testBit (i % BLOCK_SIZE) with _ | _
  · simp only [decide_eq_false_iff_not, ne_eq, not_not]
    by_contra hne
    have ht := (and_two_pow_ne_zero_iff
      (a.inner.getD (i / BLOCK_SIZE) 0) (i % BLOCK_SIZE)).1 hne
    rw [h] at ht
    exact Bool.false_ne_true ht
  · simp only [decide_eq_true_eq, ne_eq]
    rw [← ne_eq, and_two_pow_ne_zero_iff]
    exact h

@[simp] theorem getBit_zeros (n i : Nat) : getBit (zeros n) i = false := by
  unfold getBit zeros
  rcases lt_or_ge (i / BLOCK_SIZE) (capFromLen n) with hlt | hge
  · rw [List.getD_eq_getElem?_getD,
      List.getElem?_eq_getElem (by simpa using hlt)]
    simp
  · rw [List.getD_eq_getElem?_getD, List.getElem?_eq_none (by simpa using hge)]
    simp

@[simp] theorem getBit_reset (a : BitArray) (i : Nat) :
    getBit (reset a) i = false := by
  unfold getBit reset
  rcases lt_or_ge (i / BLOCK_SIZE) a.inner.length with hlt | hge
  · rw [List.getD_eq_getElem?_getD,
      List.getElem?_eq_getElem (by simpa using hlt)]
    simp
  · rw [List.getD_eq_getElem?_getD, List.getElem?_eq_none (by simpa using hge)]
    simp

theorem eq_of_div_mod_eq {i j w : Nat} (h1 : i / w = j / w)
    (h2 : i % w = j % w) : i = j := by
  have h3 := Nat.div_add_mod i w
  have h4 := Nat.div_add_mod j w
  rw [h1, h2] at h3
  omega

theorem getBit_negate (a : BitArray) (j : Nat)
    (hj : j / BLOCK_SIZE < a.inner.length) (i : Nat) :
    getBit (negate a j) i = if i = j then !(getBit a i) else getBit a i := by
  unfold getBit negate
  simp only
  rcases eq_or_ne (i / BLOCK_SIZE) (j / BLOCK_SIZE) with hblk | hblk
  · rw [hblk, getD_set_self hj, Nat.testBit_xor, Nat.one_shiftLeft]
    rcases eq_or_ne (i % BLOCK_SIZE) (j % BLOCK_SIZE) with hmod | hmod
    · have hij : i = j := eq_of_div_mod_eq hblk hmod
      subst hij
      simp [Nat.testBit_two_pow_self]
    · have hij : i ≠ j := fun h => hmod (by rw [h])
      rw [Nat.testBit_two_pow_of_ne (Ne.symm hmod)]
      simp [hij, hblk]
  · have hij : i ≠ j := fun h => hblk (by rw [h])
    rw [getD_set_ne (Ne.symm hblk)]
    simp [hij]

theorem getBit_set_bool (a : BitArray) (j : Nat) (v : Bool)
    (hj : j / BLOCK_SIZE < a.inner.length) (i : Nat) :
    getBit (set_bool a j v) i = if i = j then v else getBit a i := by
  unfold getBit set_bool
  have hmodlt : i % BLOCK_SIZE < 32 := Nat.mod_lt _ (by norm_num)
  rcases v with _ | _
  · rw [if_neg Bool.false_ne_true]
    rcases eq_or_ne (i / BLOCK_SIZE) (j / BLOCK_SIZE) with hblk | hblk
    · rw [hblk, getD_set_self hj, Nat.testBit_and, Nat.testBit_xor,
        Nat.one_shiftLeft, Nat.testBit_two_pow_sub_one]
      rcases eq_or_ne (i % BLOCK_SIZE) (j % BLOCK_SIZE) with hmod | hmod
      · have hij : i = j := eq_of_div_mod_eq hblk hmod
        subst hij
        simp [Nat.testBit_two_pow_self, hmodlt]
      · have hij : i ≠ j := fun h => hmod (by rw [h])
        rw [Nat.testBit_two_pow_of_ne (Ne.symm hmod)]
        simp [hij, hblk, hmodlt]
    · have hij : i ≠ j := fun h => hblk (by rw [h])
      rw [getD_set_ne (Ne.symm hblk)]
      simp [hij]
  · rw [if_pos rfl]
    rcases eq_or_ne (i / BLOCK_SIZE) (j / BLOCK_SIZE) with hblk | hblk
    · rw [hblk, getD_set_self hj, Nat.testBit_or, Nat.one_shiftLeft]
      rcases eq_or_ne (i % BLOCK_SIZE) (j % BLOCK_SIZE) with hmod | hmod
      · have hij : i = j := eq_of_div_mod_eq hblk hmod
        subst hij
        simp [Nat.testBit_two_pow_self]
      · have hij : i ≠ j := fun h => hmod (by rw [h])
        rw [Nat.testBit_two_pow_of_ne (Ne.symm hmod)]
        simp [hij, hblk]
    · have hij : i ≠ j := fun h => hblk (by rw [h])
      rw [getD_set_ne (Ne.symm hblk)]
      simp [hij]

theorem getBit_xor_all (a b : BitArray)
    (hlen : a.inner.length = b.inner.length) (i : Nat) :
    getBit (xor_all a b) i = (getBit a i).xor (getBit b i) := by
  unfold getBit xor_all
  have hdrop : a.inner.drop b.inner.length = [] := by
    rw [List.drop_eq_nil_iff]
    omega
  simp only [hdrop, List.append_nil]
  rcases lt_or_ge (i / BLOCK_SIZE) a.inner.length with hlt | hge
  · have hlt' : i / BLOCK_SIZE < b.inner.length := hlen ▸ hlt
    have hzip : i / BLOCK_SIZE < (List.zipWith (· ^^^ ·) a.inner b.inner).length := by
      rw [List.length_zipWith]
      omega
    rw [List.getD_eq_getElem?_getD, List.getElem?_eq_getElem hzip,
      List.getD_eq_getElem?_getD, List.getElem?_eq_getElem hlt,
      List.getD_eq_getElem?_getD, List.getElem?_eq_getElem hlt']
    simp [List.getElem_zipWith, Nat.testBit_xor]
  · have hge' : b.inner.length ≤ i / BLOCK_SIZE := hlen ▸ hge
    have hzip : (List.zipWith (· ^^^ ·) a.inner b.inner).length ≤ i / BLOCK_SIZE := by
      rw [List.length_zipWith]
      omega
    rw [List.getD_eq_getElem?_getD, List.getElem?_eq_none hzip,
      List.getD_eq_getElem?_getD, List.getElem?_eq_none hge,
      List.getD_eq_getElem?_getD, List.getElem?_eq_none hge']
    simp

@[simp] theorem len_zeros (n : Nat) : (zeros n).len = n := rfl
@[simp] theorem len_reset (a : BitArray) : (reset a).len = a.len := rfl
@[simp] theorem len_negate (a : BitArray) (i : Nat) : (negate a i).len = a.len := rfl
@[simp] theorem len_set_bool (a : BitArray) (i : Nat) (v : Bool) :
    (set_bool a i v).len = a.len := by
  unfold set_bool
  rcases v with _ | _ <;> rfl
@[simp] theorem len_xor_all (a b : BitArray) : (xor_all a b).len = a.len := rfl

@[simp] theorem inner_length_zeros (n : Nat) :
    (zeros n).inner.length = capFromLen n := by simp [zeros]
@[simp] theorem inner_length_reset (a : BitArray) :
    (reset a).inner.length = a.inner.length := by simp [reset]
@[simp] theorem inner_length_negate (a : BitArray) (i : Nat) :
    (negate a i).inner.length = a.inner.length := by simp [negate]
@[simp] theorem inner_length_set_bool (a : BitArray) (i : Nat) (v : Bool) :
    (set_bool a i v).inner.length = a.inner.length := by
  unfold set_bool
  rcases v with _ | _ <;> simp
theorem inner_length_xor_all (a b : BitArray)
    (hlen : a.inner.length = b.inner.length) :
    (xor_all a b).inner.length = a.inner.length := by
  simp only [xor_all, List.length_append, List.length_zipWith, List.length_drop]
  omega

end BitArray

/-! ### The simulator (`src/lib.rs`)

`GottesmanKnillSimulator<Rng>`: the tableau (`xs`, `zs`, `sgns`), the
internal measurement buffer, and the random number generator.  The RNG
type is a parameter; the functions below that consume randomness take
its `next_u32` as an explicit argument `next32 : R → Nat × R` (a pure
step returning the drawn `u32` and the successor state). -/

structure GottesmanKnillSimulator (R : Type) where
  xs : List BitArray
  zs : List BitArray
  sgns : BitArray
  measured : BitArray
  rng : R
deriving DecidableEq, Repr

namespace GottesmanKnillSimulator

variable {R : Type}

/-- `from_rng` -/
def fromRng (n : Nat) (rng : R) : GottesmanKnillSimulator R where
  xs := (List.range n).map (fun _ => BitArray.zeros n)
  zs := (List.range n).map (fun i => (BitArray.zeros n).negate i)
  sgns := BitArray.zeros n
  measured := BitArray.zeros n
  rng := rng

/-- `n_qubits`: `self.xs.len()` -/
def n_qubits (st : GottesmanKnillSimulator R) : Nat := st.xs.length

/-- `initialize`: reset all rows, put a single `1` at `z[k][k]`, clear
signs and the measured buffer. -/
def initTableau (st : GottesmanKnillSimulator R) : GottesmanKnillSimulator R where
  xs := st.xs.map BitArray.reset
  zs := (st.zs.map BitArray.reset).mapIdx (fun i a => a.negate i)
  sgns := st.sgns.reset
  measured := st.measured.reset
  rng := st.rng

/-- `x`: negate the sign of every row whose z-bit at column `q` is set. -/
def x (q : Nat) (st : GottesmanKnillSimulator R) : GottesmanKnillSimulator R :=
  { st with
    sgns := st.zs.enum.foldl
      (fun sg iz => if iz.2.get_bool q then sg.negate iz.1 else sg) st.sgns }

/-- `y`: negate the sign of every row with `x_q ⊕ z_q = 1` (the source
xors the two masked words and compares with zero). -/
def y (q : Nat) (st : GottesmanKnillSimulator R) : GottesmanKnillSimulator R :=
  { st with
    sgns := (st.xs.zip st.zs).enum.foldl
      (fun sg ixz =>
        if (ixz.2.1.get_masked q ^^^ ixz.2.2.get_masked q) ≠ 0 then
          sg.negate ixz.1
        else sg) st.sgns }

/-- `z`: negate the sign of every row whose x-bit at column `q` is set. -/
def z (q : Nat) (st : GottesmanKnillSimulator R) : GottesmanKnillSimulator R :=
  { st with
    sgns := st.xs.enum.foldl
      (fun sg ix => if ix.2.get_bool q then sg.negate ix.1 else sg) st.sgns }

/-- One row of the `h` loop body. -/
def hstep (q : Nat) (st : GottesmanKnillSimulator R) (i : Nat) :
    GottesmanKnillSimulator R :=
  let xr := st.xs.getD i default
  let zr := st.zs.getD i default
  if xr.get_bool q && zr.get_bool q then
    { st with sgns := st.sgns.negate i }
  else if xr.get_bool q || zr.get_bool q then
    { st with xs := st.xs.set i (xr.negate q), zs := st.zs.set i (zr.negate q) }
  else st

/-- `h`: per-row case split on (x, z) at column `q` (the source zips
`xs` and `zs`, hence the `min` bound). -/
def h (q : Nat) (st : GottesmanKnillSimulator R) : GottesmanKnillSimulator R :=
  (List.range (min st.xs.length st.zs.length)).foldl (hstep q) st

/-- One row of the `s` loop body. -/
def sstep (q : Nat) (st : GottesmanKnillSimulator R) (i : Nat) :
    GottesmanKnillSimulator R :=
  let xr := st.xs.getD i default
  let zr := st.zs.getD i default
  if xr.get_bool q then
    let st1 := if zr.get_bool q then { st with sgns := st.sgns.negate i } else st
    { st1 with zs := st1.zs.set i (zr.negate q) }
  else st

/-- `s` -/
def s (q : Nat) (st : GottesmanKnillSimulator R) : GottesmanKnillSimulator R :=
  (List.range (min st.xs.length st.zs.length)).foldl (sstep q) st

/-- One row of the `sdg` loop body. -/
def sdgstep (q : Nat) (st : GottesmanKnillSimulator R) (i : Nat) :
    GottesmanKnillSimulator R :=
  let xr := st.xs.getD i default
  let zr := st.zs.getD i default
  if xr.get_bool q then
    let st1 := if !zr.get_bool q then { st with sgns := st.sgns.negate i } else st
    { st1 with zs := st1.zs.set i (zr.negate q) }
  else st

/-- `sdg` -/
def sdg (q : Nat) (st : GottesmanKnillSimulator R) : GottesmanKnillSimulator R :=
  (List.range (min st.xs.length st.zs.length)).foldl (sdgstep q) st

/-- One row of the `cx` loop body: first block toggles `x_t` and
conditionally the sign when `x_c` is set, second block toggles `z_c`
when `z_t` is set (`z` is untouched by the first block, so both
conditions read the incoming row). -/
def cxstep (c t : Nat) (st : GottesmanKnillSimulator R) (i : Nat) :
    GottesmanKnillSimulator R :=
  let xr := st.xs.getD i default
  let zr := st.zs.getD i default
  let st1 :=
    if xr.get_bool c then
      { st with
        xs := st.xs.set i (xr.negate t),
        sgns := if zr.get_bool c then st.sgns.negate i else st.sgns }
    else st
  if zr.get_bool t then { st1 with zs := st1.zs.set i (zr.negate c) } else st1

/-- `cx` -/
def cx (c t : Nat) (st : GottesmanKnillSimulator R) : GottesmanKnillSimulator R :=
  (List.range (min st.xs.length st.zs.length)).foldl (cxstep c t) st

end GottesmanKnillSimulator

/-- `mult_to`: XOR row `src` into row `dest` (x rows and z rows) and
overwrite the sign bit of `dest` with the sign bit of `src`.  The
source asserts `dest ≠ src` and reads row `src` through a raw pointer
while mutating row `dest`; its callers never pass `src` among the
destinations, so reading the current row `src` is exact. -/
def mult_to (st : GottesmanKnillSimulator R) (dest src : Nat) :
    GottesmanKnillSimulator R :=
  let st1 := { st with
    xs := st.xs.set dest ((st.xs.getD dest default).xor_all (st.xs.getD src default)) }
  let st2 := { st1 with
    zs := st1.zs.set dest ((st1.zs.getD dest default).xor_all (st1.zs.getD src default)) }
  { st2 with sgns := st2.sgns.set_bool dest (st2.sgns.get_bool src) }

/-- `Vec::swap_remove(pos)`: replace the element at `pos` with the last
element and pop.  (The source panics when `pos` is out of range; all
uses are in range.) -/
def swapRemove (l : List Nat) (pos : Nat) : List Nat :=
  (l.set pos (l.getLastD 0)).dropLast

/-- The positions (indices into `indices`) of live rows whose x-bit at
column `i` is set: `indices.iter().enumerate().filter(...).map(...)`. -/
def xInds (st : GottesmanKnillSimulator R) (indices : List Nat) (i : Nat) :
    List Nat :=
  (indices.enum.filter
    (fun pk => (st.xs.getD pk.2 default).get_bool i)).map Prod.fst

/-- Same for z-bits. -/
def zInds (st : GottesmanKnillSimulator R) (indices : List Nat) (i : Nat) :
    List Nat :=
  (indices.enum.filter
    (fun pk => (st.zs.getD pk.2 default).get_bool i)).map Prod.fst

/-- The inner row-addition loop shared by the two elimination passes:
for each position `j` in `tl`, XOR the pivot row `p` (read live, as the
source does through its raw pointers) into row `indices[j]`, and negate
that row's sign if the snapshot `sg0` of the pivot sign was set. -/
def elimAdds (indices : List Nat) (p : Nat) (sg0 : Bool)
    (tl : List Nat) (st : GottesmanKnillSimulator R) :
    GottesmanKnillSimulator R :=
  tl.foldl
    (fun st j =>
      let k := indices.getD j 0
      let st1 := { st with
        xs := st.xs.set k ((st.xs.getD k default).xor_all (st.xs.getD p default)) }
      let st2 := { st1 with
        zs := st1.zs.set k ((st1.zs.getD k default).xor_all (st1.zs.getD p default)) }
      if sg0 then { st2 with sgns := st2.sgns.negate k } else st2)
    st

/-- One column of the first (X) elimination pass of `measure`. -/
def elimX (acc : GottesmanKnillSimulator R × List Nat) (i : Nat) :
    GottesmanKnillSimulator R × List Nat :=
  let (st, indices) := acc
  match xInds st indices i with
  | [] => (st, indices)
  | p0 :: tl =>
    let p := indices.getD p0 0
    let sg0 := st.sgns.get_bool p
    (elimAdds indices p sg0 tl st, swapRemove indices p0)

/-- One column of the second (Z) elimination pass of `measure`. -/
def elimZ (acc : GottesmanKnillSimulator R × List Nat) (i : Nat) :
    GottesmanKnillSimulator R × List Nat :=
  let (st, indices) := acc
  match zInds st indices i with
  | [] => (st, indices)
  | p0 :: tl =>
    let p := indices.getD p0 0
    let sg0 := st.sgns.get_bool p
    (elimAdds indices p sg0 tl st, swapRemove indices p0)

/-- The free function `measure`.  Returns `none` where the source
panics (the `assert_eq!(indices.len(), 1)` post-condition of the
deterministic branch). -/
def measure (next32 : R → Nat × R) (st : GottesmanKnillSimulator R)
    (q : Nat) : Option (Bool × GottesmanKnillSimulator R) :=
  let noncommutatives :=
    (st.xs.enum.filter (fun ib => ib.2.get_bool q)).map Prod.fst
  match noncommutatives with
  | [] =>
    let n := st.n_qubits
    let acc1 := (List.range n).foldl elimX (st, List.range n)
    let acc2 := (List.range n).foldl
      (fun a i => if i = q then a else elimZ a i) acc1
    if acc2.2.length = 1 then
      some (acc2.1.sgns.get_bool (acc2.2.getD 0 0), acc2.1)
    else
      none
  | i0 :: rest =>
    let st1 := rest.foldl (fun st j => mult_to st j i0) st
    let (w, rng') := next32 st1.rng
    let is_one := decide (w &&& 1 ≠ 0)
    let st2 := { st1 with
      xs := st1.xs.set i0 ((st1.xs.getD i0 default).reset),
      zs := st1.zs.set i0 (((st1.zs.getD i0 default).reset).negate q),
      sgns := st1.sgns.set_bool i0 is_one,
      rng := rng' }
    some (is_one, st2)

namespace GottesmanKnillSimulator

/-- The `measure` method: compute the outcome for qubit `q` and store
it in the measured buffer at slot `ch`. -/
def measureMeth (next32 : R → Nat × R) (q ch : Nat)
    (st : GottesmanKnillSimulator R) : Option (GottesmanKnillSimulator R) :=
  (LayGK.measure next32 st q).map
    (fun r => { r.2 with measured := r.2.measured.set_bool ch r.1 })

end GottesmanKnillSimulator

/-! ### Operations and dispatch

The operation stream comes from the external `lay` crate.  Modelled
from the spec: opcode identifiers are fixed small integers forming a
closed set; only their distinctness is observable here. -/

namespace opid

def INIT : Nat := 0
def X : Nat := 1
def Y : Nat := 2
def Z : Nat := 3
def H : Nat := 4
def S : Nat := 5
def SDG : Nat := 6
def MEAS : Nat := 7
def CX : Nat := 8

end opid

/-- `OpArgs` (from the `lay` crate; modelled from the spec): a tagged
operation of one of the four shapes used by `send`. -/
inductive OpArgs where
  | Empty (id : Nat)
  | Q (id : Nat) (q : Nat)
  | QS (id : Nat) (q slot : Nat)
  | QQ (id : Nat) (c t : Nat)
deriving DecidableEq, Repr

/-- One step of `send`'s dispatch loop.  `none` models the
`unimplemented!` panics on unknown opcodes. -/
def applyOp (next32 : R → Nat × R) (st : GottesmanKnillSimulator R)
    (op : OpArgs) : Option (GottesmanKnillSimulator R) :=
  match op with
  | .Empty id => if id = opid.INIT then some st.initTableau else none
  | .Q id q =>
    if id = opid.X then some (st.x q)
    else if id = opid.Y then some (st.y q)
    else if id = opid.Z then some (st.z q)
    else if id = opid.H then some (st.h q)
    else if id = opid.S then some (st.s q)
    else if id = opid.SDG then some (st.sdg q)
    else none
  | .QS id q slot =>
    if id = opid.MEAS then st.measureMeth next32 q slot else none
  | .QQ id c t => if id = opid.CX then some (st.cx c t) else none

/-- `send`: apply a batch of operations in order. -/
def send (next32 : R → Nat × R) (ops : List OpArgs)
    (st : GottesmanKnillSimulator R) : Option (GottesmanKnillSimulator R) :=
  ops.foldlM (applyOp next32) st

/-! ### The repeat-sequence test RNG (`src/fakerng.rs`) -/

/-- `RepeatSeqFakeRng { cnt: usize, seq: Vec<u64> }` -/
structure RepeatSeqFakeRng where
  cnt : Nat
  seq : List Nat
deriving DecidableEq, Repr

namespace RepeatSeqFakeRng

/-- `new`: `assert_ne!(seq.len(), 0)`; `none` models the panic on an
empty sequence. -/
def new (seq : List Nat) : Option RepeatSeqFakeRng :=
  if seq.length = 0 then none else some ⟨0, seq⟩

/-- `next_u64`: return `seq[cnt]` and advance; wrap back to index 1
after returning `seq[0]` when the sequence is exhausted. -/
def next_u64 (r : RepeatSeqFakeRng) : Nat × RepeatSeqFakeRng :=
  match r.seq.get? r.cnt with
  | some v => (v, { r with cnt := r.cnt + 1 })
  | none => (r.seq.getD 0 0, { r with cnt := 1 })

/-- `next_u32`: `self.next_u64() as u32`. -/
def next_u32 (r : RepeatSeqFakeRng) : Nat × RepeatSeqFakeRng :=
  ((next_u64 r).1 % 2 ^ 32, (next_u64 r).2)

end RepeatSeqFakeRng

/-! ### The set-index iterator (`TIndices` in `src/bitarray.rs`) -/

/-- `TIndices` borrows the bit array's storage; we copy the word list. -/
structure TIndices where
  blocks : List Block
  current_blk : Nat
  current_bit : Nat
  buf : Block
deriving DecidableEq, Repr

/-- `true_indices` / `TIndices::new`. -/
def BitArray.true_indices (a : BitArray) : TIndices :=
  if a.inner.length > 0 then ⟨a.inner, 0, 0, a.inner.getD 0 0⟩
  else ⟨a.inner, 0, 0, 0⟩

/-- The `while (buf & 1) == 0 { bit += 1; buf >>= 1 }` loop of
`TIndices::next`; only entered with `buf ≠ 0`, which makes it
terminate. -/
def shiftToOdd (buf bit : Nat) : Nat × Nat :=
  if h : buf % 2 = 0 ∧ buf ≠ 0 then shiftToOdd (buf / 2) (bit + 1)
  else (buf, bit)
termination_by buf
decreasing_by exact Nat.div_lt_self (Nat.pos_of_ne_zero h.2) (by norm_num)

/-- Result of one `TIndices::next` call: `panic` models the
`inner.len() - 1` usize underflow on empty storage (overflow panic in
debug builds, wrapped index out of bounds in release builds). -/
inductive TStep where
  | panic
  | done
  | yield (i : Nat) (t : TIndices)
deriving DecidableEq, Repr

/-- `TIndices::next`. -/
def TIndices.next (t : TIndices) : TStep :=
  if t.buf = 0 then
    if t.blocks.length = 0 then .panic
    else if t.current_blk < t.blocks.length - 1 then
      TIndices.next ⟨t.blocks, t.current_blk + 1, 0, t.blocks.getD (t.current_blk + 1) 0⟩
    else .done
  else
    let sb := shiftToOdd t.buf t.current_bit
    .yield (t.current_blk * BLOCK_SIZE + sb.2)
      ⟨t.blocks, t.current_blk, sb.2, sb.1 ^^^ 1⟩
termination_by t.blocks.length - t.current_blk

/-- Number of set bits of a word. -/
def countOnes (n : Nat) : Nat :=
  if n = 0 then 0 else n % 2 + countOnes (n / 2)
termination_by n
decreasing_by exact Nat.div_lt_self (Nat.pos_of_ne_zero (by assumption)) (by norm_num)

/-- Ascending list of the set-bit positions of a word. -/
def bitPositions (n : Nat) : List Nat :=
  if n = 0 then []
  else (if n % 2 = 1 then [0] else []) ++ (bitPositions (n / 2)).map (· + 1)
termination_by n
decreasing_by exact Nat.div_lt_self (Nat.pos_of_ne_zero (by assumption)) (by norm_num)

theorem countOnes_shiftToOdd (buf bit : Nat) :
    countOnes (shiftToOdd buf bit).1 = countOnes buf := by
  induction buf, bit using shiftToOdd.induct with
  | case1 buf bit h ih =>
    rw [shiftToOdd, dif_pos h, ih]
    conv_rhs => rw [countOnes, if_neg h.2]
    rw [h.1, Nat.zero_add]
  | case2 buf bit h =>
    rw [shiftToOdd, dif_neg h]

theorem shiftToOdd_fst_odd (buf bit : Nat) (hb : buf ≠ 0) :
    (shiftToOdd buf bit).1 % 2 = 1 := by
  induction buf, bit using shiftToOdd.induct with
  | case1 buf bit h ih =>
    rw [shiftToOdd, dif_pos h]
    obtain ⟨h1, h2⟩ := h
    exact ih (by omega)
  | case2 buf bit h =>
    rw [shiftToOdd, dif_neg h]
    push_neg at h
    rcases Nat.mod_two_eq_zero_or_one buf with h0 | h1
    · exact absurd hb (by simpa using h h0)
    · exact h1

theorem xor_one_of_odd {n : Nat} (h : n % 2 = 1) : n ^^^ 1 = 2 * (n / 2) := by
  have hdiv : (n ^^^ 1) / 2 = n / 2 := by
    rw [Nat.xor_div_two, show (1 : Nat) / 2 = 0 from rfl, Nat.xor_zero]
  have hmod : (n ^^^ 1) % 2 = 0 := by
    have hb : (n ^^^ 1).testBit 0 = false := by
      rw [Nat.testBit_xor]
      simp [h]
    rw [Nat.testBit_zero] at hb
    simp only [decide_eq_false_iff_not] at hb
    omega
  have := Nat.div_add_mod (n ^^^ 1) 2
  omega

theorem countOnes_two_mul (m : Nat) : countOnes (2 * m) = countOnes m := by
  rcases Nat.eq_zero_or_pos m with rfl | hm
  · rfl
  · rw [countOnes, if_neg (by positivity), Nat.mul_mod_right,
      Nat.mul_div_cancel_left _ (by norm_num : (0:Nat) < 2), Nat.zero_add]

theorem countOnes_odd (n : Nat) (h : n % 2 = 1) :
    countOnes n = countOnes (n / 2) + 1 := by
  rw [countOnes, if_neg (by omega), h]
  omega

theorem countOnes_xor_one_lt {n : Nat} (h : n % 2 = 1) :
    countOnes (n ^^^ 1) < countOnes n := by
  rw [xor_one_of_odd h, countOnes_two_mul, countOnes_odd n h]
  omega

theorem lex_nat_mono {a₁ b₁ a₂ b₂ a₃ b₃ : Nat}
    (h : Prod.Lex (· < ·) (· < ·) (a₁, b₁) (a₂, b₂)) (ha : a₂ < a₃) :
    Prod.Lex (· < ·) (· < ·) (a₁, b₁) (a₃, b₃) := by
  cases h with
  | left _ _ h1 => exact Prod.Lex.left _ _ (lt_trans h1 ha)
  | right _ h2 => exact Prod.Lex.left _ _ ha

/-- Across one `next` call, a yield strictly shrinks the remaining
weight, measured lexicographically. -/
theorem next_yield_measure {t : TIndices} {i : Nat} {t' : TIndices}
    (h : t.next = .yield i t') :
    t'.blocks = t.blocks ∧
      Prod.Lex (· < ·) (· < ·)
        (t.blocks.length - t'.current_blk, countOnes t'.buf)
        (t.blocks.length - t.current_blk, countOnes t.buf) := by
  induction t using TIndices.next.induct with
  | case1 t hbuf hlen =>
    rw [TIndices.next, if_pos hbuf, if_pos hlen] at h
    exact absurd h (by simp)
  | case2 t hbuf hlen hlt ih =>
    rw [TIndices.next, if_pos hbuf, if_neg hlen, if_pos hlt] at h
    obtain ⟨hb, hm⟩ := ih h
    dsimp only at hb hm
    exact ⟨hb, lex_nat_mono hm (by omega)⟩
  | case3 t hbuf hlen hlt =>
    rw [TIndices.next, if_pos hbuf, if_neg hlen, if_neg hlt] at h
    exact absurd h (by simp)
  | case4 t hbuf =>
    rw [TIndices.next, if_neg hbuf] at h
    simp only [TStep.yield.injEq] at h
    obtain ⟨h1, h2⟩ := h
    subst h2
    dsimp only
    refine ⟨rfl, Prod.Lex.right _ ?_⟩
    rw [← countOnes_shiftToOdd t.buf t.current_bit]
    exact countOnes_xor_one_lt (shiftToOdd_fst_odd _ _ hbuf)

/-- Collect the whole iteration; `none` when a `next` call panics. -/
def TIndices.collect (t : TIndices) : Option (List Nat) :=
  match h : t.next with
  | .panic => none
  | .done => some []
  | .yield i t' => (TIndices.collect t').map (i :: ·)
termination_by (t.blocks.length - t.current_blk, countOnes t.buf)
decreasing_by
  obtain ⟨hb, hm⟩ := next_yield_measure h
  rw [hb]
  exact hm

/-! ### Remaining definitions used by the theorems -/

/-- Well-formed simulator state over `n` qubits: `n` rows on each side,
every row (and the sign and measured bit sets) well-formed of semantic
length `n`.  Every state the Rust code can construct satisfies this. -/
def GottesmanKnillSimulator.WF {R : Type} (n : Nat)
    (st : GottesmanKnillSimulator R) : Prop :=
  st.xs.length = n ∧ st.zs.length = n ∧
    (∀ a ∈ st.xs, a.wf n) ∧ (∀ a ∈ st.zs, a.wf n) ∧
    st.sgns.wf n ∧ st.measured.wf n

instance (n : Nat) (a : BitArray) : Decidable (a.wf n) := by
  unfold BitArray.wf
  infer_instance

instance {R : Type} (n : Nat) (st : GottesmanKnillSimulator R) :
    Decidable (st.WF n) := by
  unfold GottesmanKnillSimulator.WF
  infer_instance

/-- `from_seed`.  Modelled from the spec: the default RNG
(`rand_xorshift::XorShiftRng`, external to this repository) is built
from the seed by `seed_from_u64`, a pure function of the seed; its
state type and transition are abstracted into the parameters
`seedFromU64` and (elsewhere) `next32`. -/
def GottesmanKnillSimulator.fromSeed {R : Type} (seedFromU64 : Nat → R)
    (n : Nat) (seed : Nat) : GottesmanKnillSimulator R :=
  GottesmanKnillSimulator.fromRng n (seedFromU64 seed)

/-- The RNG state after `k` calls to `next_u64`. -/
def RepeatSeqFakeRng.stateAfter (r : RepeatSeqFakeRng) (k : Nat) :
    RepeatSeqFakeRng :=
  (fun r => (RepeatSeqFakeRng.next_u64 r).2)^[k] r

/-- The value returned by the `k`-th (0-based) call to `next_u64`. -/
def RepeatSeqFakeRng.nthU64 (r : RepeatSeqFakeRng) (k : Nat) : Nat :=
  (RepeatSeqFakeRng.next_u64 (r.stateAfter k)).1

/-- Specification list for the iterator: set-bit positions of the
words of `blocks`, each word `b` contributing positions offset by
`base + 32 * position-of-b`. -/
def allBits (blocks : List Block) (base : Nat) : List Nat :=
  match blocks with
  | [] => []
  | b :: rest => (bitPositions b).map (base + ·) ++ allBits rest (base + BLOCK_SIZE)

/-- The indices the iterator still has to deliver from state `t`. -/
def remBits (t : TIndices) : List Nat :=
  (bitPositions t.buf).map (fun p => t.current_blk * BLOCK_SIZE + t.current_bit + p) ++
    allBits (t.blocks.drop (t.current_blk + 1)) ((t.current_blk + 1) * BLOCK_SIZE)

/-- The ascending list of set-bit indices of a bit array's storage. -/
def BitArray.setIndices (a : BitArray) : List Nat :=
  (List.range (BLOCK_SIZE * a.inner.length)).filter a.getBit

/-! ### Fold machinery: commuting per-index steps -/

theorem comm_foldl {ι σ : Type _} (f : σ → ι → σ) (l : List ι) (i : ι)
    (hc : ∀ j ∈ l, ∀ s, f (f s i) j = f (f s j) i) (s : σ) :
    f (l.foldl f s) i = l.foldl f (f s i) := by
  induction l generalizing s with
  | nil => rfl
  | cons a l ih =>
    simp only [List.foldl_cons]
    rw [ih (fun j hj s => hc j (List.mem_cons_of_mem a hj) s),
      hc a (List.mem_cons_self a l)]

theorem foldl_twice {ι σ : Type _} (f : σ → ι → σ) (l : List ι) (hnd : l.Nodup)
    (hcomm : ∀ i ∈ l, ∀ j ∈ l, i ≠ j → ∀ s, f (f s i) j = f (f s j) i) (s : σ) :
    l.foldl f (l.foldl f s) = l.foldl (fun s i => f (f s i) i) s := by
  induction l generalizing s with
  | nil => rfl
  | cons a l ih =>
    simp only [List.foldl_cons]
    have hna : a ∉ l := (List.nodup_cons.1 hnd).1
    have hndl : l.Nodup := (List.nodup_cons.1 hnd).2
    have hc : ∀ j ∈ l, ∀ s, f (f s a) j = f (f s j) a := fun j hj s =>
      hcomm a (List.mem_cons_self a l) j (List.mem_cons_of_mem a hj)
        (fun h => hna (h ▸ hj)) s
    rw [comm_foldl f l a hc (f s a), ih hndl (fun x hx y hy hxy s =>
      hcomm x (List.mem_cons_of_mem a hx) y (List.mem_cons_of_mem a hy) hxy s)]

theorem foldl_id {ι σ : Type _} (f : σ → ι → σ) (l : List ι)
    (hid : ∀ i ∈ l, ∀ s, f s i = s) (s : σ) :
    l.foldl f s = s := by
  induction l generalizing s with
  | nil => rfl
  | cons a l ih =>
    simp only [List.foldl_cons]
    rw [hid a (List.mem_cons_self a l),
      ih (fun i hi => hid i (List.mem_cons_of_mem a hi))]

theorem foldl_involution {ι σ : Type _} (f : σ → ι → σ) (l : List ι)
    (hnd : l.Nodup)
    (hcomm : ∀ i ∈ l, ∀ j ∈ l, i ≠ j → ∀ s, f (f s i) j = f (f s j) i)
    (hinv : ∀ i ∈ l, ∀ s, f (f s i) i = s) (s : σ) :
    l.foldl f (l.foldl f s) = s := by
  rw [foldl_twice f l hnd hcomm]
  exact foldl_id _ l hinv s

theorem foldl_preserve {ι σ τ : Type _} (P : σ → τ) (f : σ → ι → σ)
    (l : List ι) (s : σ) (h : ∀ s, ∀ i ∈ l, P (f s i) = P s) :
    P (l.foldl f s) = P s := by
  induction l generalizing s with
  | nil => rfl
  | cons a l ih =>
    simp only [List.foldl_cons]
    rw [ih _ (fun s i hi => h s i (List.mem_cons_of_mem a hi)),
      h s a (List.mem_cons_self a l)]

/-! Invariant-carrying versions: the per-index steps commute and cancel
only on states satisfying an invariant `P` that the steps preserve. -/

theorem foldl_pres_prop {ι σ : Type _} (P : σ → Prop) (f : σ → ι → σ)
    (l : List ι) (s : σ) (hs : P s)
    (h : ∀ s, P s → ∀ i ∈ l, P (f s i)) : P (l.foldl f s) := by
  induction l generalizing s with
  | nil => exact hs
  | cons a l ih =>
    simp only [List.foldl_cons]
    exact ih _ (h s hs a (List.mem_cons_self a l))
      (fun s hs i hi => h s hs i (List.mem_cons_of_mem a hi))

theorem comm_foldl_inv {ι σ : Type _} (f : σ → ι → σ) (l : List ι) (i : ι)
    (P : σ → Prop) (hP : ∀ s, P s → ∀ j ∈ l, P (f s j))
    (hc : ∀ j ∈ l, ∀ s, P s → f (f s i) j = f (f s j) i)
    (s : σ) (hs : P s) :
    f (l.foldl f s) i = l.foldl f (f s i) := by
  induction l generalizing s with
  | nil => rfl
  | cons a l ih =>
    simp only [List.foldl_cons]
    rw [ih (fun s hs j hj => hP s hs j (List.mem_cons_of_mem a hj))
        (fun j hj s hs => hc j (List.mem_cons_of_mem a hj) s hs)
        (f s a) (hP s hs a (List.mem_cons_self a l)),
      hc a (List.mem_cons_self a l) s hs]

theorem foldl_twice_inv {ι σ : Type _} (f : σ → ι → σ) (l : List ι)
    (P : σ → Prop) (hP : ∀ s, P s → ∀ j ∈ l, P (f s j))
    (hcomm : ∀ i ∈ l, ∀ j ∈ l, i ≠ j → ∀ s, P s → f (f s i) j = f (f s j) i)
    (hnd : l.Nodup) (s : σ) (hs : P s) :
    l.foldl f (l.foldl f s) = l.foldl (fun s i => f (f s i) i) s := by
  induction l generalizing s with
  | nil => rfl
  | cons a l ih =>
    simp only [List.foldl_cons]
    have hna : a ∉ l := (List.nodup_cons.1 hnd).1
    have hndl : l.Nodup := (List.nodup_cons.1 hnd).2
    have hPl : ∀ s, P s → ∀ j ∈ l, P (f s j) :=
      fun s hs j hj => hP s hs j (List.mem_cons_of_mem a hj)
    have hcl : ∀ j ∈ l, ∀ s, P s → f (f s a) j = f (f s j) a :=
      fun j hj s hs => hcomm a (List.mem_cons_self a l) j
        (List.mem_cons_of_mem a hj) (fun h => hna (h ▸ hj)) s hs
    have hsa : P (f s a) := hP s hs a (List.mem_cons_self a l)
    have hsaa : P (f (f s a) a) := hP _ hsa a (List.mem_cons_self a l)
    rw [comm_foldl_inv f l a P hPl hcl (f s a) hsa,
      ih hPl (fun x hx y hy hxy s hs =>
        hcomm x (List.mem_cons_of_mem a hx) y (List.mem_cons_of_mem a hy) hxy s hs)
        hndl _ hsaa]

theorem foldl_id_inv {ι σ : Type _} (f : σ → ι → σ) (l : List ι)
    (P : σ → Prop) (hP : ∀ s, P s → ∀ j ∈ l, P (f s j))
    (hid : ∀ i ∈ l, ∀ s, P s → f s i = s) (s : σ) (hs : P s) :
    l.foldl f s = s := by
  induction l generalizing s with
  | nil => rfl
  | cons a l ih =>
    simp only [List.foldl_cons]
    rw [hid a (List.mem_cons_self a l) s hs]
    exact ih (fun s hs j hj => hP s hs j (List.mem_cons_of_mem a hj))
      (fun i hi s hs => hid i (List.mem_cons_of_mem a hi) s hs) s hs

theorem foldl_involution_inv {ι σ : Type _} (f : σ → ι → σ) (l : List ι)
    (P : σ → Prop) (hP : ∀ s, P s → ∀ j ∈ l, P (f s j))
    (hcomm : ∀ i ∈ l, ∀ j ∈ l, i ≠ j → ∀ s, P s → f (f s i) j = f (f s j) i)
    (hinv : ∀ i ∈ l, ∀ s, P s → f (f s i) i = s)
    (hnd : l.Nodup) (s : σ) (hs : P s) :
    l.foldl f (l.foldl f s) = s := by
  rw [foldl_twice_inv f l P hP hcomm hnd s hs]
  exact foldl_id_inv _ l P
    (fun s hs j hj => hP (f s j) (hP s hs j hj) j hj)
    hinv s hs

theorem foldl_fourth_inv {ι σ : Type _} (f : σ → ι → σ) (l : List ι)
    (P : σ → Prop) (hP : ∀ s, P s → ∀ j ∈ l, P (f s j))
    (hcomm : ∀ i ∈ l, ∀ j ∈ l, i ≠ j → ∀ s, P s → f (f s i) j = f (f s j) i)
    (hinv4 : ∀ i ∈ l, ∀ s, P s →  f (f (f (f s i) i) i) i = s)
    (hnd : l.Nodup) (s : σ) (hs : P s) :
    l.foldl f (l.foldl f (l.foldl f (l.foldl f s) )) = s := by
  have hP2 : ∀ s, P s → ∀ j ∈ l, P (f (f s j) j) :=
    fun s hs j hj => hP _ (hP s hs j hj) j hj
  have hcomm2 : ∀ i ∈ l, ∀ j ∈ l, i ≠ j → ∀ s, P s →
      f (f (f (f s i) i) j) j = f (f (f (f s j) j) i) i := by
    intro i hi j hj hij s hs
    have h1 : P (f s i) := hP s hs i hi
    have h2 : P (f (f s i) i) := hP _ h1 i hi
    have h3 : P (f s j) := hP s hs j hj
    have h4 : P (f (f s j) i) := hP _ (hP s hs j hj) i hi
    calc f (f (f (f s i) i) j) j
        = f (f (f (f s i) j) i) j := by rw [hcomm i hi j hj hij (f s i) h1]
      _ = f (f (f (f s j) i) i) j := by rw [hcomm i hi j hj hij s hs]
      _ = f (f (f (f s j) i) j) i := by rw [hcomm i hi j hj hij (f (f s j) i) h4]
      _ = f (f (f (f s j) j) i) i := by rw [hcomm i hi j hj hij (f s j) h3]
  have hFs : P (l.foldl f s) := foldl_pres_prop P f l s hs hP
  have hFFs : P (l.foldl f (l.foldl f s)) := foldl_pres_prop P f l _ hFs hP
  rw [foldl_twice_inv f l P hP hcomm hnd (l.foldl f (l.foldl f s)) hFFs,
    foldl_twice_inv f l P hP hcomm hnd s hs,
    foldl_twice_inv (fun s i => f (f s i) i) l P hP2 hcomm2 hnd s hs]
  exact foldl_id_inv _ l P
    (fun s hs j hj => hP2 _ (hP2 s hs j hj) j hj)
    hinv4 s hs

/-! ### Negate and set algebra at the storage level -/

namespace BitArray

theorem negate_negate (a : BitArray) (i : Nat) : (a.negate i).negate i = a := by
  unfold negate
  rcases lt_or_ge (i / BLOCK_SIZE) a.inner.length with h | h
  · simp only [getD_set_self h, List.set_set]
    rw [Nat.xor_assoc, Nat.xor_self, Nat.xor_zero, set_getD_self h]
  · have hno : ∀ v : Nat, a.inner.set (i / BLOCK_SIZE) v = a.inner :=
      fun v => List.set_eq_of_length_le (by omega)
    simp only [hno]

theorem negate_comm (a : BitArray) {i j : Nat} (hij : i ≠ j) :
    (a.negate i).negate j = (a.negate j).negate i := by
  unfold negate
  rcases eq_or_ne (i / BLOCK_SIZE) (j / BLOCK_SIZE) with hblk | hblk
  · rw [← hblk]
    rcases lt_or_ge (i / BLOCK_SIZE) a.inner.length with h | h
    · simp only [getD_set_self h, List.set_set]
      rw [Nat.xor_assoc, Nat.xor_assoc,
        Nat.xor_comm (1 <<< (i % BLOCK_SIZE)) (1 <<< (j % BLOCK_SIZE))]
    · have hno : ∀ v : Nat, a.inner.set (i / BLOCK_SIZE) v = a.inner :=
        fun v => List.set_eq_of_length_le (by omega)
      simp only [hno]
  · simp only [getD_set_ne hblk, getD_set_ne (Ne.symm hblk)]
    rw [List.set_comm _ _ _ hblk]

/-- Bits other than the negated one never change (also out of range). -/
theorem getBit_negate_ne (a : BitArray) {i j : Nat} (h : i ≠ j) :
    (a.negate j).getBit i = a.getBit i := by
  rcases lt_or_ge (j / BLOCK_SIZE) a.inner.length with hj | hj
  · rw [getBit_negate a j hj i, if_neg h]
  · unfold getBit negate
    rw [List.set_eq_of_length_le (by omega)]

/-- In range, `negate` flips its bit. -/
theorem getBit_negate_self (a : BitArray) {j : Nat}
    (hj : j / BLOCK_SIZE < a.inner.length) :
    (a.negate j).getBit j = !(a.getBit j) := by
  rw [getBit_negate a j hj j, if_pos rfl]

/-- Bits other than the written one never change (also out of range). -/
theorem getBit_set_bool_ne (a : BitArray) (v : Bool) {i j : Nat} (h : i ≠ j) :
    (a.set_bool j v).getBit i = a.getBit i := by
  rcases lt_or_ge (j / BLOCK_SIZE) a.inner.length with hj | hj
  · rw [getBit_set_bool a j v hj i, if_neg h]
  · unfold getBit set_bool
    rcases v with _ | _ <;>
      simp only [Bool.false_eq_true, if_false, if_true] <;>
      rw [List.set_eq_of_length_le (by omega)]

theorem wf_block_lt {n : Nat} {a : BitArray} (hwf : a.wf n) {q : Nat}
    (hq : q < n) : q / BLOCK_SIZE < a.inner.length := by
  obtain ⟨-, hlen, -⟩ := hwf
  rw [hlen]
  unfold capFromLen
  rw [if_pos (by omega)]
  have h1 : q / BLOCK_SIZE ≤ (n - 1) / BLOCK_SIZE :=
    Nat.div_le_div_right (by omega)
  omega

theorem get_bool_negate_ne (a : BitArray) {i j : Nat} (h : i ≠ j) :
    (a.negate j).get_bool i = a.get_bool i := by
  rw [get_bool_eq_getBit, get_bool_eq_getBit, getBit_negate_ne _ h]

theorem get_bool_negate_self (a : BitArray) {j : Nat}
    (hj : j / BLOCK_SIZE < a.inner.length) :
    (a.negate j).get_bool j = !(a.get_bool j) := by
  rw [get_bool_eq_getBit, get_bool_eq_getBit, getBit_negate_self _ hj]

theorem mask_lt_two_pow (i : Nat) : (1 <<< (i % BLOCK_SIZE) : Nat) < 2 ^ 32 := by
  rw [Nat.one_shiftLeft]
  exact Nat.pow_lt_pow_right (by norm_num) (Nat.mod_lt _ (by norm_num))

theorem getD_block_lt {l : List Nat} (h3 : ∀ b ∈ l, b < 2 ^ 32) (i : Nat) :
    l.getD i 0 < 2 ^ 32 := by
  rcases lt_or_ge i l.length with h | h
  · exact h3 _ (getD_mem h 0)
  · rw [List.getD_eq_getElem?_getD, List.getElem?_eq_none (by omega)]
    norm_num

theorem blocks_lt_set {l : List Nat} (h3 : ∀ b ∈ l, b < 2 ^ 32) {i v : Nat}
    (hv : v < 2 ^ 32) : ∀ b ∈ l.set i v, b < 2 ^ 32 := by
  intro b hb
  rcases List.mem_or_eq_of_mem_set hb with h | h
  · exact h3 _ h
  · exact h ▸ hv

theorem wf_zeros (n : Nat) : (zeros n).wf n := by
  refine ⟨rfl, by simp, ?_⟩
  intro b hb
  rw [List.eq_of_mem_replicate hb]
  norm_num

theorem wf_reset {n : Nat} {a : BitArray} (h : a.wf n) : (reset a).wf n := by
  obtain ⟨h1, h2, _⟩ := h
  refine ⟨h1, by simpa using h2, ?_⟩
  intro b hb
  simp only [reset, List.mem_map] at hb
  obtain ⟨_, _, rfl⟩ := hb
  norm_num

theorem wf_negate {n : Nat} {a : BitArray} (h : a.wf n) (i : Nat) :
    (a.negate i).wf n := by
  obtain ⟨h1, h2, h3⟩ := h
  refine ⟨h1, by simpa using h2, ?_⟩
  exact blocks_lt_set h3
    (Nat.xor_lt_two_pow (getD_block_lt h3 _) (mask_lt_two_pow i))

theorem wf_set_bool {n : Nat} {a : BitArray} (h : a.wf n) (i : Nat) (v : Bool) :
    (a.set_bool i v).wf n := by
  obtain ⟨h1, h2, h3⟩ := h
  unfold set_bool
  rcases v with _ | _
  · rw [if_neg Bool.false_ne_true]
    refine ⟨h1, by simpa using h2, ?_⟩
    refine blocks_lt_set h3 ?_
    calc a.inner.getD (i / BLOCK_SIZE) 0 &&&
          (2 ^ BLOCK_SIZE - 1 ^^^ 1 <<< (i % BLOCK_SIZE))
        ≤ a.inner.getD (i / BLOCK_SIZE) 0 := Nat.and_le_left
      _ < 2 ^ 32 := getD_block_lt h3 _
  · rw [if_pos rfl]
    refine ⟨h1, by simpa using h2, ?_⟩
    exact blocks_lt_set h3
      (Nat.or_lt_two_pow (getD_block_lt h3 _) (mask_lt_two_pow i))

theorem wf_xor_all {n : Nat} {a b : BitArray} (ha : a.wf n) (hb : b.wf n) :
    (xor_all a b).wf n := by
  have hlen : a.inner.length = b.inner.length := by
    rw [ha.2.1, hb.2.1]
  refine ⟨ha.1, ?_, ?_⟩
  · rw [inner_length_xor_all a b hlen]
    exact ha.2.1
  · intro w hw
    unfold xor_all at hw
    simp only at hw
    rw [List.drop_eq_nil_iff.2 (by omega), List.append_nil] at hw
    rw [List.mem_iff_getElem] at hw
    obtain ⟨i, hi, rfl⟩ := hw
    rw [List.getElem_zipWith]
    rw [List.length_zipWith] at hi
    exact Nat.xor_lt_two_pow
      (ha.2.2 _ (List.getElem_mem (by omega)))
      (hb.2.2 _ (List.getElem_mem (by omega)))

end BitArray

theorem enum_fst_ne {α : Type} {l : List α} {p r : Nat × α}
    (hp : p ∈ l.enum) (hr : r ∈ l.enum) (hne : p ≠ r) : p.1 ≠ r.1 := by
  intro h
  apply hne
  have h1 := List.mem_enum_iff_getElem?.1 hp
  have h2 := List.mem_enum_iff_getElem?.1 hr
  rw [h] at h1
  rw [h1] at h2
  exact Prod.ext h (Option.some.inj h2)

theorem enum_nodup {α : Type} (l : List α) : l.enum.Nodup := by
  have h : (l.enum.map Prod.fst).Nodup := by
    rw [List.enum_map_fst]
    exact List.nodup_range _
  exact h.of_map _

/-- Bit `m` after a fold of index-conditional sign negations over an
enumerated list: it flips exactly when position `m` falls in the list
and satisfies the condition. -/
theorem getBit_enumFold {α : Type} [Inhabited α] (c : α → Bool) :
    ∀ (l : List α) (k : Nat) (sg : BitArray) (m : Nat),
    m / BLOCK_SIZE < sg.inner.length →
    ((l.enumFrom k).foldl
        (fun sg iz => if c iz.2 then sg.negate iz.1 else sg) sg).getBit m
      = (sg.getBit m).xor
          (decide (k ≤ m ∧ m - k < l.length) && c (l.getD (m - k) default)) := by
  intro l
  induction l with
  | nil =>
    intro k sg m _
    simp
  | cons z l ih =>
    intro k sg m hr
    rw [List.enumFrom_cons, List.foldl_cons]
    have hr1 : m / BLOCK_SIZE <
        (if c z then sg.negate k else sg).inner.length := by
      split_ifs <;> simpa using hr
    rw [ih (k + 1) _ m hr1]
    rcases eq_or_ne m k with rfl | hmk
    · have h1 : ¬(m + 1 ≤ m ∧ m - (m + 1) < l.length) := by omega
      have h2 : (m ≤ m ∧ m - m < (z :: l).length) := by simp
      rw [decide_eq_false h1, decide_eq_true h2]
      simp only [Bool.false_and, Bool.xor_false, Bool.true_and,
        Nat.sub_self, List.getD_cons_zero]
      split_ifs with hc
      · rw [BitArray.getBit_negate_self _ hr, hc]
        cases sg.getBit m <;> rfl
      · have hcf : c z = false := by simpa using hc
        rw [hcf, Bool.xor_false]
    · have hstep : (if c z then sg.negate k else sg).getBit m = sg.getBit m := by
        split_ifs
        · exact BitArray.getBit_negate_ne _ hmk
        · rfl
      rw [hstep]
      rcases lt_or_ge m k with hlt | hge
      · have h1 : ¬(k + 1 ≤ m ∧ m - (k + 1) < l.length) := by omega
        have h2 : ¬(k ≤ m ∧ m - k < (z :: l).length) := by omega
        rw [decide_eq_false h1, decide_eq_false h2]
        simp
      · have hge1 : k + 1 ≤ m := by omega
        have harith : m - k = (m - (k + 1)) + 1 := by omega
        have hcond : (k + 1 ≤ m ∧ m - (k + 1) < l.length)
            ↔ (k ≤ m ∧ m - k < (z :: l).length) := by
          simp only [List.length_cons]
          omega
        have hgetD : (z :: l).getD (m - k) default = l.getD (m - (k + 1)) default := by
          rw [harith, List.getD_cons_succ]
        rw [decide_eq_decide.2 hcond, hgetD]

/-- The same for a fold over a plain list of distinct indices. -/
theorem getBit_listFold (c : Nat → Bool) :
    ∀ (l : List Nat), l.Nodup → ∀ (sg : BitArray) (m : Nat),
    m / BLOCK_SIZE < sg.inner.length →
    (l.foldl (fun sg i => if c i then sg.negate i else sg) sg).getBit m
      = (sg.getBit m).xor (decide (m ∈ l) && c m) := by
  intro l
  induction l with
  | nil =>
    intro _ sg m _
    simp
  | cons a l ih =>
    intro hnd sg m hr
    rw [List.foldl_cons]
    have hr1 : m / BLOCK_SIZE < (if c a then sg.negate a else sg).inner.length := by
      split_ifs <;> simpa using hr
    rw [ih (List.nodup_cons.1 hnd).2 _ m hr1]
    rcases eq_or_ne m a with rfl | hma
    · have hnotmem : m ∉ l := (List.nodup_cons.1 hnd).1
      rw [decide_eq_false hnotmem, decide_eq_true (List.mem_cons_self m l)]
      simp only [Bool.false_and, Bool.xor_false, Bool.true_and]
      split_ifs with hc
      · rw [BitArray.getBit_negate_self _ hr, hc]
        cases sg.getBit m <;> rfl
      · have hcf : c m = false := by simpa using hc
        rw [hcf, Bool.xor_false]
    · have hstep : (if c a then sg.negate a else sg).getBit m = sg.getBit m := by
        split_ifs
        · exact BitArray.getBit_negate_ne _ hma
        · rfl
      rw [hstep]
      have hcond : (m ∈ l) ↔ (m ∈ a :: l) := by
        simp [List.mem_cons, hma]
      rw [decide_eq_decide.2 hcond]

/-! ### Per-row gate step lemmas -/

namespace GottesmanKnillSimulator

variable {R : Type}

theorem hstep_comm (q : Nat) (st : GottesmanKnillSimulator R) {i j : Nat}
    (hij : i ≠ j) :
    hstep q (hstep q st i) j = hstep q (hstep q st j) i := by
  have hij' : j ≠ i := Ne.symm hij
  unfold hstep
  by_cases hxi : (st.xs[i]?.getD default).get_bool q <;>
  by_cases hzi : (st.zs[i]?.getD default).get_bool q <;>
  by_cases hxj : (st.xs[j]?.getD default).get_bool q <;>
  by_cases hzj : (st.zs[j]?.getD default).get_bool q <;>
  simp [List.getD_eq_getElem?_getD, List.getElem?_set_ne hij,
    List.getElem?_set_ne hij', hxi, hzi, hxj, hzj,
    List.set_comm _ _ _ hij, BitArray.negate_comm _ hij]

theorem hstep_invol (q n : Nat) (st : GottesmanKnillSimulator R) {i : Nat}
    (hq : q < n)
    (hxlen : i < st.xs.length) (hzlen : i < st.zs.length)
    (hxw : (st.xs.getD i default).wf n) (hzw : (st.zs.getD i default).wf n) :
    hstep q (hstep q st i) i = st := by
  have hqx := BitArray.wf_block_lt hxw hq
  have hqz := BitArray.wf_block_lt hzw hq
  have hbx : ((st.xs.getD i default).negate q).get_bool q
      = !(st.xs.getD i default).get_bool q :=
    BitArray.get_bool_negate_self _ hqx
  have hbz : ((st.zs.getD i default).negate q).get_bool q
      = !(st.zs.getD i default).get_bool q :=
    BitArray.get_bool_negate_self _ hqz
  unfold hstep
  by_cases hxi : (st.xs.getD i default).get_bool q <;>
  by_cases hzi : (st.zs.getD i default).get_bool q <;>
  simp_all [List.getD_eq_getElem?_getD, List.getElem?_set_self, hxlen, hzlen,
    BitArray.negate_negate, List.set_set, list_set_getElem_self]

theorem sstep_comm (q : Nat) (st : GottesmanKnillSimulator R) {i j : Nat}
    (hij : i ≠ j) :
    sstep q (sstep q st i) j = sstep q (sstep q st j) i := by
  have hij' : j ≠ i := Ne.symm hij
  unfold sstep
  by_cases hxi : (st.xs[i]?.getD default).get_bool q <;>
  by_cases hzi : (st.zs[i]?.getD default).get_bool q <;>
  by_cases hxj : (st.xs[j]?.getD default).get_bool q <;>
  by_cases hzj : (st.zs[j]?.getD default).get_bool q <;>
  simp [List.getD_eq_getElem?_getD, List.getElem?_set_ne hij,
    List.getElem?_set_ne hij', hxi, hzi, hxj, hzj,
    List.set_comm _ _ _ hij, BitArray.negate_comm _ hij]

theorem sstep_pow4 (q n : Nat) (st : GottesmanKnillSimulator R) {i : Nat}
    (hq : q < n) (hxlen : i < st.xs.length) (hzlen : i < st.zs.length)
    (hzw : (st.zs.getD i default).wf n) :
    sstep q (sstep q (sstep q (sstep q st i) i) i) i = st := by
  have hqz := BitArray.wf_block_lt hzw hq
  have hb1 : ((st.zs.getD i default).negate q).get_bool q
      = !(st.zs.getD i default).get_bool q :=
    BitArray.get_bool_negate_self _ hqz
  unfold sstep
  by_cases hxi : (st.xs.getD i default).get_bool q <;>
  by_cases hzi : (st.zs.getD i default).get_bool q <;>
  simp_all [List.getD_eq_getElem?_getD, List.getElem?_set_self, hxlen, hzlen,
    BitArray.negate_negate, List.set_set, list_set_getElem_self]

theorem cxstep_comm (c t : Nat) (st : GottesmanKnillSimulator R) {i j : Nat}
    (hij : i ≠ j) :
    cxstep c t (cxstep c t st i) j = cxstep c t (cxstep c t st j) i := by
  have hij' : j ≠ i := Ne.symm hij
  unfold cxstep
  by_cases hxci : (st.xs[i]?.getD default).get_bool c <;>
  by_cases hzci : (st.zs[i]?.getD default).get_bool c <;>
  by_cases hzti : (st.zs[i]?.getD default).get_bool t <;>
  by_cases hxcj : (st.xs[j]?.getD default).get_bool c <;>
  by_cases hzcj : (st.zs[j]?.getD default).get_bool c <;>
  by_cases hztj : (st.zs[j]?.getD default).get_bool t <;>
  simp [List.getD_eq_getElem?_getD, List.getElem?_set_ne hij,
    List.getElem?_set_ne hij', hxci, hzci, hzti, hxcj, hzcj, hztj,
    List.set_comm _ _ _ hij, BitArray.negate_comm _ hij]

/-- `cx` applied twice to one row: the x and z rows are restored, and
the sign flips exactly when the row has `x_c = 1` and `z_t = 1`. -/
theorem cxstep_sq (c t n : Nat) (st : GottesmanKnillSimulator R) {i : Nat}
    (hct : c ≠ t) (hcn : c < n)
    (hxlen : i < st.xs.length) (hzlen : i < st.zs.length)
    (hzw : (st.zs.getD i default).wf n) :
    cxstep c t (cxstep c t st i) i =
      if (st.xs.getD i default).get_bool c
            && (st.zs.getD i default).get_bool t then
        { st with sgns := st.sgns.negate i }
      else st := by
  have htc : t ≠ c := Ne.symm hct
  have hqz := BitArray.wf_block_lt hzw hcn
  have hb1 : ((st.zs.getD i default).negate c).get_bool c
      = !(st.zs.getD i default).get_bool c :=
    BitArray.get_bool_negate_self _ hqz
  have hb2 : ∀ a : BitArray, (a.negate t).get_bool c = a.get_bool c :=
    fun a => BitArray.get_bool_negate_ne a hct
  have hb3 : ∀ a : BitArray, (a.negate c).get_bool t = a.get_bool t :=
    fun a => BitArray.get_bool_negate_ne a htc
  unfold cxstep
  by_cases hxc : (st.xs.getD i default).get_bool c <;>
  by_cases hzc : (st.zs.getD i default).get_bool c <;>
  by_cases hzt : (st.zs.getD i default).get_bool t <;>
  simp_all [List.getD_eq_getElem?_getD, List.getElem?_set_self, hxlen, hzlen,
    BitArray.negate_negate, List.set_set, list_set_getElem_self]

theorem hstep_lengths (q : Nat) (st : GottesmanKnillSimulator R) (i : Nat) :
    (hstep q st i).xs.length = st.xs.length ∧
      (hstep q st i).zs.length = st.zs.length ∧
      (hstep q st i).measured = st.measured ∧
      (hstep q st i).rng = st.rng := by
  unfold hstep
  dsimp only
  split_ifs <;> simp

theorem sstep_lengths (q : Nat) (st : GottesmanKnillSimulator R) (i : Nat) :
    (sstep q st i).xs.length = st.xs.length ∧
      (sstep q st i).zs.length = st.zs.length ∧
      (sstep q st i).measured = st.measured ∧
      (sstep q st i).rng = st.rng := by
  unfold sstep
  dsimp only
  split_ifs <;> simp

theorem sdgstep_lengths (q : Nat) (st : GottesmanKnillSimulator R) (i : Nat) :
    (sdgstep q st i).xs.length = st.xs.length ∧
      (sdgstep q st i).zs.length = st.zs.length ∧
      (sdgstep q st i).measured = st.measured ∧
      (sdgstep q st i).rng = st.rng := by
  unfold sdgstep
  dsimp only
  split_ifs <;> simp

theorem cxstep_lengths (c t : Nat) (st : GottesmanKnillSimulator R) (i : Nat) :
    (cxstep c t st i).xs.length = st.xs.length ∧
      (cxstep c t st i).zs.length = st.zs.length ∧
      (cxstep c t st i).measured = st.measured ∧
      (cxstep c t st i).rng = st.rng := by
  unfold cxstep
  dsimp only
  split_ifs <;> simp

theorem hstep_wf {n : Nat} (q : Nat) {st : GottesmanKnillSimulator R}
    {i : Nat} (hwf : st.WF n) (hi : i < n) : (hstep q st i).WF n := by
  obtain ⟨h1, h2, h3, h4, h5, h6⟩ := hwf
  unfold hstep
  dsimp only
  split_ifs with hc1 hc2
  · exact ⟨h1, h2, h3, h4, BitArray.wf_negate h5 i, h6⟩
  · refine ⟨by simpa using h1, by simpa using h2, ?_, ?_, h5, h6⟩
    · intro a ha
      rcases List.mem_or_eq_of_mem_set ha with hmem | rfl
      · exact h3 _ hmem
      · exact BitArray.wf_negate (h3 _ (getD_mem (h1 ▸ hi) _)) q
    · intro a ha
      rcases List.mem_or_eq_of_mem_set ha with hmem | rfl
      · exact h4 _ hmem
      · exact BitArray.wf_negate (h4 _ (getD_mem (h2 ▸ hi) _)) q
  · exact ⟨h1, h2, h3, h4, h5, h6⟩

theorem sstep_wf {n : Nat} (q : Nat) {st : GottesmanKnillSimulator R}
    {i : Nat} (hwf : st.WF n) (hi : i < n) : (sstep q st i).WF n := by
  obtain ⟨h1, h2, h3, h4, h5, h6⟩ := hwf
  have hrow : ∀ a ∈ st.zs.set i ((st.zs.getD i default).negate q), a.wf n := by
    intro a ha
    rcases List.mem_or_eq_of_mem_set ha with hmem | rfl
    · exact h4 _ hmem
    · exact BitArray.wf_negate (h4 _ (getD_mem (h2 ▸ hi) _)) q
  unfold sstep
  dsimp only
  split_ifs <;>
    refine ⟨by simpa using h1, by simpa using h2, h3, ?_, ?_, h6⟩ <;>
    first
      | exact h4
      | exact hrow
      | exact h5
      | exact BitArray.wf_negate h5 i

theorem cxstep_wf {n : Nat} (c t : Nat) {st : GottesmanKnillSimulator R}
    {i : Nat} (hwf : st.WF n) (hi : i < n) : (cxstep c t st i).WF n := by
  obtain ⟨h1, h2, h3, h4, h5, h6⟩ := hwf
  have hxrow : ∀ a ∈ st.xs.set i ((st.xs.getD i default).negate t), a.wf n := by
    intro a ha
    rcases List.mem_or_eq_of_mem_set ha with hmem | rfl
    · exact h3 _ hmem
    · exact BitArray.wf_negate (h3 _ (getD_mem (h1 ▸ hi) _)) t
  have hzrow : ∀ a ∈ st.zs.set i ((st.zs.getD i default).negate c), a.wf n := by
    intro a ha
    rcases List.mem_or_eq_of_mem_set ha with hmem | rfl
    · exact h4 _ hmem
    · exact BitArray.wf_negate (h4 _ (getD_mem (h2 ▸ hi) _)) c
  unfold cxstep
  dsimp only
  split_ifs <;>
    refine ⟨by simpa using h1, by simpa using h2, ?_, ?_, ?_, h6⟩ <;>
    first
      | exact h3
      | exact hxrow
      | exact h4
      | exact hzrow
      | exact h5
      | exact BitArray.wf_negate h5 i


theorem x_x (q : Nat) (st : GottesmanKnillSimulator R) : (st.x q).x q = st := by
  unfold GottesmanKnillSimulator.x
  dsimp only
  rw [foldl_involution _ st.zs.enum (enum_nodup _)
    (fun iz hiz jz hjz hne sg => by
      by_cases h1 : iz.2.get_bool q <;> by_cases h2 : jz.2.get_bool q <;>
        simp [h1, h2, BitArray.negate_comm _ (enum_fst_ne hiz hjz hne)])
    (fun iz hiz sg => by
      by_cases h1 : iz.2.get_bool q <;> simp [h1, BitArray.negate_negate])]

theorem z_z (q : Nat) (st : GottesmanKnillSimulator R) : (st.z q).z q = st := by
  unfold GottesmanKnillSimulator.z
  dsimp only
  rw [foldl_involution _ st.xs.enum (enum_nodup _)
    (fun iz hiz jz hjz hne sg => by
      by_cases h1 : iz.2.get_bool q <;> by_cases h2 : jz.2.get_bool q <;>
        simp [h1, h2, BitArray.negate_comm _ (enum_fst_ne hiz hjz hne)])
    (fun iz hiz sg => by
      by_cases h1 : iz.2.get_bool q <;> simp [h1, BitArray.negate_negate])]

theorem y_y (q : Nat) (st : GottesmanKnillSimulator R) : (st.y q).y q = st := by
  unfold GottesmanKnillSimulator.y
  dsimp only
  rw [foldl_involution _ (st.xs.zip st.zs).enum (enum_nodup _)
    (fun iz hiz jz hjz hne sg => by
      by_cases h1 : (iz.2.1.get_masked q ^^^ iz.2.2.get_masked q) ≠ 0 <;>
      by_cases h2 : (jz.2.1.get_masked q ^^^ jz.2.2.get_masked q) ≠ 0 <;>
        simp [h1, h2, BitArray.negate_comm _ (enum_fst_ne hiz hjz hne)])
    (fun iz hiz sg => by
      by_cases h1 : (iz.2.1.get_masked q ^^^ iz.2.2.get_masked q) ≠ 0 <;>
        simp [h1, BitArray.negate_negate])]

theorem h_h {n : Nat} (q : Nat) (st : GottesmanKnillSimulator R)
    (hwf : st.WF n) (hq : q < n) : (st.h q).h q = st := by
  have hFlen : ∀ (s : GottesmanKnillSimulator R) (m : Nat),
      ((List.range m).foldl (hstep q) s).xs.length = s.xs.length ∧
      ((List.range m).foldl (hstep q) s).zs.length = s.zs.length := by
    intro s m
    constructor
    · exact foldl_preserve (fun s => s.xs.length) (hstep q) _ s
        (fun s i _ => (hstep_lengths q s i).1)
    · exact foldl_preserve (fun s => s.zs.length) (hstep q) _ s
        (fun s i _ => (hstep_lengths q s i).2.1)
  have hinner : st.h q = (List.range n).foldl (hstep q) st := by
    unfold GottesmanKnillSimulator.h
    rw [hwf.1, hwf.2.1, min_self]
  rw [hinner]
  unfold GottesmanKnillSimulator.h
  rw [(hFlen st n).1, (hFlen st n).2, hwf.1, hwf.2.1, min_self]
  exact foldl_involution_inv (hstep q) (List.range n) (WF n)
    (fun s hs i hi => hstep_wf q hs (List.mem_range.1 hi))
    (fun i _ j _ hij s _ => hstep_comm q s hij)
    (fun i hi s hs => hstep_invol q n s hq
      (by rw [hs.1]; exact List.mem_range.1 hi)
      (by rw [hs.2.1]; exact List.mem_range.1 hi)
      (hs.2.2.1 _ (getD_mem (by rw [hs.1]; exact List.mem_range.1 hi) _))
      (hs.2.2.2.1 _ (getD_mem (by rw [hs.2.1]; exact List.mem_range.1 hi) _)))
    (List.nodup_range n) st hwf

theorem s_pow4 {n : Nat} (q : Nat) (st : GottesmanKnillSimulator R)
    (hwf : st.WF n) (hq : q < n) : (((st.s q).s q).s q).s q = st := by
  have hFlen : ∀ (s : GottesmanKnillSimulator R),
      ((List.range n).foldl (sstep q) s).xs.length = s.xs.length ∧
      ((List.range n).foldl (sstep q) s).zs.length = s.zs.length :=
    fun s => ⟨foldl_preserve (fun s => s.xs.length) (sstep q) _ s
        (fun s i _ => (sstep_lengths q s i).1),
      foldl_preserve (fun s => s.zs.length) (sstep q) _ s
        (fun s i _ => (sstep_lengths q s i).2.1)⟩
  have key : ∀ (s : GottesmanKnillSimulator R), s.xs.length = n →
      s.zs.length = n → s.s q = (List.range n).foldl (sstep q) s := by
    intro s e1 e2
    unfold GottesmanKnillSimulator.s
    rw [e1, e2, min_self]
  have h1x : ((List.range n).foldl (sstep q) st).xs.length = n := by
    rw [(hFlen st).1, hwf.1]
  have h1z : ((List.range n).foldl (sstep q) st).zs.length = n := by
    rw [(hFlen st).2, hwf.2.1]
  have h2x : ((List.range n).foldl (sstep q)
      ((List.range n).foldl (sstep q) st)).xs.length = n := by
    rw [(hFlen _).1, h1x]
  have h2z : ((List.range n).foldl (sstep q)
      ((List.range n).foldl (sstep q) st)).zs.length = n := by
    rw [(hFlen _).2, h1z]
  have h3x : ((List.range n).foldl (sstep q) ((List.range n).foldl (sstep q)
      ((List.range n).foldl (sstep q) st))).xs.length = n := by
    rw [(hFlen _).1, h2x]
  have h3z : ((List.range n).foldl (sstep q) ((List.range n).foldl (sstep q)
      ((List.range n).foldl (sstep q) st))).zs.length = n := by
    rw [(hFlen _).2, h2z]
  rw [key st hwf.1 hwf.2.1, key _ h1x h1z, key _ h2x h2z, key _ h3x h3z]
  exact foldl_fourth_inv (sstep q) (List.range n) (WF n)
    (fun s hs i hi => sstep_wf q hs (List.mem_range.1 hi))
    (fun i _ j _ hij s _ => sstep_comm q s hij)
    (fun i hi s hs => sstep_pow4 q n s hq
      (by rw [hs.1]; exact List.mem_range.1 hi)
      (by rw [hs.2.1]; exact List.mem_range.1 hi)
      (hs.2.2.2.1 _ (getD_mem (by rw [hs.2.1]; exact List.mem_range.1 hi) _)))
    (List.nodup_range n) st hwf

theorem foldl_congr_inv {ι σ : Type _} (f g : σ → ι → σ) (l : List ι)
    (P : σ → Prop) (hPf : ∀ s, P s → ∀ i ∈ l, P (f s i))
    (heq : ∀ s, P s → ∀ i ∈ l, f s i = g s i) (s : σ) (hs : P s) :
    l.foldl f s = l.foldl g s := by
  induction l generalizing s with
  | nil => rfl
  | cons a l ih =>
    simp only [List.foldl_cons]
    rw [← heq s hs a (List.mem_cons_self a l)]
    exact ih (fun s hs i hi => hPf s hs i (List.mem_cons_of_mem a hi))
      (fun s hs i hi => heq s hs i (List.mem_cons_of_mem a hi))
      (f s a) (hPf s hs a (List.mem_cons_self a l))

theorem foldl_sgns_cond (cond : List BitArray → List BitArray → Nat → Bool)
    (l : List Nat) (st : GottesmanKnillSimulator R) :
    l.foldl (fun s i =>
        if cond s.xs s.zs i then { s with sgns := s.sgns.negate i } else s) st
      = { st with
          sgns := l.foldl
              (fun sg i => if cond st.xs st.zs i then sg.negate i else sg)
              st.sgns } := by
  induction l generalizing st with
  | nil => rfl
  | cons a l ih =>
    simp only [List.foldl_cons]
    by_cases hc : cond st.xs st.zs a
    · rw [if_pos hc, if_pos hc, ih]
    · rw [if_neg hc, if_neg hc, ih]

theorem cx_cx_char {n : Nat} (c t : Nat) (st : GottesmanKnillSimulator R)
    (hwf : st.WF n) (hct : c ≠ t) (hcn : c < n) :
    (st.cx c t).cx c t = { st with
      sgns := (List.range n).foldl
          (fun sg i => if (st.xs.getD i default).get_bool c
              && (st.zs.getD i default).get_bool t then sg.negate i else sg)
          st.sgns } := by
  have hFlen : ∀ (s : GottesmanKnillSimulator R),
      ((List.range n).foldl (cxstep c t) s).xs.length = s.xs.length ∧
      ((List.range n).foldl (cxstep c t) s).zs.length = s.zs.length :=
    fun s => ⟨foldl_preserve (fun s => s.xs.length) (cxstep c t) _ s
        (fun s i _ => (cxstep_lengths c t s i).1),
      foldl_preserve (fun s => s.zs.length) (cxstep c t) _ s
        (fun s i _ => (cxstep_lengths c t s i).2.1)⟩
  have key : ∀ (s : GottesmanKnillSimulator R), s.xs.length = n →
      s.zs.length = n → s.cx c t = (List.range n).foldl (cxstep c t) s := by
    intro s e1 e2
    unfold GottesmanKnillSimulator.cx
    rw [e1, e2, min_self]
  have h1x : ((List.range n).foldl (cxstep c t) st).xs.length = n := by
    rw [(hFlen st).1, hwf.1]
  have h1z : ((List.range n).foldl (cxstep c t) st).zs.length = n := by
    rw [(hFlen st).2, hwf.2.1]
  rw [key st hwf.1 hwf.2.1, key _ h1x h1z]
  rw [foldl_twice_inv (cxstep c t) (List.range n) (WF n) ?hP ?hcomm
    (List.nodup_range n) st hwf]
  case hP => exact fun s hs i hi => cxstep_wf c t hs (List.mem_range.1 hi)
  case hcomm => exact fun i _ j _ hij s _ => cxstep_comm c t s hij
  rw [foldl_congr_inv (fun s i => cxstep c t (cxstep c t s i) i)
    (fun s i => if (s.xs.getD i default).get_bool c
        && (s.zs.getD i default).get_bool t then
        { s with sgns := s.sgns.negate i } else s)
    (List.range n) (WF n)
    (fun s hs i hi => cxstep_wf c t (cxstep_wf c t hs (List.mem_range.1 hi))
      (List.mem_range.1 hi))
    (fun s hs i hi => cxstep_sq c t n s hct hcn
      (by rw [hs.1]; exact List.mem_range.1 hi)
      (by rw [hs.2.1]; exact List.mem_range.1 hi)
      (hs.2.2.2.1 _ (getD_mem (by rw [hs.2.1]; exact List.mem_range.1 hi) _)))
    st hwf]
  exact foldl_sgns_cond
    (fun xs zs i => (xs.getD i default).get_bool c
      && (zs.getD i default).get_bool t) (List.range n) st

end GottesmanKnillSimulator

/-! ### Frame lemmas for the measurement engine -/

section Frame

variable {R : Type}

theorem mult_to_measured (st : GottesmanKnillSimulator R) (d s : Nat) :
    (mult_to st d s).measured = st.measured := rfl

theorem mult_to_rng (st : GottesmanKnillSimulator R) (d s : Nat) :
    (mult_to st d s).rng = st.rng := rfl

theorem elimAdds_frame (indices : List Nat) (p : Nat) (sg0 : Bool)
    (tl : List Nat) (st : GottesmanKnillSimulator R) :
    (elimAdds indices p sg0 tl st).measured = st.measured ∧
    (elimAdds indices p sg0 tl st).rng = st.rng := by
  unfold elimAdds
  constructor
  · refine foldl_preserve (fun s => s.measured) _ tl st ?_
    intro s j _
    dsimp only
    split_ifs <;> rfl
  · refine foldl_preserve (fun s => s.rng) _ tl st ?_
    intro s j _
    dsimp only
    split_ifs <;> rfl

theorem elimX_frame (acc : GottesmanKnillSimulator R × List Nat) (i : Nat) :
    (elimX acc i).1.measured = acc.1.measured ∧
    (elimX acc i).1.rng = acc.1.rng := by
  obtain ⟨st, indices⟩ := acc
  unfold elimX
  dsimp only
  cases h : xInds st indices i with
  | nil => exact ⟨rfl, rfl⟩
  | cons p0 tl =>
    dsimp only
    exact ⟨(elimAdds_frame _ _ _ _ _).1, (elimAdds_frame _ _ _ _ _).2⟩

theorem elimZ_frame (acc : GottesmanKnillSimulator R × List Nat) (i : Nat) :
    (elimZ acc i).1.measured = acc.1.measured ∧
    (elimZ acc i).1.rng = acc.1.rng := by
  obtain ⟨st, indices⟩ := acc
  unfold elimZ
  dsimp only
  cases h : zInds st indices i with
  | nil => exact ⟨rfl, rfl⟩
  | cons p0 tl =>
    dsimp only
    exact ⟨(elimAdds_frame _ _ _ _ _).1, (elimAdds_frame _ _ _ _ _).2⟩

/-- The free `measure` never touches the measured buffer; the
deterministic branch also leaves the RNG untouched. -/
theorem measure_measured (next32 : R → Nat × R) (st : GottesmanKnillSimulator R)
    (q : Nat) {b : Bool} {st' : GottesmanKnillSimulator R}
    (h : LayGK.measure next32 st q = some (b, st')) :
    st'.measured = st.measured := by
  unfold LayGK.measure at h
  dsimp only at h
  split at h
  next heq =>
    split at h
    · rename_i hlen
      injection h with h2
      injection h2 with hb hst
      subst hst
      have h1 : ((List.range st.n_qubits).foldl elimX
          (st, List.range st.n_qubits)).1.measured = st.measured := by
        refine foldl_preserve (fun a : GottesmanKnillSimulator R × List Nat => a.1.measured) _ _ _ ?_
        intro a i _
        exact (elimX_frame a i).1
      have h2 : ∀ acc : GottesmanKnillSimulator R × List Nat,
          ((List.range st.n_qubits).foldl
            (fun a i => if i = q then a else elimZ a i) acc).1.measured
            = acc.1.measured := by
        intro acc
        refine foldl_preserve (fun a : GottesmanKnillSimulator R × List Nat => a.1.measured) _ _ _ ?_
        intro a i _
        split_ifs
        · rfl
        · exact (elimZ_frame a i).1
      rw [h2, h1]
    · exact absurd h (by simp)
  next i0 rest heq =>
    injection h with h2
    injection h2 with hb hst
    subst hst
    show (rest.foldl (fun st j => mult_to st j i0) st).measured = st.measured
    refine foldl_preserve (fun s => s.measured) _ rest st ?_
    intro s j _
    rfl

end Frame

/-! ### Claim C2: Clifford identities -/

/-- A reachable two-qubit state whose first row is `X₀Y₁`: prepared by
`H(0); CX(0,1); S(1)` from the initial state. -/
def c2state : GottesmanKnillSimulator Unit :=
  (((GottesmanKnillSimulator.fromRng 2 ()).h 0).cx 0 1).s 1

/-- **C2, counterexample**: `(CX₀₁)²` is not the identity on the
tableau: on the (reachable, well-formed) state with rows `X₀Y₁` and
`Z₀Z₁` it flips the sign bit of row 0 (the row with `x_c = 1` and
`z_t = 1`), because the `cx` sign rule toggles on `x_c ∧ z_c` and the
second application sees the z-bit at the control already toggled. -/
theorem c2_cx_cx_counterexample :
    ((c2state.cx 0 1).cx 0 1 ≠ c2state) ∧
      ((c2state.cx 0 1).cx 0 1).sgns.get_bool 0 = true ∧
      c2state.sgns.get_bool 0 = false ∧ c2state.WF 2 ∧ (0 : Nat) ≠ 1 := by
  refine ⟨?_, by decide, by decide, by decide, by decide⟩
  intro h
  have hb := congrArg (fun s => s.sgns.get_bool 0) h
  revert hb
  decide

/-- **C2 (amended)**: on a well-formed `n`-qubit tableau, `X(q)`,
`Z(q)` and `H(q)` applied twice and `S(q)` applied four times restore
the state exactly; `CX(c,t)` applied twice restores the x-rows, the
z-rows and the measured buffer, and flips the sign of exactly those
rows `k` with `x_{k,c} = 1` and `z_{k,t} = 1` (so `(CX)² = I` holds
exactly on states with no such row). -/
theorem c2_clifford_identities {R : Type} {n : Nat}
    (st : GottesmanKnillSimulator R) (hwf : st.WF n) :
    (∀ q : Nat, (st.x q).x q = st) ∧
    (∀ q : Nat, (st.z q).z q = st) ∧
    (∀ q : Nat, q < n → (st.h q).h q = st) ∧
    (∀ q : Nat, q < n → (((st.s q).s q).s q).s q = st) ∧
    (∀ c t : Nat, c ≠ t → c < n → t < n →
      ((st.cx c t).cx c t).xs = st.xs ∧
      ((st.cx c t).cx c t).zs = st.zs ∧
      ((st.cx c t).cx c t).measured = st.measured ∧
      (∀ k : Nat, k < n → ((st.cx c t).cx c t).sgns.getBit k
          = (st.sgns.getBit k).xor
              ((st.xs.getD k default).get_bool c
                && (st.zs.getD k default).get_bool t))) := by
  refine ⟨fun q => GottesmanKnillSimulator.x_x q st,
    fun q => GottesmanKnillSimulator.z_z q st,
    fun q hq => GottesmanKnillSimulator.h_h q st hwf hq,
    fun q hq => GottesmanKnillSimulator.s_pow4 q st hwf hq,
    fun c t hct hcn htn => ?_⟩
  rw [GottesmanKnillSimulator.cx_cx_char c t st hwf hct hcn]
  refine ⟨rfl, rfl, rfl, fun k hk => ?_⟩
  have hr : k / BLOCK_SIZE < st.sgns.inner.length :=
    BitArray.wf_block_lt hwf.2.2.2.2.1 hk
  rw [getBit_listFold _ (List.range n) (List.nodup_range n) st.sgns k hr]
  rw [decide_eq_true (by simpa using hk : k ∈ List.range n), Bool.true_and]

/-- **C2, witness**: the amended identities at a concrete state. -/
theorem c2_clifford_identities_witness :
    (((GottesmanKnillSimulator.fromRng 2 ()).x 0).x 0
        = GottesmanKnillSimulator.fromRng 2 ()) ∧
    (((GottesmanKnillSimulator.fromRng 2 ()).h 1).h 1
        = GottesmanKnillSimulator.fromRng 2 ()) :=
  ⟨(c2_clifford_identities (n := 2) _ (by decide)).1 0,
    (c2_clifford_identities (n := 2) _ (by decide)).2.2.1 1 (by decide)⟩

/-! ### Claim C10: only MEASURE writes the measured buffer -/

/-- **C10**: every gate operation leaves the internal measured buffer
unchanged; a MEASURE writes only the bit at its slot; INITIALIZE
clears the buffer entirely. -/
theorem c10_measured_frame {R : Type} (next32 : R → Nat × R)
    (st : GottesmanKnillSimulator R) :
    (∀ q, (st.x q).measured = st.measured) ∧
    (∀ q, (st.y q).measured = st.measured) ∧
    (∀ q, (st.z q).measured = st.measured) ∧
    (∀ q, (st.h q).measured = st.measured) ∧
    (∀ q, (st.s q).measured = st.measured) ∧
    (∀ q, (st.sdg q).measured = st.measured) ∧
    (∀ c t, (st.cx c t).measured = st.measured) ∧
    (∀ j, st.initTableau.measured.getBit j = false) ∧
    (∀ q ch st', st.measureMeth next32 q ch = some st' →
      ∀ j, j ≠ ch → st'.measured.getBit j = st.measured.getBit j) := by
  refine ⟨fun q => rfl, fun q => rfl, fun q => rfl, ?_, ?_, ?_, ?_, ?_, ?_⟩
  · intro q
    unfold GottesmanKnillSimulator.h
    refine foldl_preserve
      (fun s : GottesmanKnillSimulator R => s.measured) _ _ _ ?_
    intro s i _
    exact (GottesmanKnillSimulator.hstep_lengths q s i).2.2.1
  · intro q
    unfold GottesmanKnillSimulator.s
    refine foldl_preserve
      (fun s : GottesmanKnillSimulator R => s.measured) _ _ _ ?_
    intro s i _
    exact (GottesmanKnillSimulator.sstep_lengths q s i).2.2.1
  · intro q
    unfold GottesmanKnillSimulator.sdg
    refine foldl_preserve
      (fun s : GottesmanKnillSimulator R => s.measured) _ _ _ ?_
    intro s i _
    exact (GottesmanKnillSimulator.sdgstep_lengths q s i).2.2.1
  · intro c t
    unfold GottesmanKnillSimulator.cx
    refine foldl_preserve
      (fun s : GottesmanKnillSimulator R => s.measured) _ _ _ ?_
    intro s i _
    exact (GottesmanKnillSimulator.cxstep_lengths c t s i).2.2.1
  · intro j
    exact BitArray.getBit_reset _ j
  · intro q ch st' hmeas j hj
    unfold GottesmanKnillSimulator.measureMeth at hmeas
    rw [Option.map_eq_some'] at hmeas
    obtain ⟨⟨b, st1⟩, hm, rfl⟩ := hmeas
    show (st1.measured.set_bool ch b).getBit j = st.measured.getBit j
    rw [BitArray.getBit_set_bool_ne _ _ hj, measure_measured next32 st q hm]

/-- State written by the measurement of the C10 witness run. -/
def c10state : GottesmanKnillSimulator Unit :=
  { xs := [⟨[0], 2⟩, ⟨[0], 2⟩], zs := [⟨[1], 2⟩, ⟨[2], 2⟩],
    sgns := ⟨[0], 2⟩, measured := ⟨[0], 2⟩, rng := () }

/-- **C10, witness**. -/
theorem c10_measured_frame_witness :
    (((GottesmanKnillSimulator.fromRng 2 ()).h 0).measured
        = (GottesmanKnillSimulator.fromRng 2 ()).measured) ∧
    c10state.measured.getBit 1
        = (GottesmanKnillSimulator.fromRng 2 ()).measured.getBit 1 :=
  ⟨(c10_measured_frame (fun u : Unit => (0, u))
      (GottesmanKnillSimulator.fromRng 2 ())).2.2.2.1 0,
    (c10_measured_frame (fun u : Unit => (0, u))
      (GottesmanKnillSimulator.fromRng 2 ())).2.2.2.2.2.2.2.2
      0 0 c10state (by decide) 1 (by decide)⟩

/-! ### Claim C7: determinism of a seeded run -/

/-- **C7**: for a fixed qubit count, seed and operation batch, two
independently constructed simulator instances produce identical
internal measured buffers — the run is a pure function of
`(n, seed, ops)`.  The seeded RNG construction and its stepping are
abstracted as pure functions `seedFromU64` and `next32`, which is all
the property needs. -/
theorem c7_determinism {R : Type} (next32 : R → Nat × R)
    (seedFromU64 : Nat → R) (n seed : Nat) (ops : List OpArgs)
    (st1 st2 : GottesmanKnillSimulator R)
    (h1 : send next32 ops
      (GottesmanKnillSimulator.fromSeed seedFromU64 n seed) = some st1)
    (h2 : send next32 ops
      (GottesmanKnillSimulator.fromSeed seedFromU64 n seed) = some st2) :
    st1.measured = st2.measured := by
  rw [h1] at h2
  rw [Option.some.inj h2]

def c7ops : List OpArgs := [OpArgs.Q opid.H 0, OpArgs.QS opid.MEAS 0 0]

def c7state : GottesmanKnillSimulator RepeatSeqFakeRng :=
  { xs := [⟨[0], 1⟩], zs := [⟨[1], 1⟩], sgns := ⟨[1], 1⟩,
    measured := ⟨[1], 1⟩, rng := ⟨1, [5]⟩ }

/-- **C7, witness**: a concrete seeded run through the random branch. -/
theorem c7_determinism_witness :
    send RepeatSeqFakeRng.next_u32 c7ops
        (GottesmanKnillSimulator.fromSeed (fun s => ⟨0, [s]⟩) 1 5)
      = some c7state ∧
    c7state.measured = c7state.measured :=
  ⟨by decide,
    c7_determinism RepeatSeqFakeRng.next_u32 (fun s => ⟨0, [s]⟩) 1 5 c7ops
      c7state c7state (by decide) (by decide)⟩

/-! ### Claim C6: the initial state -/

/-- **C6**: right after construction and right after INITIALIZE the
tableau has `n` rows with `x`-row zero, `z`-row `e_k` and sign 0, and
the measured buffer is all zeros. -/
theorem c6_initial_state {R : Type} (n : Nat) (rng : R)
    (st : GottesmanKnillSimulator R) (hwf : st.WF n) :
    ((GottesmanKnillSimulator.fromRng n rng).xs.length = n ∧
     (GottesmanKnillSimulator.fromRng n rng).zs.length = n ∧
     (∀ k, k < n → ∀ j,
       ((GottesmanKnillSimulator.fromRng n rng).xs.getD k default).getBit j
           = false ∧
       ((GottesmanKnillSimulator.fromRng n rng).zs.getD k default).getBit j
           = decide (j = k)) ∧
     (∀ k, (GottesmanKnillSimulator.fromRng n rng).sgns.getBit k = false) ∧
     (∀ j, (GottesmanKnillSimulator.fromRng n rng).measured.getBit j = false)) ∧
    (st.initTableau.xs.length = n ∧ st.initTableau.zs.length = n ∧
     (∀ k, k < n → ∀ j,
       (st.initTableau.xs.getD k default).getBit j = false ∧
       (st.initTableau.zs.getD k default).getBit j = decide (j = k)) ∧
     (∀ k, st.initTableau.sgns.getBit k = false) ∧
     (∀ j, st.initTableau.measured.getBit j = false)) := by
  have hzbit : ∀ (a : BitArray) (k : Nat), a.wf n → k < n → ∀ j,
      ((a.reset).negate k).getBit j = decide (j = k) := by
    intro a k hawf hk j
    have hr : k / BLOCK_SIZE < (a.reset).inner.length := by
      rw [BitArray.inner_length_reset]
      exact BitArray.wf_block_lt hawf hk
    rw [BitArray.getBit_negate _ k hr j]
    rcases eq_or_ne j k with rfl | hj
    · simp
    · simp [hj]
  constructor
  · refine ⟨by simp [GottesmanKnillSimulator.fromRng],
      by simp [GottesmanKnillSimulator.fromRng], ?_, ?_, ?_⟩
    · intro k hk j
      have hxl : k < (GottesmanKnillSimulator.fromRng n rng).xs.length := by
        simpa [GottesmanKnillSimulator.fromRng] using hk
      have hzl : k < (GottesmanKnillSimulator.fromRng n rng).zs.length := by
        simpa [GottesmanKnillSimulator.fromRng] using hk
      constructor
      · rw [List.getD_eq_getElem?_getD, List.getElem?_eq_getElem hxl]
        simp [GottesmanKnillSimulator.fromRng]
      · rw [List.getD_eq_getElem?_getD, List.getElem?_eq_getElem hzl]
        have : (GottesmanKnillSimulator.fromRng n rng).zs[k]
            = (BitArray.zeros n).negate k := by
          simp [GottesmanKnillSimulator.fromRng]
        rw [Option.getD_some, this]
        have := hzbit (BitArray.zeros n) k (BitArray.wf_zeros n) hk j
        rwa [show (BitArray.zeros n).reset = BitArray.zeros n from by
          simp [BitArray.zeros, BitArray.reset, List.map_replicate]] at this
    · intro k
      exact BitArray.getBit_zeros n k
    · intro j
      exact BitArray.getBit_zeros n j
  · refine ⟨by simp [GottesmanKnillSimulator.initTableau, hwf.1],
      by simp [GottesmanKnillSimulator.initTableau, hwf.2.1], ?_, ?_, ?_⟩
    · intro k hk j
      have hxl : k < (st.initTableau).xs.length := by
        simp [GottesmanKnillSimulator.initTableau, hwf.1, hk]
      have hzl : k < (st.zs.map BitArray.reset).length := by
        simp [hwf.2.1, hk]
      constructor
      · rw [List.getD_eq_getElem?_getD, List.getElem?_eq_getElem hxl]
        simp [GottesmanKnillSimulator.initTableau]
      · have hzl2 : k < (st.initTableau).zs.length := by
          simp [GottesmanKnillSimulator.initTableau, hwf.2.1, hk]
        rw [List.getD_eq_getElem?_getD, List.getElem?_eq_getElem hzl2,
          Option.getD_some]
        have hk2 : k < st.zs.length := by rw [hwf.2.1]; exact hk
        have : (st.initTableau).zs.get ⟨k, hzl2⟩
            = ((st.zs.get ⟨k, hk2⟩).reset).negate k := by
          simp [GottesmanKnillSimulator.initTableau]
        rw [List.get_eq_getElem, List.get_eq_getElem] at this
        rw [this]
        exact hzbit _ k (hwf.2.2.2.1 _ (List.getElem_mem hk2)) hk j
    · intro k
      exact BitArray.getBit_reset _ k
    · intro j
      exact BitArray.getBit_reset _ j

/-- A two-qubit state with stale data everywhere, cleared by INIT. -/
def c6state : GottesmanKnillSimulator Unit :=
  { xs := [⟨[3], 2⟩, ⟨[2], 2⟩], zs := [⟨[1], 2⟩, ⟨[3], 2⟩],
    sgns := ⟨[3], 2⟩, measured := ⟨[3], 2⟩, rng := () }

/-- **C6, witness**. -/
theorem c6_initial_state_witness :
    ((GottesmanKnillSimulator.fromRng 2 ()).zs.getD 1 default).getBit 1 = true ∧
    c6state.initTableau.measured.getBit 0 = false ∧
    (c6state.initTableau.zs.getD 0 default).getBit 0 = true := by
  refine ⟨?_, (c6_initial_state 2 () c6state (by decide)).2.2.2.2.2 0, ?_⟩
  · have := ((c6_initial_state 2 () c6state (by decide)).1.2.2.1 1
      (by norm_num) 1).2
    simpa using this
  · have := ((c6_initial_state 2 () c6state (by decide)).2.2.2.1 0
      (by norm_num) 0).2
    simpa using this

/-! ### Claim C9: the repeat-sequence RNG -/

theorem succ_mod_eq (a m : Nat) (hm : 0 < m) :
    (a + 1) % m = if a % m + 1 = m then 0 else a % m + 1 := by
  have h1 : a % m < m := Nat.mod_lt _ hm
  have h2 := Nat.div_add_mod a m
  rcases eq_or_lt_of_le (Nat.succ_le_of_lt h1) with he | hlt
  · rw [if_pos he]
    have h3 : a + 1 = m * (a / m + 1) := by
      rw [Nat.mul_add, Nat.mul_one]
      omega
    rw [h3, Nat.mul_mod_right]
  · rw [if_neg (by omega)]
    have h3 : a + 1 = m * (a / m) + (a % m + 1) := by omega
    rw [h3, Nat.mul_add_mod]
    exact Nat.mod_eq_of_lt hlt

/-- Cursor position of the repeat-sequence RNG after `k` draws. -/
theorem repeatSeq_stateAfter (seq : List Nat) (hne : seq ≠ []) (k : Nat) :
    RepeatSeqFakeRng.stateAfter ⟨0, seq⟩ k
      = ⟨if k = 0 then 0 else (k - 1) % seq.length + 1, seq⟩ := by
  have hlen : 0 < seq.length := List.length_pos.2 hne
  induction k with
  | zero => rfl
  | succ k ih =>
    rw [RepeatSeqFakeRng.stateAfter, Function.iterate_succ_apply',
      ← RepeatSeqFakeRng.stateAfter, ih]
    unfold RepeatSeqFakeRng.next_u64
    dsimp only
    rcases Nat.eq_zero_or_pos k with rfl | hk
    · rw [if_pos rfl, List.get?_eq_getElem?, List.getElem?_eq_getElem hlen]
      dsimp only
      rw [if_neg (by omega)]
      norm_num
    · rw [if_neg (by omega)]
      have hmod : (k - 1) % seq.length < seq.length := Nat.mod_lt _ hlen
      have hsucc : k % seq.length
          = if (k - 1) % seq.length + 1 = seq.length then 0
            else (k - 1) % seq.length + 1 := by
        have := succ_mod_eq (k - 1) seq.length hlen
        rwa [show k - 1 + 1 = k by omega] at this
      by_cases hcase : (k - 1) % seq.length + 1 < seq.length
      · rw [List.get?_eq_getElem?, List.getElem?_eq_getElem hcase]
        dsimp only
        rw [if_neg (by omega)]
        have : k % seq.length = (k - 1) % seq.length + 1 := by
          rw [hsucc, if_neg (by omega)]
        rw [show k + 1 - 1 = k by omega, this]
      · have hge : seq.length ≤ (k - 1) % seq.length + 1 := by omega
        have heq : (k - 1) % seq.length + 1 = seq.length := by omega
        rw [List.get?_eq_getElem?, List.getElem?_eq_none hge]
        dsimp only
        have : k % seq.length = 0 := by rw [hsucc, if_pos heq]
        rw [show k + 1 - 1 = k by omega, this]
        norm_num

/-- Value of the `k`-th `next_u64` draw. -/
theorem repeatSeq_nthU64 (seq : List Nat) (hne : seq ≠ []) (k : Nat) :
    RepeatSeqFakeRng.nthU64 ⟨0, seq⟩ k = seq.getD (k % seq.length) 0 := by
  have hlen : 0 < seq.length := List.length_pos.2 hne
  unfold RepeatSeqFakeRng.nthU64
  rw [repeatSeq_stateAfter seq hne k]
  unfold RepeatSeqFakeRng.next_u64
  dsimp only
  rcases Nat.eq_zero_or_pos k with rfl | hk
  · rw [if_pos rfl, List.get?_eq_getElem?, List.getElem?_eq_getElem hlen]
    rw [List.getD_eq_getElem?_getD, Nat.zero_mod,
      List.getElem?_eq_getElem hlen]
    simp [List.getElem?_eq_getElem hlen]
  · rw [if_neg (by omega)]
    have hsucc : k % seq.length
        = if (k - 1) % seq.length + 1 = seq.length then 0
          else (k - 1) % seq.length + 1 := by
      have := succ_mod_eq (k - 1) seq.length hlen
      rwa [show k - 1 + 1 = k by omega] at this
    by_cases hcase : (k - 1) % seq.length + 1 < seq.length
    · rw [List.get?_eq_getElem?, List.getElem?_eq_getElem hcase]
      dsimp only
      have hkm : k % seq.length = (k - 1) % seq.length + 1 := by
        rw [hsucc, if_neg (by omega)]
      rw [List.getD_eq_getElem?_getD, hkm, List.getElem?_eq_getElem hcase]
      simp
    · have hge : seq.length ≤ (k - 1) % seq.length + 1 := by omega
      have heq : (k - 1) % seq.length + 1 = seq.length := by
        have : (k - 1) % seq.length < seq.length := Nat.mod_lt _ hlen
        omega
      rw [List.get?_eq_getElem?, List.getElem?_eq_none hge]
      dsimp only
      have hkm : k % seq.length = 0 := by rw [hsucc, if_pos heq]
      rw [hkm]

/-- **C9**: the repeat-sequence RNG cycles through its word list
(`k`-th `next_u64` draw is `seq[k mod len]`), `next_u32` is the low 32
bits of the `next_u64` draw with the same cursor advance, and
construction from an empty sequence fails fast. -/
theorem c9_repeat_seq_rng :
    RepeatSeqFakeRng.new [] = none ∧
    (∀ seq : List Nat, seq ≠ [] →
      RepeatSeqFakeRng.new seq = some ⟨0, seq⟩ ∧
      ∀ k, RepeatSeqFakeRng.nthU64 ⟨0, seq⟩ k
        = seq.getD (k % seq.length) 0) ∧
    (∀ r : RepeatSeqFakeRng,
      (RepeatSeqFakeRng.next_u32 r).1 = (RepeatSeqFakeRng.next_u64 r).1 % 2 ^ 32 ∧
      (RepeatSeqFakeRng.next_u32 r).2 = (RepeatSeqFakeRng.next_u64 r).2) := by
  refine ⟨rfl, ?_, fun r => ⟨rfl, rfl⟩⟩
  intro seq hne
  refine ⟨?_, repeatSeq_nthU64 seq hne⟩
  unfold RepeatSeqFakeRng.new
  rw [if_neg (by simpa [List.length_eq_zero] using hne)]

/-- **C9, witness**: the sixth draw from the two-word sequence `[7, 8]`
wraps around to the second word. -/
theorem c9_repeat_seq_rng_witness :
    RepeatSeqFakeRng.nthU64 ⟨0, [7, 8]⟩ 5 = 8 := by
  have h := (c9_repeat_seq_rng.2.1 [7, 8] (by decide)).2 5
  simpa using h

/-! ### C8: correctness of the set-index iterator -/

/-- Doubling a word shifts its set-bit positions up by one. -/
theorem bitPositions_two_mul (m : Nat) :
    bitPositions (2 * m) = (bitPositions m).map (· + 1) := by
  rcases Nat.eq_zero_or_pos m with rfl | hm
  · simp [bitPositions]
  · rw [bitPositions, if_neg (by positivity), Nat.mul_mod_right,
      Nat.mul_div_cancel_left _ (by norm_num : (0:Nat) < 2)]
    simp

/-- `bitPositions` lists exactly the set bits of a word below `2 ^ w`,
in ascending order of position. -/
theorem bitPositions_eq_filter (w : Nat) :
    ∀ v : Nat, v < 2 ^ w →
      bitPositions v = (List.range w).filter (fun j => v.testBit j) := by
  induction w with
  | zero =>
    intro v hv
    interval_cases v
    simp [bitPositions]
  | succ w ih =>
    intro v hv
    rcases Nat.eq_zero_or_pos v with rfl | hvpos
    · simp [bitPositions, Nat.zero_testBit]
    · rw [List.range_succ_eq_map, List.filter_cons]
      have hdiv : v / 2 < 2 ^ w := by
        rw [pow_succ] at hv
        omega
      have htail : (List.map (· + 1) (List.range w)).filter
          (fun j => v.testBit j)
          = ((List.range w).filter (fun j => (v / 2).testBit j)).map (· + 1) := by
        rw [List.filter_map]
        congr 1
        apply List.filter_congr
        intro j _
        show v.testBit (j + 1) = (v / 2).testBit j
        rw [Nat.testBit_add_one]
      rw [htail, ← ih _ hdiv, bitPositions, if_neg (by omega)]
      rcases Nat.mod_two_eq_zero_or_one v with h0 | h1
      · have : v.testBit 0 = false := by
          rw [Nat.testBit_zero]
          simp [h0]
        simp [this, h0]
      · have : v.testBit 0 = true := by
          rw [Nat.testBit_zero]
          simp [h1]
        simp [this, h1]

/-- The trailing-zero-stripping loop, seen through `bitPositions`: the
offset positions of `buf` are the found position followed by the offset
positions of the yielded continuation buffer. -/
theorem bitPositions_shiftToOdd (buf bit : Nat) (hb : buf ≠ 0) :
    (bitPositions buf).map (· + bit)
      = (shiftToOdd buf bit).2 ::
          (bitPositions ((shiftToOdd buf bit).1 ^^^ 1)).map
            (· + (shiftToOdd buf bit).2) := by
  induction buf, bit using shiftToOdd.induct with
  | case1 buf bit h ih =>
    rw [shiftToOdd, dif_pos h]
    have hhalf : buf / 2 ≠ 0 := by
      obtain ⟨h1, h2⟩ := h
      omega
    have hrw : bitPositions buf = (bitPositions (buf / 2)).map (· + 1) := by
      conv_lhs => rw [show buf = 2 * (buf / 2) by omega]
      exact bitPositions_two_mul _
    rw [hrw, List.map_map, show ((· + bit) ∘ (· + 1) : Nat → Nat)
      = (· + (bit + 1)) from funext fun p => by simp; omega]
    exact ih hhalf
  | case2 buf bit h =>
    rw [shiftToOdd, dif_neg h]
    have hodd : buf % 2 = 1 := by
      rcases Nat.mod_two_eq_zero_or_one buf with h0 | h1
      · exact absurd ⟨h0, hb⟩ h
      · exact h1
    rw [xor_one_of_odd hodd, bitPositions_two_mul]
    conv_lhs => rw [bitPositions, if_neg hb, hodd]
    simp

/-- On nonempty storage `next` never hits the underflow panic. -/
theorem next_ne_panic (t : TIndices) (hne : t.blocks ≠ []) :
    t.next ≠ TStep.panic := by
  induction t using TIndices.next.induct with
  | case1 t hbuf hlen =>
    exact absurd (List.length_eq_zero.mp hlen) hne
  | case2 t hbuf hlen hlt ih =>
    rw [TIndices.next, if_pos hbuf, if_neg hlen, if_pos hlt]
    exact ih hne
  | case3 t hbuf hlen hlt =>
    rw [TIndices.next, if_pos hbuf, if_neg hlen, if_neg hlt]
    simp
  | case4 t hbuf =>
    rw [TIndices.next, if_neg hbuf]
    simp

/-- When `next` reports exhaustion there is nothing left to deliver. -/
theorem next_done_rem (t : TIndices) (h : t.next = TStep.done) :
    remBits t = [] := by
  induction t using TIndices.next.induct with
  | case1 t hbuf hlen =>
    rw [TIndices.next, if_pos hbuf, if_pos hlen] at h
    exact absurd h (by simp)
  | case2 t hbuf hlen hlt ih =>
    rw [TIndices.next, if_pos hbuf, if_neg hlen, if_pos hlt] at h
    have htail := ih h
    unfold remBits at htail ⊢
    dsimp only at htail
    have hbp0 : bitPositions 0 = [] := by simp [bitPositions]
    rw [hbuf, hbp0, List.map_nil, List.nil_append]
    rw [List.append_eq_nil, List.map_eq_nil_iff] at htail
    obtain ⟨h1, h2⟩ := htail
    have hlt2 : t.current_blk + 1 < t.blocks.length := by omega
    have hdrop : t.blocks.drop (t.current_blk + 1)
        = t.blocks.getD (t.current_blk + 1) 0 ::
            t.blocks.drop (t.current_blk + 1 + 1) := by
      rw [List.getD_eq_getElem?_getD, List.getElem?_eq_getElem hlt2]
      exact List.drop_eq_getElem_cons hlt2
    rw [hdrop]
    simp only [allBits]
    rw [h1, List.map_nil, List.nil_append,
      show (t.current_blk + 1) * BLOCK_SIZE + BLOCK_SIZE
        = (t.current_blk + 1 + 1) * BLOCK_SIZE by ring]
    exact h2
  | case3 t hbuf hlen hlt =>
    unfold remBits
    rw [hbuf, show bitPositions 0 = [] by simp [bitPositions], List.map_nil,
      List.nil_append, List.drop_eq_nil_of_le (by omega)]
    simp only [allBits]
  | case4 t hbuf =>
    rw [TIndices.next, if_neg hbuf] at h
    exact absurd h (by simp)

/-- Moving to the next storage word preserves the remaining indices. -/
theorem remBits_advance (t : TIndices) (hbuf : t.buf = 0)
    (hlt : t.current_blk < t.blocks.length - 1) :
    remBits t = remBits ⟨t.blocks, t.current_blk + 1, 0,
      t.blocks.getD (t.current_blk + 1) 0⟩ := by
  unfold remBits
  dsimp only
  have hbp0 : bitPositions 0 = [] := by simp [bitPositions]
  rw [hbuf, hbp0, List.map_nil, List.nil_append]
  have hlt2 : t.current_blk + 1 < t.blocks.length := by omega
  have hdrop : t.blocks.drop (t.current_blk + 1)
      = t.blocks.getD (t.current_blk + 1) 0 ::
          t.blocks.drop (t.current_blk + 1 + 1) := by
    rw [List.getD_eq_getElem?_getD, List.getElem?_eq_getElem hlt2]
    exact List.drop_eq_getElem_cons hlt2
  rw [hdrop]
  simp only [allBits]
  rw [show ((t.current_blk + 1) * BLOCK_SIZE + BLOCK_SIZE)
      = (t.current_blk + 1 + 1) * BLOCK_SIZE by ring]
  refine congrArg₂ (· ++ ·) ?_ rfl
  apply List.map_congr_left
  intro p _
  dsimp only
  omega

/-- Splitting a constant shift of list elements into two stages. -/
theorem map_add_shift (A B : Nat) (l : List Nat) :
    l.map (fun p => A + B + p) = (l.map (· + B)).map (fun p => A + p) := by
  rw [List.map_map]
  apply List.map_congr_left
  intro p _
  dsimp only [Function.comp]
  omega

/-- A yielded index is the head of the remaining indices, and the
continuation state carries exactly the tail. -/
theorem next_yield_rem (t : TIndices) (i : Nat) (t' : TIndices)
    (h : t.next = TStep.yield i t') :
    t'.blocks = t.blocks ∧ remBits t = i :: remBits t' := by
  induction t using TIndices.next.induct with
  | case1 t hbuf hlen =>
    rw [TIndices.next, if_pos hbuf, if_pos hlen] at h
    exact absurd h (by simp)
  | case2 t hbuf hlen hlt ih =>
    rw [TIndices.next, if_pos hbuf, if_neg hlen, if_pos hlt] at h
    obtain ⟨hb, hr⟩ := ih h
    dsimp only at hb hr
    exact ⟨hb, (remBits_advance t hbuf hlt).trans hr⟩
  | case3 t hbuf hlen hlt =>
    rw [TIndices.next, if_pos hbuf, if_neg hlen, if_neg hlt] at h
    exact absurd h (by simp)
  | case4 t hbuf =>
    rw [TIndices.next, if_neg hbuf] at h
    simp only [TStep.yield.injEq] at h
    obtain ⟨h1, h2⟩ := h
    subst h2
    refine ⟨rfl, ?_⟩
    unfold remBits
    dsimp only
    rw [← h1, map_add_shift, map_add_shift,
      bitPositions_shiftToOdd t.buf t.current_bit hbuf]
    simp only [List.map_cons, List.cons_append]

theorem collect_panic (t : TIndices) (h : t.next = TStep.panic) :
    t.collect = none := by
  unfold TIndices.collect
  split
  · rfl
  · rename_i heq
    rw [h] at heq
    exact absurd heq (by simp)
  · rename_i i t' heq
    rw [h] at heq
    exact absurd heq (by simp)

theorem collect_done (t : TIndices) (h : t.next = TStep.done) :
    t.collect = some [] := by
  unfold TIndices.collect
  split
  · rename_i heq
    rw [h] at heq
    exact absurd heq (by simp)
  · rfl
  · rename_i i t' heq
    rw [h] at heq
    exact absurd heq (by simp)

theorem collect_yield (t : TIndices) (i : Nat) (t' : TIndices)
    (h : t.next = TStep.yield i t') :
    t.collect = (TIndices.collect t').map (i :: ·) := by
  conv_lhs => unfold TIndices.collect
  split
  · rename_i heq
    rw [h] at heq
    exact absurd heq (by simp)
  · rename_i heq
    rw [h] at heq
    exact absurd heq (by simp)
  · rename_i j t2 heq
    rw [h] at heq
    injection heq with h1 h2
    subst h1
    subst h2
    rfl

/-- Full correctness of one iterator run on nonempty storage: it
terminates without panicking and delivers the remaining indices. -/
theorem collect_spec (t : TIndices) :
    t.blocks ≠ [] → t.collect = some (remBits t) := by
  induction t using TIndices.collect.induct with
  | case1 t h =>
    intro hne
    exact absurd h (next_ne_panic t hne)
  | case2 t h =>
    intro hne
    rw [collect_done t h, next_done_rem t h]
  | case3 t i t' h ih =>
    intro hne
    obtain ⟨hb, hr⟩ := next_yield_rem t i t' h
    rw [collect_yield t i t' h, ih (by rw [hb]; exact hne), hr]
    rfl

/-- Bit `i` of a raw storage word list, the word-list form of
`BitArray.getBit`. -/
def gBit (blocks : List Block) (i : Nat) : Bool :=
  (blocks.getD (i / BLOCK_SIZE) 0).testBit (i % BLOCK_SIZE)

theorem gBit_cons_lt (b : Block) (rest : List Block) {j : Nat}
    (hj : j < BLOCK_SIZE) : gBit (b :: rest) j = b.testBit j := by
  unfold gBit
  rw [Nat.div_eq_of_lt hj, Nat.mod_eq_of_lt hj]
  rfl

theorem gBit_cons_add (b : Block) (rest : List Block) (j : Nat) :
    gBit (b :: rest) (BLOCK_SIZE + j) = gBit rest j := by
  unfold gBit
  rw [Nat.add_comm BLOCK_SIZE j, Nat.add_div_right _ (by norm_num),
    Nat.add_mod_right, List.getD_cons_succ]

/-- `allBits` is the ascending filter of the index range, shifted by
the base offset. -/
theorem allBits_eq_filter (blocks : List Block)
    (hw : ∀ b ∈ blocks, b < 2 ^ 32) :
    ∀ base : Nat, allBits blocks base
      = ((List.range (BLOCK_SIZE * blocks.length)).filter
          (gBit blocks)).map (fun j => base + j) := by
  induction blocks with
  | nil =>
    intro base
    simp [allBits]
  | cons b rest ih =>
    intro base
    simp only [allBits]
    have hb : b < 2 ^ 32 := hw b (by simp)
    have hrest : ∀ x ∈ rest, x < 2 ^ 32 := fun x hx => hw x (by simp [hx])
    rw [List.length_cons, show BLOCK_SIZE * (rest.length + 1)
        = BLOCK_SIZE + BLOCK_SIZE * rest.length by ring,
      List.range_add, List.filter_append, List.map_append]
    refine congrArg₂ (· ++ ·) ?_ ?_
    · have hhead : (List.range BLOCK_SIZE).filter (gBit (b :: rest))
          = bitPositions b := by
        rw [bitPositions_eq_filter 32 b hb]
        apply List.filter_congr
        intro j hj
        rw [List.mem_range] at hj
        rw [gBit_cons_lt b rest hj]
      rw [hhead]
    · rw [List.filter_map, ih hrest (base + BLOCK_SIZE), List.map_map]
      have hfn : (List.range (BLOCK_SIZE * rest.length)).filter
            (gBit (b :: rest) ∘ (BLOCK_SIZE + ·))
          = (List.range (BLOCK_SIZE * rest.length)).filter (gBit rest) := by
        apply List.filter_congr
        intro j _
        exact gBit_cons_add b rest j
      rw [hfn]
      apply List.map_congr_left
      intro j _
      dsimp only [Function.comp]
      omega

/-- The set-index list is strictly ascending. -/
theorem setIndices_sorted (a : BitArray) : a.setIndices.Sorted (· < ·) := by
  unfold BitArray.setIndices
  exact (List.pairwise_lt_range _).filter _

/-- The set-index list holds exactly the indices whose bit is set. -/
theorem mem_setIndices (a : BitArray) (i : Nat) :
    i ∈ a.setIndices ↔ a.getBit i = true := by
  unfold BitArray.setIndices
  rw [List.mem_filter, List.mem_range]
  constructor
  · rintro ⟨_, h⟩
    exact h
  · intro h
    refine ⟨?_, h⟩
    by_contra hge
    push_neg at hge
    have h32 : (BLOCK_SIZE : Nat) = 32 := rfl
    have hdiv : a.inner.length ≤ i / BLOCK_SIZE := by
      apply (Nat.le_div_iff_mul_le (by norm_num)).2
      rw [h32] at hge ⊢
      omega
    unfold BitArray.getBit at h
    rw [List.getD_eq_getElem?_getD, List.getElem?_eq_none hdiv] at h
    simp [Nat.zero_testBit] at h

theorem remBits_true_indices (a : BitArray) (hne : a.inner ≠ []) :
    remBits a.true_indices = allBits a.inner 0 := by
  obtain ⟨b, rest, hcons⟩ := List.exists_cons_of_ne_nil hne
  unfold BitArray.true_indices
  rw [if_pos (by rw [hcons]; simp)]
  unfold remBits
  dsimp only
  rw [hcons]
  simp only [List.getD_cons_zero, List.drop_succ_cons, List.drop_zero, allBits]
  refine congrArg₂ (· ++ ·) ?_ (by norm_num)
  apply List.map_congr_left
  intro p _
  dsimp only
  omega

theorem allBits_setIndices (a : BitArray) (hw : ∀ b ∈ a.inner, b < 2 ^ 32) :
    allBits a.inner 0 = a.setIndices := by
  rw [allBits_eq_filter a.inner hw 0]
  unfold BitArray.setIndices
  have hfn : gBit a.inner = a.getBit := rfl
  rw [hfn]
  simp

/-- **C8, counterexample**: on the length-0 bit array the storage is
empty, and the very first `next` call evaluates `inner.len() - 1` on
`usize`, which underflows out of range (modelled by `TStep.panic`), so
the iteration does not terminate normally with the empty index list as
the claim asserts for length 0. -/
theorem c8_iterator_counterexample :
    (BitArray.zeros 0).inner = [] ∧
    (BitArray.zeros 0).true_indices.next = TStep.panic ∧
    (BitArray.zeros 0).true_indices.collect = none := by
  have h0 : (BitArray.zeros 0).true_indices = ⟨[], 0, 0, 0⟩ := rfl
  refine ⟨rfl, ?_, ?_⟩
  · rw [h0, TIndices.next]
    rfl
  · rw [h0]
    apply collect_panic
    rw [TIndices.next]
    rfl

/-- **C8 (amended)**: for every bit array with nonempty storage of
`u32` words, iterating `true_indices` terminates without panicking and
yields exactly the indices with set bits, in strictly ascending order;
the length-0 bit array (empty storage) instead panics on its first
`next` call. -/
theorem c8_true_indices (a : BitArray) (hne : a.inner ≠ [])
    (hw : ∀ b ∈ a.inner, b < 2 ^ 32) :
    a.true_indices.collect = some a.setIndices ∧
    a.setIndices.Sorted (· < ·) ∧
    ∀ i, i ∈ a.setIndices ↔ a.getBit i = true := by
  refine ⟨?_, setIndices_sorted a, fun i => mem_setIndices a i⟩
  have hblocks : a.true_indices.blocks = a.inner := by
    unfold BitArray.true_indices
    split <;> rfl
  rw [collect_spec _ (by rw [hblocks]; exact hne),
    remBits_true_indices a hne, allBits_setIndices a hw]

/-- **C8, witness**: the two-word array with words `9` and `3` yields
exactly its set-bit indices `[0, 3, 32, 33]`, in ascending order. -/
theorem c8_true_indices_witness :
    (BitArray.mk [9, 3] 64).true_indices.collect = some [0, 3, 32, 33] :=
  ((c8_true_indices ⟨[9, 3], 64⟩ (by decide) (by decide)).1).trans (by decide)

/-! ### C1: the sign rule of the measurement prologue loop -/

theorem mult_to_xs (st : GottesmanKnillSimulator R) (d s : Nat) :
    (mult_to st d s).xs
      = st.xs.set d ((st.xs.getD d default).xor_all (st.xs.getD s default)) :=
  rfl

theorem mult_to_zs (st : GottesmanKnillSimulator R) (d s : Nat) :
    (mult_to st d s).zs
      = st.zs.set d ((st.zs.getD d default).xor_all (st.zs.getD s default)) :=
  rfl

theorem mult_to_sgns (st : GottesmanKnillSimulator R) (d s : Nat) :
    (mult_to st d s).sgns = st.sgns.set_bool d (st.sgns.get_bool s) := rfl

/-- Characterization of the random-branch prologue loop
`for j in rest { mult_to(j, p) }`: the pivot row and every row outside
`rest` are untouched, and each row `k ∈ rest` gets the pivot's x- and
z-rows XORed in while its sign bit is overwritten with the pivot's
sign bit. -/
theorem mult_to_loop_char (p : Nat) (rest : List Nat) :
    ∀ st st' : GottesmanKnillSimulator R,
      st' = rest.foldl (fun s j => mult_to s j p) st →
      rest.Nodup → p ∉ rest →
      (∀ j ∈ rest, j < st.xs.length ∧ j < st.zs.length ∧
        j / BLOCK_SIZE < st.sgns.inner.length) →
      (st'.xs.length = st.xs.length ∧
       st'.zs.length = st.zs.length ∧
       st'.sgns.inner.length = st.sgns.inner.length ∧
       st'.measured = st.measured ∧
       st'.rng = st.rng ∧
       (∀ m, m ∉ rest →
         st'.xs.getD m default = st.xs.getD m default ∧
         st'.zs.getD m default = st.zs.getD m default ∧
         st'.sgns.getBit m = st.sgns.getBit m) ∧
       (∀ k ∈ rest,
         st'.xs.getD k default
           = (st.xs.getD k default).xor_all (st.xs.getD p default) ∧
         st'.zs.getD k default
           = (st.zs.getD k default).xor_all (st.zs.getD p default) ∧
         st'.sgns.getBit k = st.sgns.getBit p)) := by
  induction rest with
  | nil =>
    intro st st' hst' _ _ _
    subst hst'
    exact ⟨rfl, rfl, rfl, rfl, rfl, fun m _ => ⟨rfl, rfl, rfl⟩,
      fun k hk => absurd hk (by simp)⟩
  | cons j tl ih =>
    intro st st' hst' hnd hp hb
    rw [List.nodup_cons] at hnd
    obtain ⟨hjtl, hnd'⟩ := hnd
    have hpj : p ≠ j := fun h => hp (h ▸ List.mem_cons_self j tl)
    have hp' : p ∉ tl := fun h => hp (List.mem_cons_of_mem j h)
    obtain ⟨hjx, hjz, hjs⟩ := hb j (List.mem_cons_self j tl)
    rw [List.foldl_cons] at hst'
    set st1 := mult_to st j p with hst1
    have hx1 : st1.xs = st.xs.set j
        ((st.xs.getD j default).xor_all (st.xs.getD p default)) :=
      mult_to_xs st j p
    have hz1 : st1.zs = st.zs.set j
        ((st.zs.getD j default).xor_all (st.zs.getD p default)) :=
      mult_to_zs st j p
    have hs1 : st1.sgns = st.sgns.set_bool j (st.sgns.get_bool p) :=
      mult_to_sgns st j p
    have hlx1 : st1.xs.length = st.xs.length := by rw [hx1, List.length_set]
    have hlz1 : st1.zs.length = st.zs.length := by rw [hz1, List.length_set]
    have hls1 : st1.sgns.inner.length = st.sgns.inner.length := by
      rw [hs1, BitArray.inner_length_set_bool]
    have hb' : ∀ j' ∈ tl, j' < st1.xs.length ∧ j' < st1.zs.length ∧
        j' / BLOCK_SIZE < st1.sgns.inner.length := by
      intro j' hj'
      obtain ⟨h1, h2, h3⟩ := hb j' (List.mem_cons_of_mem j hj')
      exact ⟨hlx1 ▸ h1, hlz1 ▸ h2, hls1 ▸ h3⟩
    obtain ⟨ihx, ihz, ihs, ihm, ihr, ihu, iht⟩ :=
      ih st1 st' hst' hnd' hp' hb'
    have hu1 : ∀ m, m ≠ j →
        st1.xs.getD m default = st.xs.getD m default ∧
        st1.zs.getD m default = st.zs.getD m default ∧
        st1.sgns.getBit m = st.sgns.getBit m := by
      intro m hm
      refine ⟨?_, ?_, ?_⟩
      · rw [hx1, getD_set_ne' (fun h => hm h.symm)]
      · rw [hz1, getD_set_ne' (fun h => hm h.symm)]
      · rw [hs1, BitArray.getBit_set_bool _ _ _ hjs, if_neg hm]
    refine ⟨ihx.trans hlx1, ihz.trans hlz1, ihs.trans hls1, ihm, ihr, ?_, ?_⟩
    · intro m hm
      rw [List.mem_cons] at hm
      push_neg at hm
      obtain ⟨hmj, hmtl⟩ := hm
      obtain ⟨u1, u2, u3⟩ := ihu m hmtl
      obtain ⟨v1, v2, v3⟩ := hu1 m hmj
      exact ⟨u1.trans v1, u2.trans v2, u3.trans v3⟩
    · intro k hk
      rcases List.mem_cons.mp hk with rfl | hk'
      · obtain ⟨u1, u2, u3⟩ := ihu k hjtl
        refine ⟨?_, ?_, ?_⟩
        · rw [u1, hx1, getD_set_self' hjx]
        · rw [u2, hz1, getD_set_self' hjz]
        · rw [u3, hs1, BitArray.getBit_set_bool _ _ _ hjs, if_pos rfl,
            BitArray.get_bool_eq_getBit]
      · obtain ⟨t1, t2, t3⟩ := iht k hk'
        have hkj : k ≠ j := fun h => hjtl (h ▸ hk')
        obtain ⟨w1, w2, w3⟩ := hu1 k hkj
        obtain ⟨p1, p2, p3⟩ := hu1 p hpj
        refine ⟨?_, ?_, ?_⟩
        · rw [t1, w1, p1]
        · rw [t2, w2, p2]
        · rw [t3, p3]

/-- The anticommuting-row list `noncommutatives` is strictly
ascending: it is built by an enumerate-filter-map over the rows. -/
theorem noncomm_pairwise (l : List BitArray) (q : Nat) :
    ((l.enum.filter (fun ib => ib.2.get_bool q)).map Prod.fst).Pairwise
      (· < ·) := by
  have hsub : List.Sublist
      ((l.enum.filter (fun ib => ib.2.get_bool q)).map Prod.fst)
      (l.enum.map Prod.fst) := (List.filter_sublist _).map _
  rw [List.enum_map_fst] at hsub
  exact List.Pairwise.sublist hsub (List.pairwise_lt_range _)

theorem noncomm_lt_length (l : List BitArray) (q : Nat) :
    ∀ k ∈ (l.enum.filter (fun ib => ib.2.get_bool q)).map Prod.fst,
      k < l.length := by
  intro k hk
  have hsub : List.Sublist
      ((l.enum.filter (fun ib => ib.2.get_bool q)).map Prod.fst)
      (l.enum.map Prod.fst) := (List.filter_sublist _).map _
  rw [List.enum_map_fst] at hsub
  exact List.mem_range.mp (hsub.subset hk)

/-- A two-qubit state with rows `X₀X₁` (sign `+`) and `Y₀Y₁` (sign
`−`); both rows anticommute with `Z₀`, so measuring qubit 0 runs the
prologue loop with pivot row 0 and remaining row 1. -/
def c1state : GottesmanKnillSimulator Unit :=
  ⟨[⟨[3], 2⟩, ⟨[3], 2⟩], [⟨[0], 2⟩, ⟨[3], 2⟩], ⟨[2], 2⟩, ⟨[0], 2⟩, ()⟩

/-- The state `measure` returns on `c1state` at qubit 0 when the drawn
word is 0. -/
def c1result : GottesmanKnillSimulator Unit :=
  ⟨[⟨[0], 2⟩, ⟨[0], 2⟩], [⟨[1], 2⟩, ⟨[3], 2⟩], ⟨[0], 2⟩, ⟨[0], 2⟩, ()⟩

/-- **C1, counterexample**: measuring qubit 0 of `c1state` has row set
`N = {0, 1}` with pivot `p = 0`, `r_0 = 0` and `r_1 = 1`.  The claimed
rule `r_1 ← r_1 XOR r_0` would leave `r_1 = 1` (no toggle, since
`r_0 = 0`), and the rest of the measurement never touches sign bit 1;
but the code overwrites `r_1 ← r_0 = 0`, so the final sign bit 1 is
`0`, not the claimed `1`. -/
theorem c1_sign_rule_counterexample :
    (c1state.xs.enum.filter (fun ib => ib.2.get_bool 0)).map Prod.fst
        = [0, 1] ∧
    c1state.sgns.getBit 0 = false ∧
    c1state.sgns.getBit 1 = true ∧
    LayGK.measure (fun _ => (0, ())) c1state 0 = some (false, c1result) ∧
    c1result.sgns.getBit 1 = false := by decide

/-- **C1 (amended)**: during measurement of qubit `q` on a well-formed
state, when the anticommuting row list is `p :: rest` (so `|N| ≥ 2`
whenever `rest ≠ []`), the returned state has, for every other row
`k ∈ rest`: the x-row and z-row of `k` XORed with the pivot's original
rows — as the claim says — but the sign bit of `k` OVERWRITTEN with
the pivot's sign bit `r_p` (`r_k ← r_p`), not `r_k ← r_k XOR r_p`. -/
theorem c1_measure_sign_rule {R : Type} {n : Nat} (next32 : R → Nat × R)
    (st : GottesmanKnillSimulator R) (q p : Nat) (rest : List Nat)
    (hwf : st.WF n)
    (hN : (st.xs.enum.filter (fun ib => ib.2.get_bool q)).map Prod.fst
        = p :: rest)
    (b : Bool) (st' : GottesmanKnillSimulator R)
    (hm : LayGK.measure next32 st q = some (b, st')) :
    ∀ k ∈ rest,
      st'.xs.getD k default
        = (st.xs.getD k default).xor_all (st.xs.getD p default) ∧
      st'.zs.getD k default
        = (st.zs.getD k default).xor_all (st.zs.getD p default) ∧
      st'.sgns.getBit k = st.sgns.getBit p := by
  obtain ⟨hxlen, hzlen, hxw, hzw, hsw, hmw⟩ := hwf
  have hpw := noncomm_pairwise st.xs q
  rw [hN, List.pairwise_cons] at hpw
  obtain ⟨hplt, hrest_pw⟩ := hpw
  have hnd : rest.Nodup := hrest_pw.imp fun h => Nat.ne_of_lt h
  have hpnot : p ∉ rest := fun h => absurd (hplt _ h) (lt_irrefl p)
  have hltall : ∀ k ∈ p :: rest, k < st.xs.length := by
    rw [← hN]
    exact noncomm_lt_length st.xs q
  have hbounds : ∀ j ∈ rest, j < st.xs.length ∧ j < st.zs.length ∧
      j / BLOCK_SIZE < st.sgns.inner.length := by
    intro j hj
    have h1 := hltall j (List.mem_cons_of_mem p hj)
    exact ⟨h1, by omega, BitArray.wf_block_lt hsw (by omega)⟩
  have hplt2 : p < st.xs.length := hltall p (List.mem_cons_self p rest)
  unfold LayGK.measure at hm
  rw [hN] at hm
  dsimp only at hm
  rw [Option.some.injEq, Prod.mk.injEq] at hm
  obtain ⟨hb, hst2⟩ := hm
  obtain ⟨Lx, Lz, Ls, Lm, Lr, Lu, Lt⟩ :=
    mult_to_loop_char p rest st (rest.foldl (fun s j => mult_to s j p) st)
      rfl hnd hpnot hbounds
  intro k hk
  have hkp : p ≠ k := fun h => hpnot (h ▸ hk)
  have hpdiv : p / BLOCK_SIZE
      < (rest.foldl (fun s j => mult_to s j p) st).sgns.inner.length := by
    rw [Ls]
    exact BitArray.wf_block_lt hsw (by omega)
  obtain ⟨t1, t2, t3⟩ := Lt k hk
  subst hst2
  refine ⟨?_, ?_, ?_⟩
  · dsimp only
    rw [getD_set_ne' hkp, t1]
  · dsimp only
    rw [getD_set_ne' hkp, t2]
  · dsimp only
    rw [BitArray.getBit_set_bool _ _ _ hpdiv, if_neg (fun h => hkp h.symm), t3]

/-- **C1, witness**: the amended rule at the concrete two-qubit state:
row 1 is XORed with the pivot row and its sign is the pivot's sign. -/
theorem c1_measure_sign_rule_witness :
    c1result.xs.getD 1 default
        = (c1state.xs.getD 1 default).xor_all (c1state.xs.getD 0 default) ∧
    c1result.zs.getD 1 default
        = (c1state.zs.getD 1 default).xor_all (c1state.zs.getD 0 default) ∧
    c1result.sgns.getBit 1 = c1state.sgns.getBit 0 :=
  @c1_measure_sign_rule Unit 2 (fun _ => (0, ())) c1state 0 0 [1]
    (by decide) (by decide) false c1result (by decide) 1 (by decide)

/-! ### C5: the random measurement branch -/

/-- **C5**: in the random branch (the anticommuting row list is
nonempty, `p :: rest`), the outcome bit is the low bit of the word
drawn by a single `next_u32` call on the incoming RNG state, the
returned RNG state is that call's successor state (the prologue loop
and the pivot rewrite consume no randomness, so exactly one call is
made), the pivot row `p` ends with an all-zero x-row, a z-row equal to
`e_q`, and sign bit `b`; the free function returns `b`, and the
`measure` method stores `b` at the given slot of the measured buffer. -/
theorem c5_random_branch {R : Type} {n : Nat} (next32 : R → Nat × R)
    (st : GottesmanKnillSimulator R) (q p : Nat) (rest : List Nat)
    (hwf : st.WF n) (hq : q < n)
    (hN : (st.xs.enum.filter (fun ib => ib.2.get_bool q)).map Prod.fst
        = p :: rest)
    (b : Bool) (st' : GottesmanKnillSimulator R)
    (hm : LayGK.measure next32 st q = some (b, st')) :
    b = ((next32 st.rng).1).testBit 0 ∧
    st'.rng = (next32 st.rng).2 ∧
    (∀ i, (st'.xs.getD p default).getBit i = false) ∧
    (∀ i, (st'.zs.getD p default).getBit i = decide (i = q)) ∧
    st'.sgns.getBit p = b ∧
    st'.measured = st.measured ∧
    (∀ ch, st.measureMeth next32 q ch
        = some { st' with measured := st'.measured.set_bool ch b }) := by
  obtain ⟨hxlen, hzlen, hxw, hzw, hsw, hmw⟩ := hwf
  have hpw := noncomm_pairwise st.xs q
  rw [hN, List.pairwise_cons] at hpw
  obtain ⟨hplt, hrest_pw⟩ := hpw
  have hnd : rest.Nodup := hrest_pw.imp fun h => Nat.ne_of_lt h
  have hpnot : p ∉ rest := fun h => absurd (hplt _ h) (lt_irrefl p)
  have hltall : ∀ k ∈ p :: rest, k < st.xs.length := by
    rw [← hN]
    exact noncomm_lt_length st.xs q
  have hbounds : ∀ j ∈ rest, j < st.xs.length ∧ j < st.zs.length ∧
      j / BLOCK_SIZE < st.sgns.inner.length := by
    intro j hj
    have h1 := hltall j (List.mem_cons_of_mem p hj)
    exact ⟨h1, by omega, BitArray.wf_block_lt hsw (by omega)⟩
  have hplt2 : p < st.xs.length := hltall p (List.mem_cons_self p rest)
  have hmm := hm
  unfold LayGK.measure at hm
  rw [hN] at hm
  dsimp only at hm
  rw [Option.some.injEq, Prod.mk.injEq] at hm
  obtain ⟨hb, hst2⟩ := hm
  obtain ⟨Lx, Lz, Ls, Lm, Lr, Lu, Lt⟩ :=
    mult_to_loop_char p rest st (rest.foldl (fun s j => mult_to s j p) st)
      rfl hnd hpnot hbounds
  obtain ⟨Pxp, Pzp, Psp⟩ := Lu p hpnot
  set st1 := rest.foldl (fun s j => mult_to s j p) st with hst1
  have hplen1 : p < st1.xs.length := by rw [Lx]; exact hplt2
  have hplenz1 : p < st1.zs.length := by rw [Lz]; omega
  subst hst2
  have hbval : b = decide ((next32 st1.rng).1 &&& 1 ≠ 0) := hb.symm
  have hlow : b = ((next32 st.rng).1).testBit 0 := by
    rw [hbval, Lr]
    rcases hbit : ((next32 st.rng).1).testBit 0 with _ | _
    · simp only [decide_eq_false_iff_not, ne_eq, not_not]
      by_contra hne
      have := (and_two_pow_ne_zero_iff ((next32 st.rng).1) 0).1
        (by simpa using hne)
      rw [hbit] at this
      exact Bool.false_ne_true this
    · simp only [decide_eq_true_eq, ne_eq]
      have := (and_two_pow_ne_zero_iff ((next32 st.rng).1) 0).2 hbit
      simpa using this
  refine ⟨hlow, by dsimp only; rw [Lr], ?_, ?_, ?_, ?_, ?_⟩
  · intro i
    dsimp only
    rw [getD_set_self' hplen1]
    exact BitArray.getBit_reset _ i
  · intro i
    dsimp only
    rw [getD_set_self' hplenz1]
    have hrowz : st1.zs.getD p default = st.zs.getD p default := Pzp
    have hzwf : (st.zs.getD p default).wf n := by
      apply hzw
      exact getD_mem (by omega) _
    have hqdiv : q / BLOCK_SIZE
        < ((st1.zs.getD p default).reset).inner.length := by
      rw [BitArray.inner_length_reset, hrowz]
      exact BitArray.wf_block_lt hzwf hq
    rw [BitArray.getBit_negate _ _ hqdiv]
    rcases eq_or_ne i q with rfl | hiq
    · simp
    · simp [hiq]
  · dsimp only
    have hpdiv : p / BLOCK_SIZE < st1.sgns.inner.length := by
      rw [Ls]
      exact BitArray.wf_block_lt hsw (by omega)
    rw [BitArray.getBit_set_bool _ _ _ hpdiv, if_pos rfl, hbval, Lr]
  · dsimp only
    exact Lm
  · intro ch
    unfold GottesmanKnillSimulator.measureMeth
    rw [hmm]
    rfl

/-- A one-qubit `|+⟩` state (row `X₀`) with a fake RNG that will draw
the word 5 (odd low bit). -/
def c5state : GottesmanKnillSimulator RepeatSeqFakeRng :=
  ⟨[⟨[1], 1⟩], [⟨[0], 1⟩], ⟨[0], 1⟩, ⟨[0], 1⟩, ⟨0, [5]⟩⟩

/-- The state `measure` returns on `c5state` at qubit 0. -/
def c5result : GottesmanKnillSimulator RepeatSeqFakeRng :=
  ⟨[⟨[0], 1⟩], [⟨[1], 1⟩], ⟨[1], 1⟩, ⟨[0], 1⟩, ⟨1, [5]⟩⟩

/-- **C5, witness**: the random branch on the concrete one-qubit state
with drawn word 5: outcome 1, pivot row becomes `−`-free `Z₀` with
sign 1, RNG advanced once, outcome stored at slot 0. -/
theorem c5_random_branch_witness :
    true = ((RepeatSeqFakeRng.next_u32 c5state.rng).1).testBit 0 ∧
    c5result.rng = (RepeatSeqFakeRng.next_u32 c5state.rng).2 ∧
    (c5result.xs.getD 0 default).getBit 0 = false ∧
    (c5result.zs.getD 0 default).getBit 0 = decide (0 = 0) ∧
    c5result.sgns.getBit 0 = true ∧
    c5result.measured = c5state.measured ∧
    c5state.measureMeth RepeatSeqFakeRng.next_u32 0 0
        = some { c5result with
            measured := c5result.measured.set_bool 0 true } :=
  have H := @c5_random_branch RepeatSeqFakeRng 1 RepeatSeqFakeRng.next_u32
    c5state 0 0 [] (by decide) (by decide) (by decide) true c5result
    (by decide)
  ⟨H.1, H.2.1, H.2.2.1 0, H.2.2.2.1 0, H.2.2.2.2.1, H.2.2.2.2.2.1,
    H.2.2.2.2.2.2 0⟩

/-! ### C4: X-parity measurements are deterministic -/

open GottesmanKnillSimulator


theorem default_get_bool (i : Nat) : (default : BitArray).get_bool i = false := by
  rw [BitArray.get_bool_eq_getBit]
  show ((([] : List Nat).getD (i / BLOCK_SIZE) 0).testBit (i % BLOCK_SIZE)) = false
  simp [Nat.zero_testBit]

theorem xfold_frame (qs : List Nat) (st : GottesmanKnillSimulator R) :
    (qs.foldl (fun s j => x j s) st).xs = st.xs ∧
    (qs.foldl (fun s j => x j s) st).zs = st.zs ∧
    (qs.foldl (fun s j => x j s) st).measured = st.measured ∧
    (qs.foldl (fun s j => x j s) st).rng = st.rng := by
  refine ⟨?_, ?_, ?_, ?_⟩
  · exact foldl_preserve (fun s : GottesmanKnillSimulator R => s.xs) _ qs st
      (fun s j _ => rfl)
  · exact foldl_preserve (fun s : GottesmanKnillSimulator R => s.zs) _ qs st
      (fun s j _ => rfl)
  · exact foldl_preserve
      (fun s : GottesmanKnillSimulator R => s.measured) _ qs st
      (fun s j _ => rfl)
  · exact foldl_preserve (fun s : GottesmanKnillSimulator R => s.rng) _ qs st
      (fun s j _ => rfl)

theorem fromRng_xs_get_bool (n : Nat) (rng : R) (k i : Nat) :
    ((GottesmanKnillSimulator.fromRng n rng).xs.getD k default).get_bool i
      = false := by
  unfold GottesmanKnillSimulator.fromRng
  dsimp only
  rcases lt_or_ge k n with hk | hk
  · have hk' : k < ((List.range n).map
        (fun _ => BitArray.zeros n)).length := by simpa using hk
    rw [List.getD_eq_getElem?_getD, List.getElem?_eq_getElem hk']
    simp [BitArray.get_bool_eq_getBit]
  · rw [List.getD_eq_getElem?_getD, List.getElem?_eq_none (by simpa using hk)]
    exact default_get_bool i

theorem fromRng_zs_get_bool (n : Nat) (rng : R) (k i : Nat) :
    ((GottesmanKnillSimulator.fromRng n rng).zs.getD k default).get_bool i
      = decide (i = k ∧ k < n) := by
  unfold GottesmanKnillSimulator.fromRng
  dsimp only
  rcases lt_or_ge k n with hk | hk
  · have hk' : k < ((List.range n).map
        (fun i => (BitArray.zeros n).negate i)).length := by simpa using hk
    rw [List.getD_eq_getElem?_getD, List.getElem?_eq_getElem hk']
    have : ((List.range n).map (fun i => (BitArray.zeros n).negate i))[k]
        = (BitArray.zeros n).negate k := by simp
    rw [Option.getD_some, this, BitArray.get_bool_eq_getBit]
    have hr : k / BLOCK_SIZE < (BitArray.zeros n).inner.length :=
      BitArray.wf_block_lt (BitArray.wf_zeros n) hk
    rw [BitArray.getBit_negate _ _ hr]
    rcases eq_or_ne i k with rfl | hik
    · simp [hk]
    · simp [hik]
  · rw [List.getD_eq_getElem?_getD, List.getElem?_eq_none (by simpa using hk)]
    rw [Option.getD_none, default_get_bool]
    have : ¬(i = k ∧ k < n) := by omega
    simp [this]

theorem negFold_inner_length (j : Nat) (l : List (Nat × BitArray))
    (sg : BitArray) :
    (l.foldl (fun sg iz => if iz.2.get_bool j then sg.negate iz.1 else sg)
        sg).inner.length = sg.inner.length := by
  refine foldl_preserve (fun b : BitArray => b.inner.length) _ l sg ?_
  intro b iz _
  dsimp only
  split_ifs
  · simp
  · rfl

theorem xfold_sgns_bit (n : Nat) (rng : R) (q : Nat) (hq : q < n) :
    ∀ (qs : List Nat) (st : GottesmanKnillSimulator R),
      st.zs = (GottesmanKnillSimulator.fromRng n rng).zs →
      q / BLOCK_SIZE < st.sgns.inner.length →
      (qs.foldl (fun s j => x j s) st).sgns.getBit q
        = (st.sgns.getBit q).xor (decide (qs.count q % 2 = 1)) := by
  intro qs
  induction qs with
  | nil =>
    intro st hz hr
    simp
  | cons j tl ih =>
    intro st hz hr
    rw [List.foldl_cons]
    have hz1 : (x j st).zs = (GottesmanKnillSimulator.fromRng n rng).zs := hz
    have hr1 : q / BLOCK_SIZE < (x j st).sgns.inner.length := by
      show q / BLOCK_SIZE
          < (st.zs.enum.foldl
              (fun sg iz => if iz.2.get_bool j then sg.negate iz.1 else sg)
              st.sgns).inner.length
      rw [negFold_inner_length]
      exact hr
    rw [ih (x j st) hz1 hr1]
    have hstep : (x j st).sgns.getBit q
        = (st.sgns.getBit q).xor (decide (j = q)) := by
      show (st.zs.enum.foldl
          (fun sg iz => if iz.2.get_bool j then sg.negate iz.1 else sg)
          st.sgns).getBit q = _
      rw [show st.zs.enum = st.zs.enumFrom 0 from rfl,
        getBit_enumFold (fun zrow : BitArray => zrow.get_bool j)
          st.zs 0 st.sgns q hr]
      have hlen : st.zs.length = n := by
        rw [hz]
        simp [GottesmanKnillSimulator.fromRng]
      have hcond : (0 ≤ q ∧ q - 0 < st.zs.length) := by omega
      rw [decide_eq_true hcond, Bool.true_and]
      have hrow : st.zs.getD (q - 0) default
          = (GottesmanKnillSimulator.fromRng n rng).zs.getD q default := by
        rw [hz, Nat.sub_zero]
      rw [hrow, fromRng_zs_get_bool]
      congr 1
      have : (j = q ∧ q < n) ↔ (j = q) := by
        constructor
        · exact fun h => h.1
        · exact fun h => ⟨h, hq⟩
      rw [decide_eq_decide.2 this]
    rw [hstep, Bool.xor_assoc]
    congr 1
    rcases eq_or_ne j q with rfl | hjq
    · have hc : (j :: tl).count j = tl.count j + 1 := by
        simp [List.count_cons]
      rw [hc, decide_eq_true rfl, Bool.true_xor]
      rcases Nat.mod_two_eq_zero_or_one (tl.count j) with h0 | h1
      · have hx1 : ¬(tl.count j % 2 = 1) := by omega
        have hx2 : (tl.count j + 1) % 2 = 1 := by omega
        rw [decide_eq_false hx1, decide_eq_true hx2]
        rfl
      · have hx2 : ¬((tl.count j + 1) % 2 = 1) := by omega
        rw [decide_eq_true h1, decide_eq_false hx2]
        rfl
    · have hc : (j :: tl).count q = tl.count q := by
        simp [List.count_cons, Ne.symm hjq]
      rw [hc, decide_eq_false hjq, Bool.false_xor]

theorem xInds_canonical_nil (n : Nat) (rng : R)
    (st : GottesmanKnillSimulator R)
    (hx : st.xs = (GottesmanKnillSimulator.fromRng n rng).xs)
    (idx : List Nat) (i : Nat) : xInds st idx i = [] := by
  unfold xInds
  have hfil : idx.enum.filter
      (fun pk => (st.xs.getD pk.2 default).get_bool i) = [] := by
    rw [List.filter_eq_nil_iff]
    intro pk _
    rw [hx, fromRng_xs_get_bool]
    simp
  rw [hfil, List.map_nil]

theorem elimX_pass_noop (n : Nat) (rng : R)
    (st : GottesmanKnillSimulator R)
    (hx : st.xs = (GottesmanKnillSimulator.fromRng n rng).xs) :
    ∀ (cols : List Nat) (idx : List Nat),
      cols.foldl elimX (st, idx) = (st, idx) := by
  intro cols
  induction cols with
  | nil =>
    intro idx
    rfl
  | cons c cs ih =>
    intro idx
    rw [List.foldl_cons]
    have hstep : elimX (st, idx) c = (st, idx) := by
      unfold elimX
      dsimp only
      rw [xInds_canonical_nil n rng st hx idx c]
    rw [hstep, ih]

theorem filter_enumFrom_nil (i : Nat) (t : List Nat) (hnot : i ∉ t) :
    ∀ k, (t.enumFrom k).filter (fun pk => decide (i = pk.2)) = [] := by
  intro k
  rw [List.filter_eq_nil_iff]
  intro pk hpk
  obtain ⟨j, v⟩ := pk
  have h3 := List.mem_enumFrom hpk
  have h2 : v ∈ t := by
    rw [h3.2.2]
    exact List.getElem_mem _
  simp only [decide_eq_true_eq]
  intro hip
  exact hnot (hip ▸ h2)

theorem enumFrom_filter_singleton (i : Nat) :
    ∀ (l : List Nat), l.Nodup → i ∈ l → ∀ k,
      ((l.enumFrom k).filter (fun pk => decide (i = pk.2))).map Prod.fst
        = [k + l.indexOf i] := by
  intro l
  induction l with
  | nil =>
    intro _ hi
    exact absurd hi (by simp)
  | cons a t ih =>
    intro hnd hi k
    rw [List.nodup_cons] at hnd
    obtain ⟨hat, hnd'⟩ := hnd
    rw [List.enumFrom_cons, List.filter_cons]
    rcases eq_or_ne i a with rfl | hia
    · rw [if_pos (by simp)]
      rw [filter_enumFrom_nil i t hat (k + 1)]
      simp [List.indexOf_cons_self]
    · rw [if_neg (by simp [hia])]
      have hit : i ∈ t := by
        rcases List.mem_cons.mp hi with h | h
        · exact absurd h hia
        · exact h
      rw [ih hnd' hit (k + 1)]
      rw [List.indexOf_cons_ne _ (fun h => hia h.symm)]
      congr 1
      omega

theorem snd_mem_of_mem_enum {α : Type} {l : List α} {pk : Nat × α}
    (h : pk ∈ l.enum) : pk.2 ∈ l := by
  have h1 := List.mem_enum_iff_getElem?.1 h
  rw [List.getElem?_eq_some] at h1
  obtain ⟨hb, he⟩ := h1
  rw [← he]
  exact List.getElem_mem _

theorem zInds_canonical (n : Nat) (rng : R)
    (st : GottesmanKnillSimulator R)
    (hz : st.zs = (GottesmanKnillSimulator.fromRng n rng).zs)
    (idx : List Nat) (hlt : ∀ k ∈ idx, k < n) (hnd : idx.Nodup)
    (i : Nat) (hi : i ∈ idx) :
    zInds st idx i = [idx.indexOf i] := by
  unfold zInds
  have hcong : idx.enum.filter
      (fun pk => (st.zs.getD pk.2 default).get_bool i)
      = idx.enum.filter (fun pk => decide (i = pk.2)) := by
    apply List.filter_congr
    intro pk hpk
    rw [hz, fromRng_zs_get_bool]
    have h2 := hlt _ (snd_mem_of_mem_enum hpk)
    have hiff : (i = pk.2 ∧ pk.2 < n) ↔ (i = pk.2) :=
      ⟨fun h => h.1, fun h => ⟨h, h2⟩⟩
    rw [decide_eq_decide.2 hiff]
  rw [hcong, show idx.enum = idx.enumFrom 0 from rfl,
    enumFrom_filter_singleton i idx hnd hi 0]
  simp

theorem swapRemove_perm (l : List Nat) (p0 : Nat) (h : p0 < l.length) :
    (swapRemove l p0).Perm (l.eraseIdx p0) := by
  have hne : l ≠ [] := by
    intro h0
    subst h0
    simp at h
  have hdecomp : l.dropLast ++ [l.getLast hne] = l :=
    List.dropLast_append_getLast hne
  have hlastD : l.getLastD 0 = l.getLast hne := by
    conv_lhs => rw [← hdecomp]
    rw [List.getLastD_concat]
  rcases Nat.lt_or_ge p0 (l.length - 1) with hlt | hge
  · have hm : p0 < l.dropLast.length := by
      rw [List.length_dropLast]
      omega
    unfold swapRemove
    have hset : l.set p0 (l.getLastD 0)
        = l.dropLast.set p0 (l.getLast hne) ++ [l.getLast hne] := by
      calc l.set p0 (l.getLastD 0)
          = (l.dropLast ++ [l.getLast hne]).set p0 (l.getLast hne) := by
            rw [hlastD]
            exact congrArg (fun t : List Nat =>
              t.set p0 (l.getLast hne)) hdecomp.symm
        _ = l.dropLast.set p0 (l.getLast hne) ++ [l.getLast hne] := by
            rw [List.set_append, if_pos hm]
    rw [hset, List.dropLast_concat]
    conv_rhs => rw [← hdecomp]
    rw [List.eraseIdx_append_of_lt_length hm]
    rw [List.set_eq_take_append_cons_drop, if_pos hm,
      List.eraseIdx_eq_take_drop_succ, List.append_assoc]
    apply List.Perm.append_left
    exact (List.perm_append_singleton _ _).symm
  · have hp0 : p0 = l.length - 1 := by omega
    have hgetD : l.getD p0 0 = l.getLastD 0 := by
      rw [hlastD, hp0, List.getLast_eq_getElem,
        List.getD_eq_getElem?_getD, List.getElem?_eq_getElem (by omega)]
      rfl
    unfold swapRemove
    rw [← hgetD, set_getD_self h]
    have herase : l.eraseIdx p0 = l.dropLast := by
      rw [List.eraseIdx_eq_take_drop_succ, hp0,
        List.drop_eq_nil_of_le (by omega), List.append_nil,
        List.dropLast_eq_take]
    rw [herase]

theorem elimZ_pass (n : Nat) (rng : R) (q : Nat) (hq : q < n)
    (st : GottesmanKnillSimulator R)
    (hz : st.zs = (GottesmanKnillSimulator.fromRng n rng).zs) :
    ∀ (m : Nat), m ≤ n →
      ∃ idx : List Nat, (List.range m).foldl
          (fun a i => if i = q then a else elimZ a i) (st, List.range n)
        = (st, idx) ∧ idx.Nodup ∧
        (∀ k, k ∈ idx ↔ k < n ∧ (m ≤ k ∨ k = q)) := by
  intro m
  induction m with
  | zero =>
    intro _
    refine ⟨List.range n, rfl, List.nodup_range n, ?_⟩
    intro k
    rw [List.mem_range]
    omega
  | succ m ih =>
    intro hm
    obtain ⟨idx, heq, hnd, hmem⟩ := ih (by omega)
    rw [List.range_succ, List.foldl_append, heq, List.foldl_cons,
      List.foldl_nil]
    rcases eq_or_ne m q with rfl | hmq
    · rw [if_pos rfl]
      refine ⟨idx, rfl, hnd, ?_⟩
      intro k
      rw [hmem k]
      omega
    · rw [if_neg hmq]
      have hmmem : m ∈ idx := (hmem m).2 ⟨by omega, Or.inl le_rfl⟩
      have hltall : ∀ k ∈ idx, k < n := fun k hk => ((hmem k).1 hk).1
      have hz1 : zInds st idx m = [idx.indexOf m] :=
        zInds_canonical n rng st hz idx hltall hnd m hmmem
      have hstep : elimZ (st, idx) m
          = (st, swapRemove idx (idx.indexOf m)) := by
        unfold elimZ
        dsimp only
        rw [hz1]
        rfl
      rw [hstep]
      have hidxlt : idx.indexOf m < idx.length :=
        List.indexOf_lt_length.2 hmmem
      have hperm := swapRemove_perm idx (idx.indexOf m) hidxlt
      have herase : idx.eraseIdx (idx.indexOf m) = idx.erase m :=
        List.eraseIdx_indexOf_eq_erase m idx
      rw [herase] at hperm
      refine ⟨swapRemove idx (idx.indexOf m), rfl, ?_, ?_⟩
      · exact hperm.nodup_iff.2 (hnd.erase m)
      · intro k
        rw [hperm.mem_iff, hnd.mem_erase_iff, hmem k]
        omega

theorem eq_singleton_of_mem_iff {idx : List Nat} {q : Nat} (hnd : idx.Nodup)
    (hmem : ∀ k, k ∈ idx ↔ k = q) : idx = [q] := by
  cases idx with
  | nil => exact absurd ((hmem q).2 rfl) (by simp)
  | cons a t =>
    have ha : a = q := (hmem a).1 (List.mem_cons_self a t)
    subst ha
    cases t with
    | nil => rfl
    | cons b t' =>
      have hb : b = a :=
        (hmem b).1 (List.mem_cons_of_mem a (List.mem_cons_self b t'))
      rw [List.nodup_cons] at hnd
      exact absurd (hb ▸ List.mem_cons_self b t') hnd.1

/-- **C4**: starting from the canonical post-construction /
post-INITIALIZE state and applying any sequence of X gates (on valid
qubits), measuring any qubit `q` takes the deterministic branch — the
returned state is the incoming state itself, so no randomness is
consumed and the RNG is untouched — and the outcome is the number of
X gates on `q`, mod 2. -/
theorem c4_x_parity (n : Nat) (rng : R) (next32 : R → Nat × R)
    (qs : List Nat) (q : Nat) (hq : q < n) (hqs : ∀ j ∈ qs, j < n) :
    LayGK.measure next32
        (qs.foldl (fun s j => GottesmanKnillSimulator.x j s)
          (GottesmanKnillSimulator.fromRng n rng)) q
      = some (decide (qs.count q % 2 = 1),
          qs.foldl (fun s j => GottesmanKnillSimulator.x j s)
            (GottesmanKnillSimulator.fromRng n rng)) := by
  set st := qs.foldl (fun s j => GottesmanKnillSimulator.x j s)
    (GottesmanKnillSimulator.fromRng n rng) with hstdef
  obtain ⟨hxs, hzs, hms, hrs⟩ :=
    xfold_frame qs (GottesmanKnillSimulator.fromRng n rng)
  rw [← hstdef] at hxs hzs hms hrs
  have hnc : (st.xs.enum.filter (fun ib => ib.2.get_bool q)).map Prod.fst
      = [] := by
    have hfil : st.xs.enum.filter (fun ib => ib.2.get_bool q) = [] := by
      rw [List.filter_eq_nil_iff]
      intro ib hib
      have h2 := snd_mem_of_mem_enum hib
      rw [hxs] at h2
      unfold GottesmanKnillSimulator.fromRng at h2
      dsimp only at h2
      rw [List.mem_map] at h2
      obtain ⟨i, _, hval⟩ := h2
      rw [← hval, BitArray.get_bool_eq_getBit]
      simp
    rw [hfil, List.map_nil]
  have hnq : st.n_qubits = n := by
    unfold GottesmanKnillSimulator.n_qubits
    rw [hxs]
    unfold GottesmanKnillSimulator.fromRng
    simp
  unfold LayGK.measure
  rw [hnc]
  dsimp only
  rw [hnq, elimX_pass_noop n rng st hxs (List.range n) (List.range n)]
  obtain ⟨idx, heq, hnd, hmem⟩ := elimZ_pass n rng q hq st hzs n le_rfl
  rw [heq]
  have hidx : idx = [q] := by
    apply eq_singleton_of_mem_iff hnd
    intro k
    rw [hmem k]
    omega
  subst hidx
  have hcond : ((st, [q]) : GottesmanKnillSimulator R × List Nat).2.length
      = 1 := rfl
  rw [if_pos hcond]
  have hout : st.sgns.get_bool q = decide (qs.count q % 2 = 1) := by
    rw [BitArray.get_bool_eq_getBit, hstdef]
    rw [xfold_sgns_bit n rng q hq qs (GottesmanKnillSimulator.fromRng n rng)
      rfl (BitArray.wf_block_lt (BitArray.wf_zeros n) hq)]
    simp [GottesmanKnillSimulator.fromRng]
  rw [show (([q] : List Nat).getD 0 0) = q from rfl, hout]


/-- **C4, witness**: three X gates (two on qubit 0, one on qubit 1);
measuring qubit 0 deterministically gives its X-parity `2 mod 2 = 0`. -/
theorem c4_x_parity_witness :
    LayGK.measure (fun _ => (0, ()))
        ([0, 1, 0].foldl (fun s j => GottesmanKnillSimulator.x j s)
          (GottesmanKnillSimulator.fromRng 2 ())) 0
      = some (decide (([0, 1, 0] : List Nat).count 0 % 2 = 1),
          [0, 1, 0].foldl (fun s j => GottesmanKnillSimulator.x j s)
            (GottesmanKnillSimulator.fromRng 2 ())) :=
  c4_x_parity 2 () (fun _ => (0, ())) [0, 1, 0] 0 (by decide) (by decide)

/-! ### C3: the deterministic branch keeps exactly one live row -/

/-- A `Bool` as an element of `GF(2)`. -/
def b2z (b : Bool) : ZMod 2 := if b then 1 else 0

theorem b2z_xor (a b : Bool) : b2z (a.xor b) = b2z a + b2z b := by
  cases a <;> cases b <;> decide

/-- A Pauli operator modulo phase on `n` qubits: its x and z bit
vectors over `GF(2)`. -/
abbrev PauliVec (n : Nat) := (Fin n → ZMod 2) × (Fin n → ZMod 2)

/-- The symplectic form: two Paulis commute iff it vanishes. -/
def sympB (n : Nat) : LinearMap.BilinForm (ZMod 2) (PauliVec n) :=
  LinearMap.mk₂ (ZMod 2)
    (fun v w => (∑ i, v.1 i * w.2 i) + (∑ i, v.2 i * w.1 i))
    (by
      intro m₁ m₂ w
      simp only [Prod.fst_add, Prod.snd_add, Pi.add_apply, add_mul,
        Finset.sum_add_distrib]
      ring)
    (by
      intro c m w
      simp only [Prod.smul_fst, Prod.smul_snd, Pi.smul_apply,
        smul_eq_mul, mul_assoc, Finset.mul_sum, mul_add])
    (by
      intro m w₁ w₂
      simp only [Prod.fst_add, Prod.snd_add, Pi.add_apply, mul_add,
        Finset.sum_add_distrib]
      ring)
    (by
      intro c m w
      simp only [Prod.smul_fst, Prod.smul_snd, Pi.smul_apply,
        smul_eq_mul, Finset.mul_sum, mul_add, mul_left_comm])

theorem sympB_apply {n : Nat} (v w : PauliVec n) :
    sympB n v w = (∑ i, v.1 i * w.2 i) + (∑ i, v.2 i * w.1 i) := rfl

theorem sympB_comm {n : Nat} (v w : PauliVec n) :
    sympB n v w = sympB n w v := by
  rw [sympB_apply, sympB_apply, add_comm]
  congr 1 <;> exact Finset.sum_congr rfl (fun i _ => mul_comm _ _)

theorem sympB_isRefl (n : Nat) : (sympB n).IsRefl := by
  intro x y h
  rw [sympB_comm]
  exact h

theorem sympB_single_fst {n : Nat} (i : Fin n) (v : PauliVec n) :
    sympB n (Pi.single i 1, 0) v = v.2 i := by
  rw [sympB_apply]
  simp [Pi.single_apply, Finset.sum_ite_eq']

theorem sympB_single_snd {n : Nat} (i : Fin n) (v : PauliVec n) :
    sympB n (0, Pi.single i 1) v = v.1 i := by
  rw [sympB_apply]
  simp [Pi.single_apply, Finset.sum_ite_eq']

theorem sympB_orthogonal_top (n : Nat) :
    (sympB n).orthogonal ⊤ = ⊥ := by
  ext v
  rw [LinearMap.BilinForm.mem_orthogonal_iff, Submodule.mem_bot]
  constructor
  · intro h
    have h1 : ∀ i, v.1 i = 0 := by
      intro i
      have := h (0, Pi.single i 1) Submodule.mem_top
      rwa [LinearMap.BilinForm.IsOrtho, sympB_single_snd] at this
    have h2 : ∀ i, v.2 i = 0 := by
      intro i
      have := h (Pi.single i 1, 0) Submodule.mem_top
      rwa [LinearMap.BilinForm.IsOrtho, sympB_single_fst] at this
    exact Prod.ext (funext h1) (funext h2)
  · intro h
    subst h
    intro u _
    rw [LinearMap.BilinForm.IsOrtho, sympB_apply]
    simp

theorem span_ortho {n m : Nat} (v : Fin m → PauliVec n) (x : PauliVec n)
    (h : ∀ k, sympB n (v k) x = 0) :
    ∀ u ∈ Submodule.span (ZMod 2) (Set.range v), sympB n u x = 0 := by
  intro u hu
  have hle : Submodule.span (ZMod 2) (Set.range v)
      ≤ LinearMap.ker ((sympB n).flip x) := by
    rw [Submodule.span_le]
    rintro y ⟨k, rfl⟩
    simp [LinearMap.mem_ker, LinearMap.flip_apply, h k]
  have h2 := hle hu
  simpa [LinearMap.mem_ker, LinearMap.flip_apply] using h2

theorem lagrangian_mem {n : Nat} (v : Fin n → PauliVec n)
    (hli : LinearIndependent (ZMod 2) v)
    (hiso : ∀ k j, sympB n (v k) (v j) = 0)
    (w : PauliVec n) (hw : ∀ k, sympB n (v k) w = 0) :
    w ∈ Submodule.span (ZMod 2) (Set.range v) := by
  set W := Submodule.span (ZMod 2) (Set.range v) with hW
  have hWle : W ≤ (sympB n).orthogonal W := by
    rw [hW, Submodule.span_le]
    rintro x ⟨j, rfl⟩
    rw [SetLike.mem_coe, LinearMap.BilinForm.mem_orthogonal_iff]
    intro u hu
    exact span_ortho v (v j) (fun k => hiso k j) u hu
  have hwmem : w ∈ (sympB n).orthogonal W :=
    LinearMap.BilinForm.mem_orthogonal_iff.2
      (fun u hu => span_ortho v w hw u hu)
  have hrk := LinearMap.BilinForm.finrank_add_finrank_orthogonal
    (sympB_isRefl n) W
  rw [sympB_orthogonal_top n, inf_bot_eq, finrank_bot, add_zero] at hrk
  have hV : Module.finrank (ZMod 2) (PauliVec n) = n + n := by
    rw [Module.finrank_prod, Module.finrank_pi]
    simp
  have hWrk : Module.finrank (ZMod 2) W = n := by
    rw [hW, finrank_span_eq_card hli]
    simp
  have horthrk : Module.finrank (ZMod 2) ((sympB n).orthogonal W) = n := by
    omega
  have heq : W = (sympB n).orthogonal W :=
    Submodule.eq_of_le_of_finrank_le hWle (by omega)
  rw [heq]
  exact hwmem

theorem zmod2_ne_zero {a : ZMod 2} (h : a ≠ 0) : a = 1 := by
  revert a
  decide

/-- Adding a multiple of one member to the others preserves linear
independence. -/
theorem lin_indep_step {n : Nat} {M : Type} [AddCommGroup M]
    [Module (ZMod 2) M] (v : Fin n → M)
    (hli : LinearIndependent (ZMod 2) v) (p : Fin n)
    (c : Fin n → ZMod 2) (hcp : c p = 0) :
    LinearIndependent (ZMod 2) (fun j => v j + c j • v p) := by
  rw [Fintype.linearIndependent_iff] at hli ⊢
  intro g hg
  have hG : ∑ j, g j • (v j + c j • v p)
      = (∑ j, g j • v j) + (∑ j, g j * c j) • v p := by
    rw [show (fun j => g j • (v j + c j • v p))
        = (fun j => g j • v j + (g j * c j) • v p) from
        funext fun j => by rw [smul_add, smul_smul]]
    rw [Finset.sum_add_distrib, Finset.sum_smul]
  set G : ZMod 2 := ∑ j, g j * c j with hGdef
  have hg' : ∑ j, (g j + if j = p then G else 0) • v j = 0 := by
    have hsum : ∑ j, (g j + if j = p then G else 0) • v j
        = (∑ j, g j • v j) + G • v p := by
      rw [show (fun j => (g j + if j = p then G else 0) • v j)
          = (fun j => g j • v j + (if j = p then G • v j else 0)) from
          funext fun j => by
            rw [add_smul]
            congr 1
            split_ifs <;> simp]
      rw [Finset.sum_add_distrib]
      congr 1
      rw [Finset.sum_ite_eq' Finset.univ p (fun j => G • v j)]
      simp
    rw [hsum, ← hG, hg]
  have hall := hli _ hg'
  have hne : ∀ j, j ≠ p → g j = 0 := by
    intro j hj
    have := hall j
    rwa [if_neg hj, add_zero] at this
  have hGzero : G = 0 := by
    rw [hGdef]
    apply Finset.sum_eq_zero
    intro j _
    rcases eq_or_ne j p with rfl | hj
    · rw [hcp, mul_zero]
    · rw [hne j hj, zero_mul]
  intro j
  rcases eq_or_ne j p with rfl | hj
  · have := hall j
    rwa [if_pos rfl, hGzero, add_zero] at this
  · exact hne j hj

theorem sympB_zq {n : Nat} (v : PauliVec n) (q : Fin n) :
    sympB n v (0, Pi.single q 1) = v.1 q := by
  rw [sympB_apply]
  simp [Pi.single_apply, Finset.sum_ite_eq]

theorem inds_pairwise {α : Type} (l : List α) (f : Nat × α → Bool) :
    ((l.enum.filter f).map Prod.fst).Pairwise (· < ·) := by
  have hsub : List.Sublist ((l.enum.filter f).map Prod.fst)
      (l.enum.map Prod.fst) := (List.filter_sublist _).map _
  rw [List.enum_map_fst] at hsub
  exact List.Pairwise.sublist hsub (List.pairwise_lt_range _)

theorem inds_lt {α : Type} (l : List α) (f : Nat × α → Bool) :
    ∀ j ∈ (l.enum.filter f).map Prod.fst, j < l.length := by
  intro j hj
  have hsub : List.Sublist ((l.enum.filter f).map Prod.fst)
      (l.enum.map Prod.fst) := (List.filter_sublist _).map _
  rw [List.enum_map_fst] at hsub
  exact List.mem_range.mp (hsub.subset hj)

theorem mem_inds_iff {α : Type} [Inhabited α] (l : List α)
    (f : Nat × α → Bool) (j : Nat) :
    j ∈ (l.enum.filter f).map Prod.fst
      ↔ j < l.length ∧ f (j, l.getD j default) = true := by
  constructor
  · intro hj
    rw [List.mem_map] at hj
    obtain ⟨pk, hpk, hfst⟩ := hj
    rw [List.mem_filter] at hpk
    obtain ⟨hmem, hpred⟩ := hpk
    have hget := List.mem_enum_iff_getElem?.1 hmem
    rw [List.getElem?_eq_some] at hget
    obtain ⟨hlt, hval⟩ := hget
    subst hfst
    refine ⟨hlt, ?_⟩
    have : l.getD pk.1 default = pk.2 := by
      rw [List.getD_eq_getElem?_getD, List.getElem?_eq_getElem hlt, hval]
      rfl
    rw [this]
    exact hpred
  · rintro ⟨hlt, hpred⟩
    rw [List.mem_map]
    refine ⟨(j, l.getD j default), ?_, rfl⟩
    rw [List.mem_filter]
    constructor
    · rw [List.mem_enum_iff_getElem?]
      show l[j]? = some (l.getD j default)
      rw [List.getD_eq_getElem?_getD, List.getElem?_eq_getElem hlt]
      rfl
    · exact hpred

variable {R : Type}

/-- The body of the `elimAdds` loop, applied to a resolved target row
index `k`: XOR the (live) pivot row `p` into row `k` and negate row
`k`'s sign if the snapshot `sg0` was set. -/
def addRowStep (p : Nat) (sg0 : Bool) (st : GottesmanKnillSimulator R)
    (k : Nat) : GottesmanKnillSimulator R :=
  let st1 := { st with
    xs := st.xs.set k ((st.xs.getD k default).xor_all (st.xs.getD p default)) }
  let st2 := { st1 with
    zs := st1.zs.set k ((st1.zs.getD k default).xor_all (st1.zs.getD p default)) }
  if sg0 then { st2 with sgns := st2.sgns.negate k } else st2

theorem elimAdds_eq_targets_fold (idx : List Nat) (p : Nat) (sg0 : Bool)
    (tl : List Nat) (st : GottesmanKnillSimulator R) :
    elimAdds idx p sg0 tl st
      = (tl.map (fun j => idx.getD j 0)).foldl (addRowStep p sg0) st := by
  rw [List.foldl_map]
  rfl

theorem addRowStep_xs (st : GottesmanKnillSimulator R) (p k : Nat)
    (sg0 : Bool) :
    (addRowStep p sg0 st k).xs
      = st.xs.set k ((st.xs.getD k default).xor_all (st.xs.getD p default)) := by
  unfold addRowStep
  dsimp only
  split_ifs <;> rfl

theorem addRowStep_zs (st : GottesmanKnillSimulator R) (p k : Nat)
    (sg0 : Bool) :
    (addRowStep p sg0 st k).zs
      = st.zs.set k ((st.zs.getD k default).xor_all (st.zs.getD p default)) := by
  unfold addRowStep
  dsimp only
  split_ifs <;> rfl

theorem addRowStep_sgns (st : GottesmanKnillSimulator R) (p k : Nat)
    (sg0 : Bool) :
    (addRowStep p sg0 st k).sgns
      = if sg0 then st.sgns.negate k else st.sgns := by
  unfold addRowStep
  dsimp only
  split_ifs <;> rfl

theorem addRowStep_measured (st : GottesmanKnillSimulator R) (p k : Nat)
    (sg0 : Bool) : (addRowStep p sg0 st k).measured = st.measured := by
  unfold addRowStep
  dsimp only
  split_ifs <;> rfl

theorem addRowStep_rng (st : GottesmanKnillSimulator R) (p k : Nat)
    (sg0 : Bool) : (addRowStep p sg0 st k).rng = st.rng := by
  unfold addRowStep
  dsimp only
  split_ifs <;> rfl

/-- Characterization of the `elimAdds` row-addition loop over resolved
target rows: rows outside `targets` (including the pivot) are frozen,
each target row gets the pivot's original rows XORed in and its sign
bit toggled by the pivot-sign snapshot. -/
theorem addRow_loop_char (p : Nat) (sg0 : Bool) (targets : List Nat) :
    ∀ st st' : GottesmanKnillSimulator R,
      st' = targets.foldl (addRowStep p sg0) st →
      targets.Nodup → p ∉ targets →
      (∀ j ∈ targets, j < st.xs.length ∧ j < st.zs.length ∧
        j / BLOCK_SIZE < st.sgns.inner.length) →
      (st'.xs.length = st.xs.length ∧
       st'.zs.length = st.zs.length ∧
       st'.sgns.inner.length = st.sgns.inner.length ∧
       st'.measured = st.measured ∧
       st'.rng = st.rng ∧
       (∀ m, m ∉ targets →
         st'.xs.getD m default = st.xs.getD m default ∧
         st'.zs.getD m default = st.zs.getD m default ∧
         st'.sgns.getBit m = st.sgns.getBit m) ∧
       (∀ k ∈ targets,
         st'.xs.getD k default
           = (st.xs.getD k default).xor_all (st.xs.getD p default) ∧
         st'.zs.getD k default
           = (st.zs.getD k default).xor_all (st.zs.getD p default) ∧
         st'.sgns.getBit k = (st.sgns.getBit k).xor sg0)) := by
  induction targets with
  | nil =>
    intro st st' hst' _ _ _
    subst hst'
    exact ⟨rfl, rfl, rfl, rfl, rfl, fun m _ => ⟨rfl, rfl, rfl⟩,
      fun k hk => absurd hk (by simp)⟩
  | cons j tl ih =>
    intro st st' hst' hnd hp hb
    rw [List.nodup_cons] at hnd
    obtain ⟨hjtl, hnd'⟩ := hnd
    have hpj : p ≠ j := fun h => hp (h ▸ List.mem_cons_self j tl)
    have hp' : p ∉ tl := fun h => hp (List.mem_cons_of_mem j h)
    obtain ⟨hjx, hjz, hjs⟩ := hb j (List.mem_cons_self j tl)
    rw [List.foldl_cons] at hst'
    set st1 := addRowStep p sg0 st j with hst1
    have hx1 : st1.xs = st.xs.set j
        ((st.xs.getD j default).xor_all (st.xs.getD p default)) :=
      addRowStep_xs st p j sg0
    have hz1 : st1.zs = st.zs.set j
        ((st.zs.getD j default).xor_all (st.zs.getD p default)) :=
      addRowStep_zs st p j sg0
    have hs1 : st1.sgns = if sg0 then st.sgns.negate j else st.sgns :=
      addRowStep_sgns st p j sg0
    have hlx1 : st1.xs.length = st.xs.length := by rw [hx1, List.length_set]
    have hlz1 : st1.zs.length = st.zs.length := by rw [hz1, List.length_set]
    have hls1 : st1.sgns.inner.length = st.sgns.inner.length := by
      rw [hs1]
      split_ifs <;> simp
    have hb' : ∀ j' ∈ tl, j' < st1.xs.length ∧ j' < st1.zs.length ∧
        j' / BLOCK_SIZE < st1.sgns.inner.length := by
      intro j' hj'
      obtain ⟨h1, h2, h3⟩ := hb j' (List.mem_cons_of_mem j hj')
      exact ⟨hlx1 ▸ h1, hlz1 ▸ h2, hls1 ▸ h3⟩
    obtain ⟨ihx, ihz, ihs, ihm, ihr, ihu, iht⟩ :=
      ih st1 st' hst' hnd' hp' hb'
    have hsgnsbit : ∀ m, st1.sgns.getBit m
        = if sg0 && decide (m = j) then !(st.sgns.getBit m)
          else st.sgns.getBit m := by
      intro m
      rw [hs1]
      rcases sg0 with _ | _
      · simp
      · rw [if_pos rfl, BitArray.getBit_negate _ _ hjs m]
        rcases eq_or_ne m j with rfl | hmj
        · simp
        · simp [hmj]
    have hu1 : ∀ m, m ≠ j →
        st1.xs.getD m default = st.xs.getD m default ∧
        st1.zs.getD m default = st.zs.getD m default ∧
        st1.sgns.getBit m = st.sgns.getBit m := by
      intro m hm
      refine ⟨?_, ?_, ?_⟩
      · rw [hx1, getD_set_ne' (fun h => hm h.symm)]
      · rw [hz1, getD_set_ne' (fun h => hm h.symm)]
      · rw [hsgnsbit m]
        simp [hm]
    have hmeas1 : st1.measured = st.measured := addRowStep_measured st p j sg0
    have hrng1 : st1.rng = st.rng := addRowStep_rng st p j sg0
    refine ⟨ihx.trans hlx1, ihz.trans hlz1, ihs.trans hls1,
      ihm.trans hmeas1, ihr.trans hrng1, ?_, ?_⟩
    · intro m hm
      rw [List.mem_cons] at hm
      push_neg at hm
      obtain ⟨hmj, hmtl⟩ := hm
      obtain ⟨u1, u2, u3⟩ := ihu m hmtl
      obtain ⟨v1, v2, v3⟩ := hu1 m hmj
      exact ⟨u1.trans v1, u2.trans v2, u3.trans v3⟩
    · intro k hk
      rcases List.mem_cons.mp hk with rfl | hk'
      · obtain ⟨u1, u2, u3⟩ := ihu k hjtl
        refine ⟨?_, ?_, ?_⟩
        · rw [u1, hx1, getD_set_self' hjx]
        · rw [u2, hz1, getD_set_self' hjz]
        · rw [u3, hsgnsbit k]
          rcases sg0 with _ | _
          · simp
          · simp
      · obtain ⟨t1, t2, t3⟩ := iht k hk'
        have hkj : k ≠ j := fun h => hjtl (h ▸ hk')
        obtain ⟨w1, w2, w3⟩ := hu1 k hkj
        obtain ⟨p1, p2, p3⟩ := hu1 p hpj
        refine ⟨?_, ?_, ?_⟩
        · rw [t1, w1, p1]
        · rw [t2, w2, p2]
        · rw [t3, w3]

/-- The `GF(2)` vector view of tableau row `k`. -/
def rowVec (n : Nat) (st : GottesmanKnillSimulator R) (k : Fin n) :
    PauliVec n :=
  (fun i => b2z ((st.xs.getD k.val default).getBit i.val),
   fun i => b2z ((st.zs.getD k.val default).getBit i.val))

theorem rowVec_fst (n : Nat) (st : GottesmanKnillSimulator R) (k : Fin n)
    (i : Fin n) :
    (rowVec n st k).1 i = b2z ((st.xs.getD k.val default).getBit i.val) := rfl

theorem rowVec_snd (n : Nat) (st : GottesmanKnillSimulator R) (k : Fin n)
    (i : Fin n) :
    (rowVec n st k).2 i = b2z ((st.zs.getD k.val default).getBit i.val) := rfl

theorem getD_row_wf {n : Nat} {l : List BitArray} (hlen : l.length = n)
    (hwf : ∀ a ∈ l, a.wf n) {k : Nat} (hk : k < n) :
    (l.getD k default).wf n := by
  apply hwf
  exact getD_mem (by omega) _

theorem xor_all_b2z {n : Nat} (a b : BitArray) (ha : a.wf n) (hb : b.wf n)
    (i : Nat) :
    b2z ((a.xor_all b).getBit i) = b2z (a.getBit i) + b2z (b.getBit i) := by
  rw [BitArray.getBit_xor_all a b (by rw [ha.2.1, hb.2.1]), b2z_xor]

theorem rows_wf_of_getD {n : Nat} {l' : List BitArray}
    (hlen : l'.length = n)
    (h : ∀ m, m < n → (l'.getD m default).wf n) : ∀ a ∈ l', a.wf n := by
  intro a ha
  rw [List.mem_iff_getElem] at ha
  obtain ⟨m, hm, rfl⟩ := ha
  have hmn : m < n := by omega
  have := h m hmn
  rwa [List.getD_eq_getElem?_getD, List.getElem?_eq_getElem hm] at this

theorem addRow_fold_sgns_wf {n : Nat} (p : Nat) (sg0 : Bool)
    (targets : List Nat) (st : GottesmanKnillSimulator R)
    (hs : st.sgns.wf n) :
    ((targets.foldl (addRowStep p sg0) st)).sgns.wf n := by
  refine foldl_pres_prop
    (fun s : GottesmanKnillSimulator R => s.sgns.wf n) _ targets st hs ?_
  intro s hsw k _
  rw [addRowStep_sgns]
  split_ifs
  · exact BitArray.wf_negate hsw k
  · exact hsw

/-- Invariant of the X-elimination pass of the deterministic
measurement branch, after processing columns `0, …, i-1`.  `tag k =
some c` records that row `k` was removed from the live set as the
pivot of column `c`. -/
structure XInv (n q i : Nat) (st : GottesmanKnillSimulator R)
    (idx : List Nat) (tag : Nat → Option Nat) : Prop where
  wf : st.WF n
  nodup : idx.Nodup
  mem_lt : ∀ k ∈ idx, k < n
  live_iff : ∀ k, k < n → (k ∈ idx ↔ tag k = none)
  live_clear : ∀ k ∈ idx, ∀ c, c < i →
    (st.xs.getD k default).getBit c = false
  dead_spec : ∀ k c, k < n → tag k = some c →
    c < i ∧ (st.xs.getD k default).getBit c = true ∧
    ∀ c', c' < c → (st.xs.getD k default).getBit c' = false
  tag_inj : ∀ k k' c, k < n → k' < n → tag k = some c →
    tag k' = some c → k = k'
  indep : LinearIndependent (ZMod 2) (rowVec n st)
  iso : ∀ k j : Fin n, sympB n (rowVec n st k) (rowVec n st j) = 0
  qfree : ∀ k, k < n → (st.xs.getD k default).getBit q = false

theorem xinv_base (n q : Nat) (st : GottesmanKnillSimulator R)
    (hwf : st.WF n)
    (hindep : LinearIndependent (ZMod 2) (rowVec n st))
    (hiso : ∀ k j : Fin n, sympB n (rowVec n st k) (rowVec n st j) = 0)
    (hq : ∀ k, k < n → (st.xs.getD k default).getBit q = false) :
    XInv n q 0 st (List.range n) (fun _ => none) where
  wf := hwf
  nodup := List.nodup_range n
  mem_lt := fun k hk => List.mem_range.mp hk
  live_iff := fun k hk => by simp [List.mem_range, hk]
  live_clear := fun k _ c hc => absurd hc (by omega)
  dead_spec := fun k c _ h => absurd h (by simp)
  tag_inj := fun k k' c _ _ h _ => absurd h (by simp)
  indep := hindep
  iso := hiso
  qfree := hq

theorem get_bool_getD_false {st : GottesmanKnillSimulator R} {idx : List Nat}
    {i : Nat} (hnil : xInds st idx i = [])
    {k : Nat} (hk : k ∈ idx) :
    (st.xs.getD k default).getBit i = false := by
  rw [List.mem_iff_getElem] at hk
  obtain ⟨j, hj, rfl⟩ := hk
  by_contra hbit
  have hbit' : (st.xs.getD idx[j] default).getBit i = true := by
    rcases h : (st.xs.getD idx[j] default).getBit i with _ | _
    · exact absurd h hbit
    · rfl
  have hmem : j ∈ xInds st idx i := by
    unfold xInds
    rw [mem_inds_iff]
    refine ⟨hj, ?_⟩
    have hgd : idx.getD j default = idx[j] := by
      rw [List.getD_eq_getElem?_getD, List.getElem?_eq_getElem hj]
      rfl
    rw [hgd, BitArray.get_bool_eq_getBit]
    exact hbit'
  rw [hnil] at hmem
  exact absurd hmem (by simp)

theorem xinv_step_nil (n q i : Nat) (st : GottesmanKnillSimulator R)
    (idx : List Nat) (tag : Nat → Option Nat)
    (hinv : XInv n q i st idx tag) (hnil : xInds st idx i = []) :
    XInv n q (i + 1) st idx tag where
  wf := hinv.wf
  nodup := hinv.nodup
  mem_lt := hinv.mem_lt
  live_iff := hinv.live_iff
  live_clear := by
    intro k hk c hc
    rcases Nat.lt_or_ge c i with hci | hci
    · exact hinv.live_clear k hk c hci
    · have hceq : c = i := by omega
      subst hceq
      exact get_bool_getD_false hnil hk
  dead_spec := by
    intro k c hkn htag
    obtain ⟨h1, h2, h3⟩ := hinv.dead_spec k c hkn htag
    exact ⟨by omega, h2, h3⟩
  tag_inj := hinv.tag_inj
  indep := hinv.indep
  iso := hinv.iso
  qfree := hinv.qfree

theorem getD_eq_getElem_idx {idx : List Nat} {j : Nat} (hj : j < idx.length) :
    idx.getD j 0 = idx[j] := by
  rw [List.getD_eq_getElem?_getD, List.getElem?_eq_getElem hj]
  rfl

theorem xinv_step_cons (n q i : Nat) (st : GottesmanKnillSimulator R)
    (idx : List Nat) (tag : Nat → Option Nat) (hin : i < n)
    (hinv : XInv n q i st idx tag) (p0 : Nat) (tl : List Nat)
    (hx : xInds st idx i = p0 :: tl) :
    XInv n q (i + 1)
      (elimAdds idx (idx.getD p0 0) (st.sgns.get_bool (idx.getD p0 0)) tl st)
      (swapRemove idx p0)
      (fun k => if k = idx.getD p0 0 then some i else tag k) := by
  obtain ⟨hlx, hlz, hwx, hwz, hws, hwm⟩ := hinv.wf
  have hxdef : xInds st idx i
      = (idx.enum.filter
          (fun pk => (st.xs.getD pk.2 default).get_bool i)).map Prod.fst := rfl
  have hpw : (p0 :: tl).Pairwise (· < ·) := by
    rw [← hx, hxdef]
    exact inds_pairwise idx _
  have hlen : ∀ j ∈ p0 :: tl, j < idx.length := by
    rw [← hx, hxdef]
    exact inds_lt idx _
  have hmemJ : ∀ j, j ∈ p0 :: tl ↔ j < idx.length ∧
      (st.xs.getD (idx.getD j 0) default).getBit i = true := by
    intro j
    rw [← hx, hxdef, mem_inds_iff]
    constructor
    · rintro ⟨h1, h2⟩
      rw [BitArray.get_bool_eq_getBit] at h2
      exact ⟨h1, h2⟩
    · rintro ⟨h1, h2⟩
      refine ⟨h1, ?_⟩
      rw [BitArray.get_bool_eq_getBit]
      exact h2
  have hp0len : p0 < idx.length := hlen p0 (List.mem_cons_self p0 tl)
  set p := idx.getD p0 0 with hpdef
  set sg0 := st.sgns.get_bool p with hsg0def
  have hpelem : idx[p0] = p := (getD_eq_getElem_idx hp0len).symm
  have hpidx : p ∈ idx := by
    rw [← hpelem]
    exact List.getElem_mem hp0len
  have hpn : p < n := hinv.mem_lt p hpidx
  have hpbit : (st.xs.getD p default).getBit i = true :=
    ((hmemJ p0).1 (List.mem_cons_self p0 tl)).2
  rw [List.pairwise_cons] at hpw
  obtain ⟨hp0lt, htlpw⟩ := hpw
  have htlnd : tl.Nodup := htlpw.imp (fun h => Nat.ne_of_lt h)
  have htllen : ∀ j ∈ tl, j < idx.length :=
    fun j hj => hlen j (List.mem_cons_of_mem p0 hj)
  set targets := tl.map (fun j => idx.getD j 0) with htargetsdef
  have htnodup : targets.Nodup := by
    refine List.Nodup.map_on ?_ htlnd
    intro j hj j' hj' heq
    rw [getD_eq_getElem_idx (htllen j hj),
      getD_eq_getElem_idx (htllen j' hj')] at heq
    exact (hinv.nodup.getElem_inj_iff).1 heq
  have hpnotint : p ∉ targets := by
    intro hmem
    rw [htargetsdef, List.mem_map] at hmem
    obtain ⟨j, hj, hval⟩ := hmem
    rw [getD_eq_getElem_idx (htllen j hj), ← hpelem] at hval
    have := (hinv.nodup.getElem_inj_iff).1 hval
    subst this
    exact absurd (hp0lt j hj) (lt_irrefl _)
  have htmem : ∀ k ∈ targets, k ∈ idx := by
    intro k hk
    rw [htargetsdef, List.mem_map] at hk
    obtain ⟨j, hj, hval⟩ := hk
    rw [← hval]
    exact getD_mem (htllen j hj) 0
  have htbit : ∀ k ∈ targets, (st.xs.getD k default).getBit i = true := by
    intro k hk
    rw [htargetsdef, List.mem_map] at hk
    obtain ⟨j, hj, hval⟩ := hk
    rw [← hval]
    exact ((hmemJ j).1 (List.mem_cons_of_mem p0 hj)).2
  have htlt : ∀ k ∈ targets, k < n := fun k hk => hinv.mem_lt k (htmem k hk)
  have htbounds : ∀ k ∈ targets, k < st.xs.length ∧ k < st.zs.length ∧
      k / BLOCK_SIZE < st.sgns.inner.length := by
    intro k hk
    have hkn := htlt k hk
    exact ⟨by omega, by omega, BitArray.wf_block_lt hws hkn⟩
  rw [elimAdds_eq_targets_fold, ← htargetsdef]
  set stF := targets.foldl (addRowStep p sg0) st with hstFdef
  obtain ⟨Cx, Cz, Cs, Cm, Cr, Cu, Ct⟩ :=
    addRow_loop_char p sg0 targets st stF rfl htnodup hpnotint htbounds
  -- the new live list
  have hindexOf : idx.indexOf p = p0 := by
    have h1 : idx.indexOf p < idx.length := List.indexOf_lt_length.2 hpidx
    have h2 : idx[idx.indexOf p] = p := List.getElem_indexOf h1
    exact (hinv.nodup.getElem_inj_iff).1 (h2.trans hpelem.symm)
  have hperm : (swapRemove idx p0).Perm (idx.erase p) := by
    have h1 := swapRemove_perm idx p0 hp0len
    rw [show idx.eraseIdx p0 = idx.erase p from by
      rw [← hindexOf]
      exact List.eraseIdx_indexOf_eq_erase p idx] at h1
    exact h1
  have hmem' : ∀ k, k ∈ swapRemove idx p0 ↔ (k ∈ idx ∧ k ≠ p) := by
    intro k
    rw [hperm.mem_iff, hinv.nodup.mem_erase_iff]
    tauto
  have hnodup' : (swapRemove idx p0).Nodup :=
    hperm.nodup_iff.2 (hinv.nodup.erase p)
  -- untouched-row description covers every row outside targets
  have hUrow : ∀ m, m ∉ targets →
      stF.xs.getD m default = st.xs.getD m default ∧
      stF.zs.getD m default = st.zs.getD m default ∧
      stF.sgns.getBit m = st.sgns.getBit m := Cu
  -- bit description of target rows
  have hrowwf : ∀ k, k < n → (st.xs.getD k default).wf n :=
    fun k hk => getD_row_wf hlx hwx hk
  have hrowwfz : ∀ k, k < n → (st.zs.getD k default).wf n :=
    fun k hk => getD_row_wf hlz hwz hk
  have hTbitx : ∀ k ∈ targets, ∀ c : Nat,
      (stF.xs.getD k default).getBit c
        = ((st.xs.getD k default).getBit c).xor
            ((st.xs.getD p default).getBit c) := by
    intro k hk c
    rw [(Ct k hk).1]
    exact BitArray.getBit_xor_all _ _
      (by rw [(hrowwf k (htlt k hk)).2.1, (hrowwf p hpn).2.1]) c
  have hTbitz : ∀ k ∈ targets, ∀ c : Nat,
      (stF.zs.getD k default).getBit c
        = ((st.zs.getD k default).getBit c).xor
            ((st.zs.getD p default).getBit c) := by
    intro k hk c
    rw [(Ct k hk).2.1]
    exact BitArray.getBit_xor_all _ _
      (by rw [(hrowwfz k (htlt k hk)).2.1, (hrowwfz p hpn).2.1]) c
  -- the GF(2) row transformation
  set cvec : Fin n → ZMod 2 :=
    fun k => if (k : Nat) ∈ targets then 1 else 0 with hcvecdef
  set pF : Fin n := ⟨p, hpn⟩ with hpFdef
  have hrv : rowVec n stF
      = fun k => rowVec n st k + cvec k • rowVec n st pF := by
    funext k
    rcases Decidable.em ((k : Nat) ∈ targets) with hkt | hkt
    · have hc1 : cvec k = 1 := by rw [hcvecdef]; simp [hkt]
      rw [hc1, one_smul]
      refine Prod.ext (funext fun i' => ?_) (funext fun i' => ?_)
      · rw [Prod.fst_add, Pi.add_apply, rowVec_fst, rowVec_fst, rowVec_fst,
          hTbitx k hkt i', b2z_xor]
      · rw [Prod.snd_add, Pi.add_apply, rowVec_snd, rowVec_snd, rowVec_snd,
          hTbitz k hkt i', b2z_xor]
    · have hc0 : cvec k = 0 := by rw [hcvecdef]; simp [hkt]
      rw [hc0, zero_smul, add_zero]
      obtain ⟨u1, u2, u3⟩ := hUrow k hkt
      refine Prod.ext (funext fun i' => ?_) (funext fun i' => ?_)
      · rw [rowVec_fst, rowVec_fst, u1]
      · rw [rowVec_snd, rowVec_snd, u2]
  have hcp0 : cvec pF = 0 := by
    rw [hcvecdef]
    simp [hpnotint]
  refine
    { wf := ?_, nodup := hnodup', mem_lt := ?_, live_iff := ?_,
      live_clear := ?_, dead_spec := ?_, tag_inj := ?_, indep := ?_,
      iso := ?_, qfree := ?_ }
  · -- WF
    refine ⟨Cx.trans hlx, Cz.trans hlz, ?_, ?_, ?_, ?_⟩
    · refine rows_wf_of_getD (Cx.trans hlx) ?_
      intro m hm
      rcases Decidable.em (m ∈ targets) with hmt | hmt
      · rw [(Ct m hmt).1]
        exact BitArray.wf_xor_all (hrowwf m hm) (hrowwf p hpn)
      · rw [(hUrow m hmt).1]
        exact hrowwf m hm
    · refine rows_wf_of_getD (Cz.trans hlz) ?_
      intro m hm
      rcases Decidable.em (m ∈ targets) with hmt | hmt
      · rw [(Ct m hmt).2.1]
        exact BitArray.wf_xor_all (hrowwfz m hm) (hrowwfz p hpn)
      · rw [(hUrow m hmt).2.1]
        exact hrowwfz m hm
    · exact addRow_fold_sgns_wf p sg0 targets st hws
    · rw [Cm]
      exact hwm
  · -- mem_lt
    intro k hk
    exact hinv.mem_lt k ((hmem' k).1 hk).1
  · -- live_iff
    intro k hkn
    rw [hmem' k, hinv.live_iff k hkn]
    rcases eq_or_ne k p with rfl | hkp
    · simp
    · simp [hkp]
  · -- live_clear
    intro k hk c hc
    obtain ⟨hkidx, hkp⟩ := (hmem' k).1 hk
    rcases Decidable.em (k ∈ targets) with hkt | hkt
    · rw [hTbitx k hkt c]
      rcases Nat.lt_or_ge c i with hci | hci
      · rw [hinv.live_clear k hkidx c hci, hinv.live_clear p hpidx c hci]
        rfl
      · have hceq : c = i := by omega
        subst hceq
        rw [htbit k hkt, hpbit]
        rfl
    · rw [(hUrow k hkt).1]
      rcases Nat.lt_or_ge c i with hci | hci
      · exact hinv.live_clear k hkidx c hci
      · have hceq : c = i := by omega
        subst hceq
        by_contra hbit
        have hbit' : (st.xs.getD k default).getBit c = true := by
          rcases hb : (st.xs.getD k default).getBit c with _ | _
          · exact absurd hb hbit
          · rfl
        rw [List.mem_iff_getElem] at hkidx
        obtain ⟨j, hj, hval⟩ := hkidx
        have hjmem : j ∈ p0 :: tl := by
          rw [hmemJ j]
          refine ⟨hj, ?_⟩
          rw [getD_eq_getElem_idx hj, hval]
          exact hbit'
        rcases List.mem_cons.mp hjmem with rfl | hjtl
        · rw [hpelem] at hval
          exact hkp hval.symm
        · apply hkt
          rw [htargetsdef, List.mem_map]
          exact ⟨j, hjtl, by rw [getD_eq_getElem_idx hj, hval]⟩
  · -- dead_spec
    intro k c hkn htag
    rcases eq_or_ne k p with rfl | hkp
    · rw [if_pos rfl] at htag
      have hci : c = i := by
        injection htag with h
        exact h.symm
      subst hci
      obtain ⟨u1, u2, u3⟩ := hUrow p hpnotint
      refine ⟨by omega, ?_, ?_⟩
      · rw [u1]
        exact hpbit
      · intro c' hc'
        rw [u1]
        exact hinv.live_clear p hpidx c' hc'
    · rw [if_neg hkp] at htag
      obtain ⟨h1, h2, h3⟩ := hinv.dead_spec k c hkn htag
      have hkdead : k ∉ idx := by
        intro hmem
        rw [hinv.live_iff k hkn] at hmem
        rw [hmem] at htag
        exact absurd htag (by simp)
      have hknot : k ∉ targets := fun h => hkdead (htmem k h)
      obtain ⟨u1, u2, u3⟩ := hUrow k hknot
      refine ⟨by omega, ?_, ?_⟩
      · rw [u1]
        exact h2
      · intro c' hc'
        rw [u1]
        exact h3 c' hc'
  · -- tag_inj
    intro k k' c hkn hk'n htag htag'
    rcases eq_or_ne k p with rfl | hkp <;> rcases eq_or_ne k' p with h2 | h2
    · rw [h2]
    · rw [if_pos rfl] at htag
      rw [if_neg h2] at htag'
      have hci : c = i := by
        injection htag with h
        exact h.symm
      subst hci
      have := (hinv.dead_spec k' c hk'n htag').1
      omega
    · rw [if_neg hkp] at htag
      rw [h2, if_pos rfl] at htag'
      have hci : c = i := by
        injection htag' with h
        exact h.symm
      subst hci
      have := (hinv.dead_spec k c hkn htag).1
      omega
    · rw [if_neg hkp] at htag
      rw [if_neg h2] at htag'
      exact hinv.tag_inj k k' c hkn hk'n htag htag'
  · -- indep
    rw [hrv]
    exact lin_indep_step _ hinv.indep pF cvec hcp0
  · -- iso
    intro k j
    rw [hrv]
    simp only [map_add, map_smul, LinearMap.add_apply, LinearMap.smul_apply,
      smul_eq_mul, hinv.iso, mul_zero, add_zero, zero_add, smul_zero]
  · -- qfree
    intro k hkn
    rcases Decidable.em (k ∈ targets) with hkt | hkt
    · rw [hTbitx k hkt q, hinv.qfree k hkn, hinv.qfree p hpn]
      rfl
    · rw [(hUrow k hkt).1]
      exact hinv.qfree k hkn

theorem elimX_unfold_nil (st : GottesmanKnillSimulator R) (idx : List Nat)
    (i : Nat) (h : xInds st idx i = []) : elimX (st, idx) i = (st, idx) := by
  unfold elimX
  dsimp only
  rw [h]

theorem elimX_unfold_cons (st : GottesmanKnillSimulator R) (idx : List Nat)
    (i p0 : Nat) (tl : List Nat) (h : xInds st idx i = p0 :: tl) :
    elimX (st, idx) i
      = (elimAdds idx (idx.getD p0 0) (st.sgns.get_bool (idx.getD p0 0)) tl st,
         swapRemove idx p0) := by
  unfold elimX
  dsimp only
  rw [h]

theorem xinv_pass (n q : Nat) (st : GottesmanKnillSimulator R)
    (hwf : st.WF n)
    (hindep : LinearIndependent (ZMod 2) (rowVec n st))
    (hiso : ∀ k j : Fin n, sympB n (rowVec n st k) (rowVec n st j) = 0)
    (hq : ∀ k, k < n → (st.xs.getD k default).getBit q = false) :
    ∀ i, i ≤ n → ∃ tag,
      XInv n q i ((List.range i).foldl elimX (st, List.range n)).1
        ((List.range i).foldl elimX (st, List.range n)).2 tag := by
  intro i
  induction i with
  | zero =>
    intro _
    exact ⟨fun _ => none, xinv_base n q st hwf hindep hiso hq⟩
  | succ i ih =>
    intro hi
    obtain ⟨tag, hinv⟩ := ih (by omega)
    rw [List.range_succ, List.foldl_append, List.foldl_cons, List.foldl_nil]
    set acc := (List.range i).foldl elimX (st, List.range n) with haccdef
    have hacc : acc = (acc.1, acc.2) := rfl
    rw [hacc]
    cases hx : xInds acc.1 acc.2 i with
    | nil =>
      rw [elimX_unfold_nil acc.1 acc.2 i hx]
      exact ⟨tag, xinv_step_nil n q i acc.1 acc.2 tag hinv hx⟩
    | cons p0 tl =>
      rw [elimX_unfold_cons acc.1 acc.2 i p0 tl hx]
      exact ⟨fun k => if k = acc.2.getD p0 0 then some i else tag k,
        xinv_step_cons n q i acc.1 acc.2 tag (by omega) hinv p0 tl hx⟩

/-- Invariant of the Z-elimination pass (columns `0, …, i-1`, column
`q` skipped).  Tags record the removal pivot column, `inl` for the
X pass and `inr` for the Z pass. -/
structure ZInv (n q i : Nat) (st : GottesmanKnillSimulator R)
    (idx : List Nat) (tag : Nat → Option (Nat ⊕ Nat)) : Prop where
  wf : st.WF n
  nodup : idx.Nodup
  mem_lt : ∀ k ∈ idx, k < n
  live_iff : ∀ k, k < n → (k ∈ idx ↔ tag k = none)
  live_xzero : ∀ k ∈ idx, ∀ c, c < n →
    (st.xs.getD k default).getBit c = false
  live_zclear : ∀ k ∈ idx, ∀ c, c < i → c ≠ q →
    (st.zs.getD k default).getBit c = false
  deadX : ∀ k c, k < n → tag k = some (Sum.inl c) →
    c < n ∧ (st.xs.getD k default).getBit c = true ∧
    ∀ c', c' < c → (st.xs.getD k default).getBit c' = false
  deadZ : ∀ k c, k < n → tag k = some (Sum.inr c) →
    c < i ∧ c ≠ q ∧
    (∀ c', c' < n → (st.xs.getD k default).getBit c' = false) ∧
    (st.zs.getD k default).getBit c = true ∧
    ∀ c', c' < c → c' ≠ q → (st.zs.getD k default).getBit c' = false
  tag_inj : ∀ k k' t, k < n → k' < n → tag k = some t →
    tag k' = some t → k = k'
  indep : LinearIndependent (ZMod 2) (rowVec n st)
  iso : ∀ k j : Fin n, sympB n (rowVec n st k) (rowVec n st j) = 0
  qfree : ∀ k, k < n → (st.xs.getD k default).getBit q = false

theorem zinv_of_xinv (n q : Nat) (st : GottesmanKnillSimulator R)
    (idx : List Nat) (tag : Nat → Option Nat)
    (hinv : XInv n q n st idx tag) :
    ZInv n q 0 st idx (fun k => (tag k).map Sum.inl) where
  wf := hinv.wf
  nodup := hinv.nodup
  mem_lt := hinv.mem_lt
  live_iff := by
    intro k hk
    rw [hinv.live_iff k hk]
    cases tag k <;> simp
  live_xzero := fun k hk c hc => hinv.live_clear k hk c hc
  live_zclear := fun k _ c hc _ => absurd hc (by omega)
  deadX := by
    intro k c hkn htag
    have htag' : tag k = some c := by
      cases h : tag k
      · rw [h] at htag
        exact absurd htag (by simp)
      · rw [h] at htag
        injection htag with h2
        injection h2 with h3
        rw [h3]
    exact hinv.dead_spec k c hkn htag'
  deadZ := by
    intro k c hkn htag
    exfalso
    cases h : tag k
    · rw [h] at htag
      exact absurd htag (by simp)
    · rw [h] at htag
      simp at htag
  tag_inj := by
    intro k k' t hkn hk'n htag htag'
    cases h : tag k with
    | none =>
      rw [h] at htag
      exact absurd htag (by simp)
    | some c =>
      rw [h] at htag
      cases h' : tag k' with
      | none =>
        rw [h'] at htag'
        exact absurd htag' (by simp)
      | some c' =>
        rw [h'] at htag'
        rw [← htag] at htag'
        injection htag' with h2
        injection h2 with h3
        exact hinv.tag_inj k k' c hkn hk'n h (by rw [h', h3])
  indep := hinv.indep
  iso := hinv.iso
  qfree := hinv.qfree

theorem zbit_getD_false {st : GottesmanKnillSimulator R} {idx : List Nat}
    {i : Nat} (hnil : zInds st idx i = [])
    {k : Nat} (hk : k ∈ idx) :
    (st.zs.getD k default).getBit i = false := by
  rw [List.mem_iff_getElem] at hk
  obtain ⟨j, hj, rfl⟩ := hk
  by_contra hbit
  have hbit' : (st.zs.getD idx[j] default).getBit i = true := by
    rcases h : (st.zs.getD idx[j] default).getBit i with _ | _
    · exact absurd h hbit
    · rfl
  have hmem : j ∈ zInds st idx i := by
    unfold zInds
    rw [mem_inds_iff]
    refine ⟨hj, ?_⟩
    have hgd : idx.getD j default = idx[j] := by
      rw [List.getD_eq_getElem?_getD, List.getElem?_eq_getElem hj]
      rfl
    rw [hgd, BitArray.get_bool_eq_getBit]
    exact hbit'
  rw [hnil] at hmem
  exact absurd hmem (by simp)

theorem zinv_step_nil (n q i : Nat) (st : GottesmanKnillSimulator R)
    (idx : List Nat) (tag : Nat → Option (Nat ⊕ Nat))
    (hinv : ZInv n q i st idx tag) (hnil : zInds st idx i = []) :
    ZInv n q (i + 1) st idx tag where
  wf := hinv.wf
  nodup := hinv.nodup
  mem_lt := hinv.mem_lt
  live_iff := hinv.live_iff
  live_xzero := hinv.live_xzero
  live_zclear := by
    intro k hk c hc hcq
    rcases Nat.lt_or_ge c i with hci | hci
    · exact hinv.live_zclear k hk c hci hcq
    · have hceq : c = i := by omega
      subst hceq
      exact zbit_getD_false hnil hk
  deadX := hinv.deadX
  deadZ := by
    intro k c hkn htag
    obtain ⟨h1, h2, h3, h4, h5⟩ := hinv.deadZ k c hkn htag
    exact ⟨by omega, h2, h3, h4, h5⟩
  tag_inj := hinv.tag_inj
  indep := hinv.indep
  iso := hinv.iso
  qfree := hinv.qfree

theorem zinv_step_skip (n q i : Nat) (st : GottesmanKnillSimulator R)
    (idx : List Nat) (tag : Nat → Option (Nat ⊕ Nat))
    (hinv : ZInv n q i st idx tag) (hqi : i = q) :
    ZInv n q (i + 1) st idx tag where
  wf := hinv.wf
  nodup := hinv.nodup
  mem_lt := hinv.mem_lt
  live_iff := hinv.live_iff
  live_xzero := hinv.live_xzero
  live_zclear := by
    intro k hk c hc hcq
    have hci : c < i := by omega
    exact hinv.live_zclear k hk c hci hcq
  deadX := hinv.deadX
  deadZ := by
    intro k c hkn htag
    obtain ⟨h1, h2, h3, h4, h5⟩ := hinv.deadZ k c hkn htag
    exact ⟨by omega, h2, h3, h4, h5⟩
  tag_inj := hinv.tag_inj
  indep := hinv.indep
  iso := hinv.iso
  qfree := hinv.qfree

theorem zinv_step_cons (n q i : Nat) (st : GottesmanKnillSimulator R)
    (idx : List Nat) (tag : Nat → Option (Nat ⊕ Nat)) (hin : i < n)
    (hiq : i ≠ q)
    (hinv : ZInv n q i st idx tag) (p0 : Nat) (tl : List Nat)
    (hx : zInds st idx i = p0 :: tl) :
    ZInv n q (i + 1)
      (elimAdds idx (idx.getD p0 0) (st.sgns.get_bool (idx.getD p0 0)) tl st)
      (swapRemove idx p0)
      (fun k => if k = idx.getD p0 0 then some (Sum.inr i) else tag k) := by
  obtain ⟨hlx, hlz, hwx, hwz, hws, hwm⟩ := hinv.wf
  have hxdef : zInds st idx i
      = (idx.enum.filter
          (fun pk => (st.zs.getD pk.2 default).get_bool i)).map Prod.fst := rfl
  have hpw : (p0 :: tl).Pairwise (· < ·) := by
    rw [← hx, hxdef]
    exact inds_pairwise idx _
  have hlen : ∀ j ∈ p0 :: tl, j < idx.length := by
    rw [← hx, hxdef]
    exact inds_lt idx _
  have hmemJ : ∀ j, j ∈ p0 :: tl ↔ j < idx.length ∧
      (st.zs.getD (idx.getD j 0) default).getBit i = true := by
    intro j
    rw [← hx, hxdef, mem_inds_iff]
    constructor
    · rintro ⟨h1, h2⟩
      rw [BitArray.get_bool_eq_getBit] at h2
      exact ⟨h1, h2⟩
    · rintro ⟨h1, h2⟩
      refine ⟨h1, ?_⟩
      rw [BitArray.get_bool_eq_getBit]
      exact h2
  have hp0len : p0 < idx.length := hlen p0 (List.mem_cons_self p0 tl)
  set p := idx.getD p0 0 with hpdef
  set sg0 := st.sgns.get_bool p with hsg0def
  have hpelem : idx[p0] = p := (getD_eq_getElem_idx hp0len).symm
  have hpidx : p ∈ idx := by
    rw [← hpelem]
    exact List.getElem_mem hp0len
  have hpn : p < n := hinv.mem_lt p hpidx
  have hpbit : (st.zs.getD p default).getBit i = true :=
    ((hmemJ p0).1 (List.mem_cons_self p0 tl)).2
  rw [List.pairwise_cons] at hpw
  obtain ⟨hp0lt, htlpw⟩ := hpw
  have htlnd : tl.Nodup := htlpw.imp (fun h => Nat.ne_of_lt h)
  have htllen : ∀ j ∈ tl, j < idx.length :=
    fun j hj => hlen j (List.mem_cons_of_mem p0 hj)
  set targets := tl.map (fun j => idx.getD j 0) with htargetsdef
  have htnodup : targets.Nodup := by
    refine List.Nodup.map_on ?_ htlnd
    intro j hj j' hj' heq
    rw [getD_eq_getElem_idx (htllen j hj),
      getD_eq_getElem_idx (htllen j' hj')] at heq
    exact (hinv.nodup.getElem_inj_iff).1 heq
  have hpnotint : p ∉ targets := by
    intro hmem
    rw [htargetsdef, List.mem_map] at hmem
    obtain ⟨j, hj, hval⟩ := hmem
    rw [getD_eq_getElem_idx (htllen j hj), ← hpelem] at hval
    have := (hinv.nodup.getElem_inj_iff).1 hval
    subst this
    exact absurd (hp0lt j hj) (lt_irrefl _)
  have htmem : ∀ k ∈ targets, k ∈ idx := by
    intro k hk
    rw [htargetsdef, List.mem_map] at hk
    obtain ⟨j, hj, hval⟩ := hk
    rw [← hval]
    exact getD_mem (htllen j hj) 0
  have htbit : ∀ k ∈ targets, (st.zs.getD k default).getBit i = true := by
    intro k hk
    rw [htargetsdef, List.mem_map] at hk
    obtain ⟨j, hj, hval⟩ := hk
    rw [← hval]
    exact ((hmemJ j).1 (List.mem_cons_of_mem p0 hj)).2
  have htlt : ∀ k ∈ targets, k < n := fun k hk => hinv.mem_lt k (htmem k hk)
  have htbounds : ∀ k ∈ targets, k < st.xs.length ∧ k < st.zs.length ∧
      k / BLOCK_SIZE < st.sgns.inner.length := by
    intro k hk
    have hkn := htlt k hk
    exact ⟨by omega, by omega, BitArray.wf_block_lt hws hkn⟩
  rw [elimAdds_eq_targets_fold, ← htargetsdef]
  set stF := targets.foldl (addRowStep p sg0) st with hstFdef
  obtain ⟨Cx, Cz, Cs, Cm, Cr, Cu, Ct⟩ :=
    addRow_loop_char p sg0 targets st stF rfl htnodup hpnotint htbounds
  have hindexOf : idx.indexOf p = p0 := by
    have h1 : idx.indexOf p < idx.length := List.indexOf_lt_length.2 hpidx
    have h2 : idx[idx.indexOf p] = p := List.getElem_indexOf h1
    exact (hinv.nodup.getElem_inj_iff).1 (h2.trans hpelem.symm)
  have hperm : (swapRemove idx p0).Perm (idx.erase p) := by
    have h1 := swapRemove_perm idx p0 hp0len
    rw [show idx.eraseIdx p0 = idx.erase p from by
      rw [← hindexOf]
      exact List.eraseIdx_indexOf_eq_erase p idx] at h1
    exact h1
  have hmem' : ∀ k, k ∈ swapRemove idx p0 ↔ (k ∈ idx ∧ k ≠ p) := by
    intro k
    rw [hperm.mem_iff, hinv.nodup.mem_erase_iff]
    tauto
  have hnodup' : (swapRemove idx p0).Nodup :=
    hperm.nodup_iff.2 (hinv.nodup.erase p)
  have hUrow : ∀ m, m ∉ targets →
      stF.xs.getD m default = st.xs.getD m default ∧
      stF.zs.getD m default = st.zs.getD m default ∧
      stF.sgns.getBit m = st.sgns.getBit m := Cu
  have hrowwf : ∀ k, k < n → (st.xs.getD k default).wf n :=
    fun k hk => getD_row_wf hlx hwx hk
  have hrowwfz : ∀ k, k < n → (st.zs.getD k default).wf n :=
    fun k hk => getD_row_wf hlz hwz hk
  have hTbitx : ∀ k ∈ targets, ∀ c : Nat,
      (stF.xs.getD k default).getBit c
        = ((st.xs.getD k default).getBit c).xor
            ((st.xs.getD p default).getBit c) := by
    intro k hk c
    rw [(Ct k hk).1]
    exact BitArray.getBit_xor_all _ _
      (by rw [(hrowwf k (htlt k hk)).2.1, (hrowwf p hpn).2.1]) c
  have hTbitz : ∀ k ∈ targets, ∀ c : Nat,
      (stF.zs.getD k default).getBit c
        = ((st.zs.getD k default).getBit c).xor
            ((st.zs.getD p default).getBit c) := by
    intro k hk c
    rw [(Ct k hk).2.1]
    exact BitArray.getBit_xor_all _ _
      (by rw [(hrowwfz k (htlt k hk)).2.1, (hrowwfz p hpn).2.1]) c
  set cvec : Fin n → ZMod 2 :=
    fun k => if (k : Nat) ∈ targets then 1 else 0 with hcvecdef
  set pF : Fin n := ⟨p, hpn⟩ with hpFdef
  have hrv : rowVec n stF
      = fun k => rowVec n st k + cvec k • rowVec n st pF := by
    funext k
    rcases Decidable.em ((k : Nat) ∈ targets) with hkt | hkt
    · have hc1 : cvec k = 1 := by rw [hcvecdef]; simp [hkt]
      rw [hc1, one_smul]
      refine Prod.ext (funext fun i' => ?_) (funext fun i' => ?_)
      · rw [Prod.fst_add, Pi.add_apply, rowVec_fst, rowVec_fst, rowVec_fst,
          hTbitx k hkt i', b2z_xor]
      · rw [Prod.snd_add, Pi.add_apply, rowVec_snd, rowVec_snd, rowVec_snd,
          hTbitz k hkt i', b2z_xor]
    · have hc0 : cvec k = 0 := by rw [hcvecdef]; simp [hkt]
      rw [hc0, zero_smul, add_zero]
      obtain ⟨u1, u2, u3⟩ := hUrow k hkt
      refine Prod.ext (funext fun i' => ?_) (funext fun i' => ?_)
      · rw [rowVec_fst, rowVec_fst, u1]
      · rw [rowVec_snd, rowVec_snd, u2]
  have hcp0 : cvec pF = 0 := by
    rw [hcvecdef]
    simp [hpnotint]
  refine
    { wf := ?_, nodup := hnodup', mem_lt := ?_, live_iff := ?_,
      live_xzero := ?_, live_zclear := ?_, deadX := ?_, deadZ := ?_,
      tag_inj := ?_, indep := ?_, iso := ?_, qfree := ?_ }
  · refine ⟨Cx.trans hlx, Cz.trans hlz, ?_, ?_, ?_, ?_⟩
    · refine rows_wf_of_getD (Cx.trans hlx) ?_
      intro m hm
      rcases Decidable.em (m ∈ targets) with hmt | hmt
      · rw [(Ct m hmt).1]
        exact BitArray.wf_xor_all (hrowwf m hm) (hrowwf p hpn)
      · rw [(hUrow m hmt).1]
        exact hrowwf m hm
    · refine rows_wf_of_getD (Cz.trans hlz) ?_
      intro m hm
      rcases Decidable.em (m ∈ targets) with hmt | hmt
      · rw [(Ct m hmt).2.1]
        exact BitArray.wf_xor_all (hrowwfz m hm) (hrowwfz p hpn)
      · rw [(hUrow m hmt).2.1]
        exact hrowwfz m hm
    · exact addRow_fold_sgns_wf p sg0 targets st hws
    · rw [Cm]
      exact hwm
  · intro k hk
    exact hinv.mem_lt k ((hmem' k).1 hk).1
  · intro k hkn
    rw [hmem' k, hinv.live_iff k hkn]
    rcases eq_or_ne k p with rfl | hkp
    · simp
    · simp [hkp]
  · -- live_xzero
    intro k hk c hc
    obtain ⟨hkidx, hkp⟩ := (hmem' k).1 hk
    rcases Decidable.em (k ∈ targets) with hkt | hkt
    · rw [hTbitx k hkt c, hinv.live_xzero k hkidx c hc,
        hinv.live_xzero p hpidx c hc]
      rfl
    · rw [(hUrow k hkt).1]
      exact hinv.live_xzero k hkidx c hc
  · -- live_zclear
    intro k hk c hc hcq
    obtain ⟨hkidx, hkp⟩ := (hmem' k).1 hk
    rcases Decidable.em (k ∈ targets) with hkt | hkt
    · rw [hTbitz k hkt c]
      rcases Nat.lt_or_ge c i with hci | hci
      · rw [hinv.live_zclear k hkidx c hci hcq,
          hinv.live_zclear p hpidx c hci hcq]
        rfl
      · have hceq : c = i := by omega
        subst hceq
        rw [htbit k hkt, hpbit]
        rfl
    · rw [(hUrow k hkt).2.1]
      rcases Nat.lt_or_ge c i with hci | hci
      · exact hinv.live_zclear k hkidx c hci hcq
      · have hceq : c = i := by omega
        subst hceq
        by_contra hbit
        have hbit' : (st.zs.getD k default).getBit c = true := by
          rcases hb : (st.zs.getD k default).getBit c with _ | _
          · exact absurd hb hbit
          · rfl
        rw [List.mem_iff_getElem] at hkidx
        obtain ⟨j, hj, hval⟩ := hkidx
        have hjmem : j ∈ p0 :: tl := by
          rw [hmemJ j]
          refine ⟨hj, ?_⟩
          rw [getD_eq_getElem_idx hj, hval]
          exact hbit'
        rcases List.mem_cons.mp hjmem with rfl | hjtl
        · rw [hpelem] at hval
          exact hkp hval.symm
        · apply hkt
          rw [htargetsdef, List.mem_map]
          exact ⟨j, hjtl, by rw [getD_eq_getElem_idx hj, hval]⟩
  · -- deadX
    intro k c hkn htag
    rcases eq_or_ne k p with rfl | hkp
    · rw [if_pos rfl] at htag
      exfalso
      injection htag with h2
      simp at h2
    · rw [if_neg hkp] at htag
      obtain ⟨h1, h2, h3⟩ := hinv.deadX k c hkn htag
      have hkdead : k ∉ idx := by
        intro hmem
        rw [hinv.live_iff k hkn] at hmem
        rw [hmem] at htag
        exact absurd htag (by simp)
      have hknot : k ∉ targets := fun h => hkdead (htmem k h)
      obtain ⟨u1, u2, u3⟩ := hUrow k hknot
      refine ⟨h1, ?_, ?_⟩
      · rw [u1]
        exact h2
      · intro c' hc'
        rw [u1]
        exact h3 c' hc'
  · -- deadZ
    intro k c hkn htag
    rcases eq_or_ne k p with rfl | hkp
    · rw [if_pos rfl] at htag
      injection htag with h2
      injection h2 with h3
      subst h3
      obtain ⟨u1, u2, u3⟩ := hUrow p hpnotint
      refine ⟨by omega, hiq, ?_, ?_, ?_⟩
      · intro c' hc'
        rw [u1]
        exact hinv.live_xzero p hpidx c' hc'
      · rw [u2]
        exact hpbit
      · intro c' hc' hc'q
        rw [u2]
        exact hinv.live_zclear p hpidx c' hc' hc'q
    · rw [if_neg hkp] at htag
      obtain ⟨h1, h2, h3, h4, h5⟩ := hinv.deadZ k c hkn htag
      have hkdead : k ∉ idx := by
        intro hmem
        rw [hinv.live_iff k hkn] at hmem
        rw [hmem] at htag
        exact absurd htag (by simp)
      have hknot : k ∉ targets := fun h => hkdead (htmem k h)
      obtain ⟨u1, u2, u3⟩ := hUrow k hknot
      refine ⟨by omega, h2, ?_, ?_, ?_⟩
      · intro c' hc'
        rw [u1]
        exact h3 c' hc'
      · rw [u2]
        exact h4
      · intro c' hc' hc'q
        rw [u2]
        exact h5 c' hc' hc'q
  · -- tag_inj
    intro k k' t hkn hk'n htag htag'
    rcases eq_or_ne k p with rfl | hkp <;> rcases eq_or_ne k' p with h2 | h2
    · rw [h2]
    · rw [if_pos rfl] at htag
      rw [if_neg h2] at htag'
      injection htag with ht
      rw [← ht] at htag'
      have := (hinv.deadZ k' i hk'n htag').1
      omega
    · rw [if_neg hkp] at htag
      rw [h2, if_pos rfl] at htag'
      injection htag' with ht
      rw [← ht] at htag
      have := (hinv.deadZ k i hkn htag).1
      omega
    · rw [if_neg hkp] at htag
      rw [if_neg h2] at htag'
      exact hinv.tag_inj k k' t hkn hk'n htag htag'
  · rw [hrv]
    exact lin_indep_step _ hinv.indep pF cvec hcp0
  · intro k j
    rw [hrv]
    simp only [map_add, map_smul, LinearMap.add_apply, LinearMap.smul_apply,
      smul_eq_mul, hinv.iso, mul_zero, add_zero, zero_add, smul_zero]
  · intro k hkn
    rcases Decidable.em (k ∈ targets) with hkt | hkt
    · rw [hTbitx k hkt q, hinv.qfree k hkn, hinv.qfree p hpn]
      rfl
    · rw [(hUrow k hkt).1]
      exact hinv.qfree k hkn

theorem elimZ_unfold_nil (st : GottesmanKnillSimulator R) (idx : List Nat)
    (i : Nat) (h : zInds st idx i = []) : elimZ (st, idx) i = (st, idx) := by
  unfold elimZ
  dsimp only
  rw [h]

theorem elimZ_unfold_cons (st : GottesmanKnillSimulator R) (idx : List Nat)
    (i p0 : Nat) (tl : List Nat) (h : zInds st idx i = p0 :: tl) :
    elimZ (st, idx) i
      = (elimAdds idx (idx.getD p0 0) (st.sgns.get_bool (idx.getD p0 0)) tl st,
         swapRemove idx p0) := by
  unfold elimZ
  dsimp only
  rw [h]

theorem zinv_pass (n q : Nat) (st1 : GottesmanKnillSimulator R)
    (idx1 : List Nat) (tag1 : Nat → Option (Nat ⊕ Nat))
    (hinv1 : ZInv n q 0 st1 idx1 tag1) :
    ∀ i, i ≤ n → ∃ tag,
      ZInv n q i
        (((List.range i).foldl (fun a j => if j = q then a else elimZ a j)
            (st1, idx1)).1)
        (((List.range i).foldl (fun a j => if j = q then a else elimZ a j)
            (st1, idx1)).2) tag := by
  intro i
  induction i with
  | zero =>
    intro _
    exact ⟨tag1, hinv1⟩
  | succ i ih =>
    intro hi
    obtain ⟨tag, hinv⟩ := ih (by omega)
    rw [List.range_succ, List.foldl_append, List.foldl_cons, List.foldl_nil]
    set acc := (List.range i).foldl (fun a j => if j = q then a else elimZ a j)
      (st1, idx1) with haccdef
    have hacc : acc = (acc.1, acc.2) := rfl
    rcases eq_or_ne i q with hiq | hiq
    · rw [if_pos hiq]
      exact ⟨tag, zinv_step_skip n q i acc.1 acc.2 tag hinv hiq⟩
    · rw [if_neg hiq, hacc]
      cases hx : zInds acc.1 acc.2 i with
      | nil =>
        rw [elimZ_unfold_nil acc.1 acc.2 i hx]
        exact ⟨tag, zinv_step_nil n q i acc.1 acc.2 tag hinv hx⟩
      | cons p0 tl =>
        rw [elimZ_unfold_cons acc.1 acc.2 i p0 tl hx]
        exact ⟨fun k => if k = acc.2.getD p0 0 then some (Sum.inr i)
            else tag k,
          zinv_step_cons n q i acc.1 acc.2 tag (by omega) hiq hinv p0 tl hx⟩

theorem b2z_false : b2z false = 0 := rfl

theorem b2z_true : b2z true = 1 := rfl

/-- From the final invariant: the live index list is exactly one row,
whose vector is `Z_q`. -/
theorem zinv_final (n q : Nat) (hq : q < n) (st : GottesmanKnillSimulator R)
    (idx : List Nat) (tag : Nat → Option (Nat ⊕ Nat))
    (hinv : ZInv n q n st idx tag) :
    ∃ k, idx = [k] := by
  set qF : Fin n := ⟨q, hq⟩ with hqFdef
  set zq : PauliVec n := (0, Pi.single qF 1) with hzqdef
  -- every live row's vector is `zq`
  have hlive_vec : ∀ k (hk : k ∈ idx),
      rowVec n st ⟨k, hinv.mem_lt k hk⟩ = zq := by
    intro k hk
    set kF : Fin n := ⟨k, hinv.mem_lt k hk⟩ with hkFdef
    have hx0 : (rowVec n st kF).1 = 0 := by
      funext i
      rw [rowVec_fst, hinv.live_xzero k hk i.val i.isLt, b2z_false]
      rfl
    have hzoff : ∀ i : Fin n, i ≠ qF → (rowVec n st kF).2 i = 0 := by
      intro i hiq
      have hvq : (i : Nat) ≠ q := by
        intro h
        apply hiq
        rw [hqFdef]
        exact Fin.ext h
      rw [rowVec_snd, hinv.live_zclear k hk i.val i.isLt hvq, b2z_false]
    rcases hzb : (st.zs.getD k default).getBit q with _ | _
    · exfalso
      apply hinv.indep.ne_zero kF
      refine Prod.ext hx0 (funext fun i => ?_)
      rcases eq_or_ne i qF with rfl | hiq
      · rw [rowVec_snd]
        show b2z ((st.zs.getD k default).getBit q) = 0
        rw [hzb, b2z_false]
      · rw [hzoff i hiq]
        rfl
    · refine Prod.ext hx0 (funext fun i => ?_)
      rcases eq_or_ne i qF with rfl | hiq
      · rw [rowVec_snd]
        show b2z ((st.zs.getD k default).getBit q) = zq.2 qF
        rw [hzb, b2z_true, hzqdef]
        simp
      · rw [hzoff i hiq, hzqdef]
        dsimp only
        rw [Pi.single_eq_of_ne hiq]
  -- at most one live row
  have hunique : ∀ k k', k ∈ idx → k' ∈ idx → k = k' := by
    intro k k' hk hk'
    have h1 := hlive_vec k hk
    have h2 := hlive_vec k' hk'
    have h3 := hinv.indep.injective (h1.trans h2.symm)
    injection h3 with h4
  -- the live list is nonempty
  have hne : idx ≠ [] := by
    intro hnil
    have halldead : ∀ k : Fin n, ∃ t, tag (k : Nat) = some t := by
      intro k
      have h1 := hinv.live_iff k.val k.isLt
      rw [hnil] at h1
      cases h : tag (k : Nat) with
      | none => exact absurd (h1.2 h) (by simp)
      | some t => exact ⟨t, rfl⟩
    have hbzq : ∀ k : Fin n, sympB n (rowVec n st k) zq = 0 := by
      intro k
      rw [hzqdef, sympB_zq, rowVec_fst, hinv.qfree k.val k.isLt, b2z_false]
    obtain ⟨c, hc⟩ := (mem_span_range_iff_exists_fun (ZMod 2)).1
      (lagrangian_mem (rowVec n st) hinv.indep hinv.iso zq hbzq)
    have hxcomp : ∀ γ : Fin n, (∑ k, c k * (rowVec n st k).1 γ) = zq.1 γ := by
      intro γ
      have h2 : (∑ k, c k • rowVec n st k).1 γ = zq.1 γ := by rw [hc]
      rw [Prod.fst_sum, Finset.sum_apply] at h2
      rw [← h2]
      apply Finset.sum_congr rfl
      intro k _
      rw [Prod.smul_fst, Pi.smul_apply, smul_eq_mul]
    have hzcomp : ∀ γ : Fin n, (∑ k, c k * (rowVec n st k).2 γ) = zq.2 γ := by
      intro γ
      have h2 : (∑ k, c k • rowVec n st k).2 γ = zq.2 γ := by rw [hc]
      rw [Prod.snd_sum, Finset.sum_apply] at h2
      rw [← h2]
      apply Finset.sum_congr rfl
      intro k _
      rw [Prod.smul_snd, Pi.smul_apply, smul_eq_mul]
    set S : Finset (Fin n) := Finset.univ.filter (fun k => c k ≠ 0) with hSdef
    have hSne : S.Nonempty := by
      by_contra hSe
      rw [Finset.not_nonempty_iff_eq_empty] at hSe
      have hzero : ∀ k : Fin n, c k = 0 := by
        intro k
        by_contra hck
        have : k ∈ S := by
          rw [hSdef]
          simp [hck]
        rw [hSe] at this
        exact absurd this (by simp)
      have h1 := hzcomp qF
      rw [Finset.sum_eq_zero (fun k _ => by rw [hzero k, zero_mul])] at h1
      rw [hzqdef] at h1
      dsimp only at h1
      rw [Pi.single_eq_same] at h1
      exact absurd h1.symm one_ne_zero
    set isX : Fin n → Bool := fun k =>
      match tag (k : Nat) with
      | some (Sum.inl _) => true
      | _ => false with hisXdef
    set colN : Fin n → Nat := fun k =>
      match tag (k : Nat) with
      | some (Sum.inl cc) => cc
      | some (Sum.inr cc) => cc
      | none => 0 with hcolNdef
    have htagX : ∀ k : Fin n, isX k = true →
        tag (k : Nat) = some (Sum.inl (colN k)) := by
      intro k hk
      rcases h : tag (k : Nat) with _ | t
      · exfalso
        simp only [hisXdef, h] at hk
        exact Bool.noConfusion hk
      · rcases t with cc | cc
        · have hcol : colN k = cc := by
            simp only [hcolNdef, h]
          rw [hcol]
        · exfalso
          simp only [hisXdef, h] at hk
          exact Bool.noConfusion hk
    have htagZ : ∀ k : Fin n, isX k = false →
        tag (k : Nat) = some (Sum.inr (colN k)) := by
      intro k hk
      rcases h : tag (k : Nat) with _ | t
      · exfalso
        obtain ⟨t, ht⟩ := halldead k
        rw [h] at ht
        exact absurd ht (by simp)
      · rcases t with cc | cc
        · exfalso
          simp only [hisXdef, h] at hk
          exact Bool.noConfusion hk
        · have hcol : colN k = cc := by
            simp only [hcolNdef, h]
          rw [hcol]
    set SX : Finset (Fin n) := S.filter (fun k => isX k = true) with hSXdef
    have hcone : ∀ k ∈ S, c k = 1 := by
      intro k hk
      rw [hSdef] at hk
      rw [Finset.mem_filter] at hk
      exact zmod2_ne_zero hk.2
    rcases Finset.eq_empty_or_nonempty SX with hSXe | hSXne
    · -- all coefficients sit on Z-pass pivots
      have hallZ : ∀ k ∈ S, tag (k : Nat) = some (Sum.inr (colN k)) := by
        intro k hk
        apply htagZ
        rcases h : isX k with _ | _
        · rfl
        · exfalso
          have : k ∈ SX := by
            rw [hSXdef, Finset.mem_filter]
            exact ⟨hk, h⟩
          rw [hSXe] at this
          exact absurd this (by simp)
      obtain ⟨km, hkmS, hkmmin⟩ := Finset.exists_min_image S colN hSne
      have hkmtag := hallZ km hkmS
      obtain ⟨hcm1, hcm2, hcm3, hcm4, hcm5⟩ :=
        hinv.deadZ km.val (colN km) km.isLt hkmtag
      have hγlt : colN km < n := by omega
      set γ : Fin n := ⟨colN km, hγlt⟩ with hγdef
      have h1 := hzcomp γ
      rw [Finset.sum_eq_single_of_mem km (Finset.mem_univ km)] at h1
      · rw [hcone km hkmS, one_mul, rowVec_snd] at h1
        show False
        rw [show ((st.zs.getD km.val default).getBit γ.val) = true from hcm4] at h1
        rw [b2z_true, hzqdef] at h1
        dsimp only at h1
        rw [Pi.single_eq_of_ne (by
          intro hγq
          apply hcm2
          have : (γ : Nat) = q := by rw [hγq]
          exact this)] at h1
        exact absurd h1 one_ne_zero
      · intro b _ hbkm
        rcases Decidable.em (b ∈ S) with hbS | hbS
        · have hbtag := hallZ b hbS
          obtain ⟨hb1, hb2, hb3, hb4, hb5⟩ :=
            hinv.deadZ b.val (colN b) b.isLt hbtag
          have hminle := hkmmin b hbS
          have hbne : colN km ≠ colN b := by
            intro heq
            apply hbkm
            have h5 := hinv.tag_inj b.val km.val (Sum.inr (colN km)) b.isLt
              km.isLt (by rw [hbtag, heq]) hkmtag
            exact Fin.ext h5
          have hlt : colN km < colN b := by omega
          rw [rowVec_snd, hb5 (colN km) hlt hcm2, b2z_false, mul_zero]
        · have : c b = 0 := by
            by_contra hcb
            apply hbS
            rw [hSdef]
            simp [hcb]
          rw [this, zero_mul]
    · -- some coefficient sits on an X-pass pivot
      obtain ⟨km, hkmSX, hkmmin⟩ := Finset.exists_min_image SX colN hSXne
      have hkmS : km ∈ S := by
        rw [hSXdef] at hkmSX
        exact (Finset.mem_filter.1 hkmSX).1
      have hkmX : isX km = true := by
        rw [hSXdef] at hkmSX
        exact (Finset.mem_filter.1 hkmSX).2
      have hkmtag := htagX km hkmX
      obtain ⟨hcm1, hcm2, hcm3⟩ :=
        hinv.deadX km.val (colN km) km.isLt hkmtag
      set γ : Fin n := ⟨colN km, hcm1⟩ with hγdef
      have h1 := hxcomp γ
      rw [Finset.sum_eq_single_of_mem km (Finset.mem_univ km)] at h1
      · rw [hcone km hkmS, one_mul, rowVec_fst] at h1
        rw [show ((st.xs.getD km.val default).getBit γ.val) = true from hcm2] at h1
        rw [b2z_true, hzqdef] at h1
        dsimp only at h1
        exact absurd h1 one_ne_zero
      · intro b _ hbkm
        rcases Decidable.em (b ∈ S) with hbS | hbS
        · rcases hbX : isX b with _ | _
          · -- a Z-pass pivot row has zero x-part
            have hbtag := htagZ b hbX
            obtain ⟨hb1, hb2, hb3, hb4, hb5⟩ :=
              hinv.deadZ b.val (colN b) b.isLt hbtag
            rw [rowVec_fst, hb3 γ.val γ.isLt, b2z_false, mul_zero]
          · have hbtag := htagX b hbX
            obtain ⟨hb1, hb2, hb3⟩ :=
              hinv.deadX b.val (colN b) b.isLt hbtag
            have hbSX : b ∈ SX := by
              rw [hSXdef, Finset.mem_filter]
              exact ⟨hbS, hbX⟩
            have hminle := hkmmin b hbSX
            have hbne : colN km ≠ colN b := by
              intro heq
              apply hbkm
              have := hinv.tag_inj b.val km.val (Sum.inl (colN km)) b.isLt
                km.isLt (by rw [hbtag, heq]) hkmtag
              exact Fin.ext this
            have hlt : colN km < colN b := by omega
            rw [rowVec_fst, hb3 (colN km) hlt, b2z_false, mul_zero]
        · have : c b = 0 := by
            by_contra hcb
            apply hbS
            rw [hSdef]
            simp [hcb]
          rw [this, zero_mul]
  -- conclude: a nonempty list with all members equal and no duplicates
  cases hidx : idx with
  | nil => exact absurd hidx hne
  | cons a t =>
    refine ⟨a, ?_⟩
    cases ht : t with
    | nil => rfl
    | cons b t' =>
      exfalso
      rw [ht] at hidx
      have hb : b = a := by
        apply hunique b a
        · rw [hidx]
          exact List.mem_cons_of_mem a (List.mem_cons_self b t')
        · rw [hidx]
          exact List.mem_cons_self a _
      have hnd := hinv.nodup
      rw [hidx, List.nodup_cons] at hnd
      exact hnd.1 (hb ▸ List.mem_cons_self b t')

/-- **C3**: on a tableau whose rows are linearly independent over
`GF(2)` and pairwise commute (the symplectic form vanishes), if no row
anticommutes with `Z_q` (no x-bit in column `q` — the deterministic
branch), then after the X pass over all columns and the Z pass over
all columns except `q` exactly one live row remains: the
`assert_eq!(indices.len(), 1)` cannot fire, `measure` returns
normally, and the outcome is the sign bit of that remaining row. -/
theorem c3_deterministic_branch {n : Nat} (next32 : R → Nat × R)
    (st : GottesmanKnillSimulator R) (q : Nat)
    (hwf : st.WF n) (hq : q < n)
    (hdet : ∀ k, k < n → (st.xs.getD k default).getBit q = false)
    (hiso : ∀ k j : Fin n, sympB n (rowVec n st k) (rowVec n st j) = 0)
    (hli : LinearIndependent (ZMod 2) (rowVec n st)) :
    ∃ k : Nat,
      ((List.range n).foldl (fun a i => if i = q then a else elimZ a i)
          ((List.range n).foldl elimX (st, List.range n))).2 = [k] ∧
      LayGK.measure next32 st q
        = some
            ((((List.range n).foldl (fun a i => if i = q then a else elimZ a i)
                ((List.range n).foldl elimX (st, List.range n))).1).sgns.get_bool
              k,
             ((List.range n).foldl (fun a i => if i = q then a else elimZ a i)
                ((List.range n).foldl elimX (st, List.range n))).1) := by
  obtain ⟨tagX, hinvX⟩ :=
    xinv_pass n q st hwf hli hiso hdet n le_rfl
  set acc1 := (List.range n).foldl elimX (st, List.range n) with hacc1def
  have hinvZ0 := zinv_of_xinv n q acc1.1 acc1.2 tagX hinvX
  obtain ⟨tagZ, hinvZ⟩ :=
    zinv_pass n q acc1.1 acc1.2 (fun k => (tagX k).map Sum.inl) hinvZ0 n le_rfl
  have hacc1eta : (acc1.1, acc1.2) = acc1 := rfl
  rw [hacc1eta] at hinvZ
  set acc2 := (List.range n).foldl (fun a i => if i = q then a else elimZ a i)
    acc1 with hacc2def
  obtain ⟨k, hk⟩ := zinv_final n q hq acc2.1 acc2.2 tagZ hinvZ
  refine ⟨k, hk, ?_⟩
  have hnc : (st.xs.enum.filter (fun ib => ib.2.get_bool q)).map Prod.fst
      = [] := by
    have hfil : st.xs.enum.filter (fun ib => ib.2.get_bool q) = [] := by
      rw [List.filter_eq_nil_iff]
      intro ib hib
      have hget := List.mem_enum_iff_getElem?.1 hib
      rw [List.getElem?_eq_some] at hget
      obtain ⟨hlt, hval⟩ := hget
      have hlt' : ib.1 < n := by
        rw [← hwf.1]
        exact hlt
      have : st.xs.getD ib.1 default = ib.2 := by
        rw [List.getD_eq_getElem?_getD, List.getElem?_eq_getElem hlt, hval]
        rfl
      rw [← this, BitArray.get_bool_eq_getBit, hdet ib.1 hlt']
      simp
    rw [hfil, List.map_nil]
  have hnq : st.n_qubits = n := hwf.1
  unfold LayGK.measure
  rw [hnc]
  dsimp only
  rw [hnq, ← hacc1def, ← hacc2def, hk]
  have hcond : (([k] : List Nat).length = 1) := rfl
  rw [if_pos hcond]
  rfl

/-- **C3, witness**: the canonical one-qubit `|0⟩` tableau measured at
qubit 0 goes through the deterministic branch and returns the sign of
the single remaining row. -/
theorem c3_deterministic_branch_witness :
    LayGK.measure (fun _ : Unit => (0, ()))
        (GottesmanKnillSimulator.fromRng 1 ()) 0
      = some
          ((((List.range 1).foldl (fun a i => if i = 0 then a else elimZ a i)
              ((List.range 1).foldl elimX
                (GottesmanKnillSimulator.fromRng 1 (), List.range 1))).1).sgns.get_bool
            0,
           ((List.range 1).foldl (fun a i => if i = 0 then a else elimZ a i)
              ((List.range 1).foldl elimX
                (GottesmanKnillSimulator.fromRng 1 (), List.range 1))).1) := by
  obtain ⟨k, hk, hm⟩ := @c3_deterministic_branch Unit 1 (fun _ : Unit => (0, ()))
    (GottesmanKnillSimulator.fromRng 1 ()) 0 (by decide) (by decide)
    (fun k hk => by
      have hk0 : k = 0 := by omega
      subst hk0
      decide)
    (by decide)
    (by
      apply linearIndependent_unique
        (rowVec 1 (GottesmanKnillSimulator.fromRng 1 ()))
      intro h
      have h2 := congrArg (fun v : PauliVec 1 => v.2 0) h
      exact absurd h2 (by decide))
  have h0 : ((List.range 1).foldl (fun a i => if i = 0 then a else elimZ a i)
      ((List.range 1).foldl elimX
        (GottesmanKnillSimulator.fromRng 1 (), List.range 1))).2 = [0] := by
    decide
  rw [h0] at hk
  injection hk with hk1 hk2
  rw [← hk1] at hm
  exact hm

end LayGK
